import Mathlib

/-!
Verification development for the nbt-glib NBT/MCA codec.

Bytes are modelled as `Nat` values (< 256 where relevant), machine
integers as `Nat`/`Int` with explicit modular wrap-around where the C
code truncates.  C strings are modelled as the list of their content
bytes; the terminating NUL is implicit (reads past the end of a buffer,
which in C would touch the NUL terminator or be undefined behaviour,
are modelled as yielding 0).

The host is assumed little-endian, so the C pattern
`load + GUINT*_SWAP_LE_BE` amounts to big-endian byte order, which is
how the primitive readers and writers are modelled.
-/

namespace NbtGlib

/-! ## Tag constants (enum NBT_Tags, nbt_parse.h) -/

abbrev TAG_End : Nat := 0
abbrev TAG_Byte : Nat := 1
abbrev TAG_Short : Nat := 2
abbrev TAG_Int : Nat := 3
abbrev TAG_Long : Nat := 4
abbrev TAG_Float : Nat := 5
abbrev TAG_Double : Nat := 6
abbrev TAG_Byte_Array : Nat := 7
abbrev TAG_String : Nat := 8
abbrev TAG_List : Nat := 9
abbrev TAG_Compound : Nat := 10
abbrev TAG_Int_Array : Nat := 11
abbrev TAG_Long_Array : Nat := 12

/-- `isValidTag` macro from nbt_parse.c: `tag > TAG_End && tag <= TAG_Long_Array`. -/
def isValidTag (tag : Nat) : Bool := TAG_End < tag && tag ≤ TAG_Long_Array

/-! ## MUTF-8 decoding (nbt_parse.c) -/

/-- `skip_len` from nbt_parse.c.  `(gint8)*str > 0` selects bytes 1..0x7F;
`(*str & 0xe0) == 0xe0` selects bytes 0xE0..0xFF (3-byte leaders,
including 0xF0..0xFF); `(*str & 0xc0) == 0xc0` selects 0xC0..0xDF
(2-byte leaders); everything else (0, continuation bytes 0x80..0xBF)
yields 0. -/
def skip_len (b : Nat) : Nat :=
  if 0 < b ∧ b ≤ 0x7f then 1
  else if b &&& 0xe0 = 0xe0 then 3
  else if b &&& 0xc0 = 0xc0 then 2
  else 0

/-- The UTF-16 code-unit-building loop of `convert_string` (nbt_parse.c).
Walks the byte string until a NUL byte (the C loop condition `*str`),
assembling one `guint16` per step; a byte for which `skip_len` is 0 in
leader position aborts with failure (the C code frees the buffer and
returns NULL).  Bytes read beyond the end of the list (the C code can
read the NUL terminator, or past it, when a multi-byte leader sits at
the end) are modelled as 0. -/
def mutf8_units : List Nat → Option (List Nat)
  | [] => some []
  | b :: rest =>
    if b = 0 then some []
    else if 0 < b ∧ b ≤ 0x7f then
      (mutf8_units rest).map (fun us => b :: us)
    else if b &&& 0xe0 = 0xe0 then
      match rest with
      | [] => some [(b &&& 0xf) * 4096]
      | b1 :: b2 :: rest2 =>
        (mutf8_units rest2).map
          (fun us => ((b &&& 0xf) * 4096 + (b1 &&& 0x3f) * 64 + (b2 &&& 0x3f)) :: us)
      | b1 :: _ => some [(b &&& 0xf) * 4096 + (b1 &&& 0x3f) * 64]
    else if b &&& 0xc0 = 0xc0 then
      match rest with
      | [] => some [(b &&& 0x1f) * 64]
      | b1 :: rest1 =>
        (mutf8_units rest1).map (fun us => ((b &&& 0x1f) * 64 + (b1 &&& 0x3f)) :: us)
    else none

/-- `g_unichar_to_utf8` (GLib): minimal-length UTF-8 encoding of a code
point, as used by `g_string_append_unichar` and `g_utf16_to_utf8`. -/
def g_unichar_to_utf8 (c : Nat) : List Nat :=
  if c < 0x80 then [c]
  else if c < 0x800 then [0xc0 + c / 64, 0x80 + c % 64]
  else if c < 0x10000 then
    [0xe0 + c / 4096, 0x80 + c / 64 % 64, 0x80 + c % 64]
  else if c < 0x200000 then
    [0xf0 + c / 262144, 0x80 + c / 4096 % 64, 0x80 + c / 64 % 64, 0x80 + c % 64]
  else if c < 0x4000000 then
    [0xf8 + c / 16777216, 0x80 + c / 262144 % 64, 0x80 + c / 4096 % 64,
      0x80 + c / 64 % 64, 0x80 + c % 64]
  else
    [0xfc + c / 1073741824, 0x80 + c / 16777216 % 64, 0x80 + c / 262144 % 64,
      0x80 + c / 4096 % 64, 0x80 + c / 64 % 64, 0x80 + c % 64]

/-- `g_utf16_to_utf8` (GLib) on a unit list: stops at a NUL unit (or the
end of the list, which models the length bound passed by
`convert_string`), combines a high/low surrogate pair into a
supplementary code point, fails on an unpaired surrogate, and encodes
every resulting code point with `g_unichar_to_utf8`. -/
def g_utf16_to_utf8 : List Nat → Option (List Nat)
  | [] => some []
  | u :: rest =>
    if u = 0 then some []
    else if 0xd800 ≤ u ∧ u < 0xdc00 then
      match rest with
      | [] => none
      | v :: rest2 =>
        if 0xdc00 ≤ v ∧ v < 0xe000 then
          (g_utf16_to_utf8 rest2).map
            (fun bs => g_unichar_to_utf8 (0x10000 + (u - 0xd800) * 1024 + (v - 0xdc00)) ++ bs)
        else none
    else if 0xdc00 ≤ u ∧ u < 0xe000 then none
    else (g_utf16_to_utf8 rest).map (fun bs => g_unichar_to_utf8 u ++ bs)

/-- `convert_string` from nbt_parse.c: MUTF-8 wire bytes to in-memory
UTF-8.  The C function receives `len = strlen (str)` and passes it to
`g_utf16_to_utf8` as the unit-count bound; the unit array is also
NUL-terminated after the last assembled unit, so the conversion
processes at most `strlen` units and stops early at an assembled 0
unit. -/
def convert_string (s : List Nat) : Option (List Nat) :=
  let len := (s.takeWhile (fun b => b ≠ 0)).length
  (mutf8_units s).bind (fun us => g_utf16_to_utf8 (us.take len))

/-! ## MUTF-8 encoding (nbt.c) -/

/-- `g_utf8_skip` table (GLib), as used by `g_utf8_next_char`. -/
def g_utf8_skip (b : Nat) : Nat :=
  if b < 0xc0 then 1
  else if b < 0xe0 then 2
  else if b < 0xf0 then 3
  else if b < 0xf8 then 4
  else if b < 0xfc then 5
  else if b < 0xfe then 6
  else 1

/-- `g_utf8_get_char` (GLib): decode the code point whose leading byte
starts the list.  Continuation bytes beyond the end of the list are
modelled as 0; invalid leaders yield `(gunichar) -1` = 2^32 - 1, as in
GLib's `UTF8_COMPUTE`/`UTF8_GET`. -/
def g_utf8_get_char (s : List Nat) : Nat :=
  let b := s.headD 0
  let cont (i : Nat) : Nat := (s.drop i).headD 0 &&& 0x3f
  if b < 0x80 then b
  else if b < 0xc0 then 0xffffffff
  else if b < 0xe0 then (b &&& 0x1f) * 64 + cont 1
  else if b < 0xf0 then (b &&& 0xf) * 4096 + cont 1 * 64 + cont 2
  else if b < 0xf8 then (b &&& 0x7) * 262144 + cont 1 * 4096 + cont 2 * 64 + cont 3
  else if b < 0xfc then
    (b &&& 0x3) * 16777216 + cont 1 * 262144 + cont 2 * 4096 + cont 3 * 64 + cont 4
  else
    (b &&& 0x1) * 1073741824 + cont 1 * 16777216 + cont 2 * 262144 +
      cont 3 * 4096 + cont 4 * 64 + cont 5

/-- The 7-byte `temp` buffer built by `convert_string_to_mutf8`
(nbt.c) for a supplementary code point `c` (already offset by
`- 0x10000`): the six emitted bytes.  `temp[1]` and `temp[4]` are
`uint8_t` assignments, hence the `% 256`; note the source adds
`hipos & 0x3c0` (resp. `c & 0x3c0`) without shifting it down. -/
def mutf8_surrogate_bytes (c : Nat) : List Nat :=
  let hi := (1 <<< 20) - 1 - ((1 <<< 10) - 1)
  let hipos := (c &&& hi) >>> 10
  let mid3 := 0x3c0
  let mid4 := 0x3f
  [0xed,
   (0b10100000 + (hipos &&& mid3)) % 256,
   0b10000000 + (hipos &&& mid4),
   0xed,
   (0b10110000 + (c &&& mid3)) % 256,
   0b10000000 + (c &&& mid4)]

/-- `convert_string_to_mutf8` from nbt.c: iterate the UTF-8 input with
`g_utf8_get_char` / `g_utf8_next_char` until the NUL terminator; code
points below 0x10000 are re-encoded by `g_string_append_unichar`
(minimal UTF-8); larger ones get the hand-built surrogate-pair bytes
(appended with `g_string_append`, which copies all six bytes since none
of them is 0). -/
def convert_string_to_mutf8_go : Nat → List Nat → List Nat
  | 0, _ => []
  | _ + 1, [] => []
  | fuel + 1, b :: rest =>
    if b = 0 then []
    else
      let c := g_utf8_get_char (b :: rest)
      let chunk :=
        if c < 65536 then g_unichar_to_utf8 c
        else mutf8_surrogate_bytes (c - 0x10000)
      chunk ++ convert_string_to_mutf8_go fuel ((b :: rest).drop (g_utf8_skip b))

/-- The C loop is bounded only by the NUL terminator; since
`g_utf8_next_char` advances by at least one byte per iteration, the
input length bounds the iteration count and serves as the model's
fuel. -/
def convert_string_to_mutf8 (s : List Nat) : List Nat :=
  convert_string_to_mutf8_go s.length s

/-! ## The tag tree (NbtData / NbtNode, nbt_parse.h) -/

/-- The payload union of `NbtData`.  `value_i` is the `int64_t` member,
`value_d` the `double` member, `value_a` the array member
(`void *value` plus `int32_t len`).  The `double` member is modelled by
the raw big-endian wire word that produced it (the C code reinterprets
the word as float/double and, for floats, widens to double; no claim
depends on the numeric reading of these bits, so the bit-level
float-to-double conversion is left unmodelled).  The array member is
split by the role its `void *` plays: raw bytes / host integers for the
three array kinds, converted UTF-8 bytes for strings. -/
inductive NbtValue where
  | vNone : NbtValue
  | vInt (value_i : Int) : NbtValue
  | vDbl (value_d : Nat) : NbtValue
  | vArr (value : List Nat) (len : Int) : NbtValue
  | vStr (value : List Nat) (len : Int) : NbtValue
  deriving DecidableEq, Repr

/-- One `GNode` carrying an `NbtData`: tag (`type`), optional name
(`key`, NULL modelled as `none`), payload, and the ordered child
list. -/
inductive NbtNode where
  | mk (type : Nat) (key : Option (List Nat)) (value : NbtValue)
      (children : List NbtNode) : NbtNode
  deriving Repr

def NbtNode.type : NbtNode → Nat
  | .mk t _ _ _ => t

def NbtNode.key : NbtNode → Option (List Nat)
  | .mk _ k _ _ => k

def NbtNode.value : NbtNode → NbtValue
  | .mk _ _ v _ => v

def NbtNode.children : NbtNode → List NbtNode
  | .mk _ _ _ cs => cs

/-! ## The byte reader (NBT_Buffer, nbt_parse.c) -/

/-- Error codes of `NbtGlibParseError` (nbt_parse.h), plus the
model-only `depthExceeded` reported when the recursion fuel of the
modelled parser runs out (the C recursion has no such bound). -/
inductive PErr where
  | interrupted : PErr
  | uncompress : PErr
  | leftoverData : PErr
  | internal : PErr
  | cancelled : PErr
  | invalidTag : PErr
  | depthExceeded : PErr
  deriving DecidableEq, Repr

/-- Big-endian read of `w` bytes at `pos` (the C readers load and
`GUINT*_SWAP_LE_BE` on a little-endian host).  Bytes beyond the end of
the list read as 0; all in-range uses are guarded by bounds checks. -/
def readBE (buf : List Nat) (pos : Nat) : Nat → Nat
  | 0 => 0
  | w + 1 => readBE buf pos w * 256 + buf.getD (pos + w) 0

/-- `LIBNBT_getUint8`: bounds check `pos + 1 > len`, then read. -/
def LIBNBT_getUint8 (buf : List Nat) (pos : Nat) : Option (Nat × Nat) :=
  if pos + 1 > buf.length then none else some (buf.getD pos 0, pos + 1)

/-- `LIBNBT_getUint16`. -/
def LIBNBT_getUint16 (buf : List Nat) (pos : Nat) : Option (Nat × Nat) :=
  if pos + 2 > buf.length then none else some (readBE buf pos 2, pos + 2)

/-- `LIBNBT_getUint32`. -/
def LIBNBT_getUint32 (buf : List Nat) (pos : Nat) : Option (Nat × Nat) :=
  if pos + 4 > buf.length then none else some (readBE buf pos 4, pos + 4)

/-- `LIBNBT_getUint64`. -/
def LIBNBT_getUint64 (buf : List Nat) (pos : Nat) : Option (Nat × Nat) :=
  if pos + 8 > buf.length then none else some (readBE buf pos 8, pos + 8)

/-- `LIBNBT_getKey`: uint16 length, then that many raw bytes; length 0
yields the NULL key.  Returns `none` on a failed read (the C function
returns 0). -/
def LIBNBT_getKey (buf : List Nat) (pos : Nat) : Option (Option (List Nat) × Nat) :=
  match LIBNBT_getUint16 buf pos with
  | none => none
  | some (len, p2) =>
    if len = 0 then some (none, p2)
    else if p2 + len > buf.length then none
    else some (some ((buf.drop p2).take len), p2 + len)

/-- The `n` big-endian `w`-byte words starting at `pos`, except that
words whose bytes lie beyond the first `avail` bytes of the region read
as 0: models `memcpy` of `avail` bytes into a `g_new0` (zeroed)
allocation followed by per-element byteswaps, as in the
`TAG_Int_Array` / `TAG_Long_Array` cases. -/
def readBEList (buf : List Nat) (pos w n avail : Nat) : List Nat :=
  (List.range n).map (fun i => if w * i + w ≤ avail then readBE buf (pos + w * i) w else 0)

/-! ## The recursive-descent parser (`parse_value`, nbt_parse.c)

The C function is recursive with no explicit bound; the model threads a
`fuel` argument that strictly decreases at every recursive step (and is
exhausted only as `.error .depthExceeded`, which every theorem below
excludes by hypothesis).  The compound/list loops of the single C
function are split into `parse_compound` / `parse_items` so that each
loop iteration is one recursive step.  Progress reporting and
cancellation (`set_func`, `cancellable`) do not affect the result when,
as modelled, no progress sink is installed and the cancellable is NULL
(`g_cancellable_is_cancelled (NULL)` is FALSE); they are omitted. -/

mutual

/-- `parse_value` from nbt_parse.c, acting on a freshly created node
whose `data->type` is `typ`: resolve the tag (reading and validating a
tag byte if `typ` is `TAG_End`), read and MUTF-8-convert the key unless
`skipkey`, then read the payload.  Returns the finished node and the
new cursor, or the error the C function sets. -/
def parse_value : (fuel : Nat) → (typ : Nat) → (skipkey : Bool) → (buf : List Nat) →
    (pos : Nat) → Except PErr (NbtNode × Nat)
  | 0, _, _, _, _ => .error .depthExceeded
  | fuel + 1, typ, skipkey, buf, pos =>
    let step1 : Except PErr (Nat × Nat) :=
      if typ = TAG_End then
        match LIBNBT_getUint8 buf pos with
        | none => .error .interrupted
        | some (tag, p1) =>
          if isValidTag tag then .ok (tag, p1) else .error .invalidTag
      else .ok (typ, pos)
    match step1 with
    | .error e => .error e
    | .ok (tag, p1) =>
      let step2 : Except PErr (Option (List Nat) × Nat) :=
        if skipkey then .ok (none, p1)
        else
          match LIBNBT_getKey buf p1 with
          | none => .error .interrupted
          | some (none, p2) => .ok (none, p2)
          | some (some k, p2) =>
            match convert_string k with
            | none => .error .interrupted
            | some nk => .ok (some nk, p2)
      match step2 with
      | .error e => .error e
      | .ok (key, p2) =>
        if tag = TAG_Byte then
          match LIBNBT_getUint8 buf p2 with
          | none => .error .interrupted
          | some (v, p3) => .ok (.mk tag key (.vInt v) [], p3)
        else if tag = TAG_Short then
          match LIBNBT_getUint16 buf p2 with
          | none => .error .interrupted
          | some (v, p3) => .ok (.mk tag key (.vInt v) [], p3)
        else if tag = TAG_Int then
          match LIBNBT_getUint32 buf p2 with
          | none => .error .interrupted
          | some (v, p3) => .ok (.mk tag key (.vInt v) [], p3)
        else if tag = TAG_Long then
          match LIBNBT_getUint64 buf p2 with
          | none => .error .interrupted
          | some (v, p3) => .ok (.mk tag key (.vInt (Int.bmod v (2 ^ 64))) [], p3)
        else if tag = TAG_Float then
          if p2 + 4 > buf.length then .error .interrupted
          else .ok (.mk tag key (.vDbl (readBE buf p2 4)) [], p2 + 4)
        else if tag = TAG_Double then
          if p2 + 8 > buf.length then .error .interrupted
          else .ok (.mk tag key (.vDbl (readBE buf p2 8)) [], p2 + 8)
        else if tag = TAG_Byte_Array then
          match LIBNBT_getUint32 buf p2 with
          | none => .error .interrupted
          | some (len, p3) =>
            if p3 + len > buf.length then .error .interrupted
            else
              .ok (.mk tag key (.vArr ((buf.drop p3).take len) (Int.bmod len (2 ^ 32))) [],
                p3 + len)
        else if tag = TAG_String then
          match LIBNBT_getUint16 buf p2 with
          | none => .error .interrupted
          | some (len, p3) =>
            if p3 + len > buf.length then .error .interrupted
            else
              match convert_string ((buf.drop p3).take len) with
              | none => .error .interrupted
              | some nv => .ok (.mk tag key (.vStr nv (len + 1)) [], p3 + len)
        else if tag = TAG_List then
          match LIBNBT_getUint8 buf p2 with
          | none => .error .interrupted
          | some (list_type, p3) =>
            match LIBNBT_getUint32 buf p3 with
            | none => .error .interrupted
            | some (len, p4) =>
              if list_type = TAG_End ∧ len ≠ 0 then .error .invalidTag
              else
                match parse_items fuel len list_type buf p4 with
                | .error e => .error e
                | .ok (cs, p5) => .ok (.mk tag key .vNone cs, p5)
        else if tag = TAG_Compound then
          match parse_compound fuel buf p2 with
          | .error e => .error e
          | .ok (cs, p3) => .ok (.mk tag key .vNone cs, p3)
        else if tag = TAG_Int_Array then
          match LIBNBT_getUint32 buf p2 with
          | none => .error .interrupted
          | some (len, p3) =>
            let prod := len * 4 % 2 ^ 32
            if p3 + prod > buf.length then .error .interrupted
            else
              .ok (.mk tag key (.vArr (readBEList buf p3 4 len prod) (Int.bmod len (2 ^ 32))) [],
                p3 + prod)
        else if tag = TAG_Long_Array then
          match LIBNBT_getUint32 buf p2 with
          | none => .error .interrupted
          | some (len, p3) =>
            let prod := len * 8 % 2 ^ 32
            if p3 + prod > buf.length then .error .interrupted
            else
              .ok (.mk tag key (.vArr (readBEList buf p3 8 len prod) (Int.bmod len (2 ^ 32))) [],
                p3 + prod)
        else .error .interrupted

/-- The `TAG_List` loop of `parse_value`: parse `n` children, each
pre-seeded with `elemType` and parsed with `skipkey = 1`, appending in
order. -/
def parse_items (fuel n elemType : Nat) (buf : List Nat) (pos : Nat) :
    Except PErr (List NbtNode × Nat) :=
  match n with
  | 0 => .ok ([], pos)
  | n + 1 =>
    match fuel with
    | 0 => .error .depthExceeded
    | fuel + 1 =>
      match parse_value fuel elemType true buf pos with
      | .error e => .error e
      | .ok (c, p1) =>
        match parse_items fuel n elemType buf p1 with
        | .error e => .error e
        | .ok (cs, p2) => .ok (c :: cs, p2)

/-- The `TAG_Compound` loop of `parse_value`: read a tag byte (failure
is the "in compound" `case_default`, i.e. `interrupted`); 0 terminates;
otherwise parse a child pre-seeded with that tag, with
`skipkey = 0`. -/
def parse_compound : (fuel : Nat) → (buf : List Nat) → (pos : Nat) →
    Except PErr (List NbtNode × Nat)
  | 0, _, _ => .error .depthExceeded
  | fuel + 1, buf, pos =>
    match LIBNBT_getUint8 buf pos with
    | none => .error .interrupted
    | some (t, p1) =>
      if t = 0 then .ok ([], p1)
      else
        match parse_value fuel t false buf p1 with
        | .error e => .error e
        | .ok (c, p2) =>
          match parse_compound fuel buf p2 with
          | .error e => .error e
          | .ok (cs, p3) => .ok (c :: cs, p3)

end

/-- `nbt_node_new_opt` from nbt_parse.c.  The outer `Option` is `none`
exactly when the C behaviour is not modelled: GZIP- or ZLIB-framed
input (routed through GLib's `GZlibDecompressor`, an external
component) and empty input (whose `data[0]` framing probe is undefined
behaviour).  Otherwise the input is copied verbatim and parsed from a
root pre-seeded with `TAG_End`; on parse failure the tree is destroyed
and NULL returned with the error; on success the tree is returned, with
a `LEFTOVER_DATA` error if the cursor stopped short of the end. -/
def nbt_node_new_opt (fuel : Nat) (data : List Nat) :
    Option (Option NbtNode × Option PErr) :=
  if data.length = 0 then none
  else if 1 < data.length ∧ data.getD 0 0 = 0x1f ∧ data.getD 1 0 = 0x8b then none
  else if data.getD 0 0 = 0x78 then none
  else
    match parse_value fuel TAG_End false data 0 with
    | .error e => some (none, some e)
    | .ok (root, pos) =>
      if pos ≠ data.length then some (some root, some .leftoverData)
      else some (some root, none)

/-! ## The writer (nbt.c)

The C writer appends to one shared `GByteArray`; the model returns the
appended byte list, concatenating sub-results.  A failing sub-write
aborts the whole pack in C, so `Option` with early exit is
equivalent.  The payload union is read through the `NbtValue.as*`
projections: reading a member other than the stored one (type-punning
the C union admits but the library never does — invariant I1) is
modelled as a default value. -/

def NbtValue.asInt : NbtValue → Int
  | .vInt v => v
  | _ => 0

def NbtValue.asDbl : NbtValue → Nat
  | .vDbl w => w
  | _ => 0

def NbtValue.arrVal : NbtValue → List Nat
  | .vArr a _ => a
  | _ => []

def NbtValue.arrLen : NbtValue → Int
  | .vArr _ l => l
  | .vStr _ l => l
  | _ => 0

def NbtValue.strVal : NbtValue → List Nat
  | .vStr s _ => s
  | _ => []

/-- `nbt_node_write_uint8_to_gbytearray`: append one byte (the
`uint8_t` parameter truncates wider arguments). -/
def nbt_node_write_uint8_to_gbytearray (v : Nat) : List Nat := [v % 256]

/-- `nbt_node_write_uint16_to_gbytearray`: byteswap to big-endian and
append 2 bytes. -/
def nbt_node_write_uint16_to_gbytearray (v : Nat) : List Nat :=
  [v / 256 % 256, v % 256]

/-- `nbt_node_write_uint32_to_gbytearray`. -/
def nbt_node_write_uint32_to_gbytearray (v : Nat) : List Nat :=
  [v / 16777216 % 256, v / 65536 % 256, v / 256 % 256, v % 256]

/-- `nbt_node_write_uint64_to_gbytearray`. -/
def nbt_node_write_uint64_to_gbytearray (v : Nat) : List Nat :=
  [v / 72057594037927936 % 256, v / 281474976710656 % 256,
   v / 1099511627776 % 256, v / 4294967296 % 256,
   v / 16777216 % 256, v / 65536 % 256, v / 256 % 256, v % 256]

/-- `bswap_32` (`GUINT32_SWAP_LE_BE`). -/
def bswap_32 (v : Nat) : Nat :=
  v % 256 * 16777216 + v / 256 % 256 * 65536 + v / 65536 % 256 * 256 +
    v / 16777216 % 256

/-- `bswap_64` (`GUINT64_SWAP_LE_BE`). -/
def bswap_64 (v : Nat) : Nat :=
  v % 256 * 72057594037927936 + v / 256 % 256 * 281474976710656 +
    v / 65536 % 256 * 1099511627776 + v / 16777216 % 256 * 4294967296 +
    v / 4294967296 % 256 * 16777216 + v / 1099511627776 % 256 * 65536 +
    v / 281474976710656 % 256 * 256 + v / 72057594037927936 % 256

/-- The part of `nbt_node_write_key_to_gbytearray` after the tag byte:
when the key is non-NULL and non-empty (`key && key[0]`), the MUTF-8
conversion of the key preceded by its `strlen` as uint16; otherwise a
zero length. -/
def nbt_node_write_key_field (key : Option (List Nat)) : List Nat :=
  match key with
  | some k =>
    if k.headD 0 ≠ 0 then
      let new_key := (convert_string_to_mutf8 k).takeWhile (fun b => b ≠ 0)
      nbt_node_write_uint16_to_gbytearray new_key.length ++ new_key
    else nbt_node_write_uint16_to_gbytearray 0
  | none => nbt_node_write_uint16_to_gbytearray 0

/-- `nbt_node_write_key_to_gbytearray`: the tag byte, then the key
field. -/
def nbt_node_write_key_to_gbytearray (key : Option (List Nat)) (type : Nat) : List Nat :=
  nbt_node_write_uint8_to_gbytearray type ++ nbt_node_write_key_field key

/-- `nbt_node_write_number_to_gbytearray`: the `value` parameter is
`uint64_t`, so the caller's `int64_t value_i` arrives reduced
mod 2^64. -/
def nbt_node_write_number_to_gbytearray (value : Nat) (type : Nat) : List Nat :=
  if type = TAG_Byte then nbt_node_write_uint8_to_gbytearray value
  else if type = TAG_Short then nbt_node_write_uint16_to_gbytearray value
  else if type = TAG_Int then nbt_node_write_uint32_to_gbytearray value
  else if type = TAG_Long then nbt_node_write_uint64_to_gbytearray value
  else []

/-- `nbt_node_write_float_to_gbytearray`: the source byteswaps the
float's bit pattern and then hands it to
`nbt_node_write_uint32_to_gbytearray`, which byteswaps again — the two
swaps cancel and the payload is emitted in little-endian byte order
(unlike every integer payload). -/
def nbt_node_write_float_to_gbytearray (w : Nat) : List Nat :=
  nbt_node_write_uint32_to_gbytearray (bswap_32 w)

/-- `nbt_node_write_double_to_gbytearray`: same double byteswap as the
float case. -/
def nbt_node_write_double_to_gbytearray (w : Nat) : List Nat :=
  nbt_node_write_uint64_to_gbytearray (bswap_64 w)

/-- `nbt_node_write_point_to_gbytearray`.  The C function receives the
`double value_d` and, for `TAG_Float`, narrows it to float on the call;
the model carries the stored bit word directly (for nodes built by this
library a `TAG_Float` payload is an exactly-representable float, making
the narrowing lossless). -/
def nbt_node_write_point_to_gbytearray (w : Nat) (type : Nat) : List Nat :=
  if type = TAG_Float then nbt_node_write_float_to_gbytearray w
  else if type = TAG_Double then nbt_node_write_double_to_gbytearray w
  else []

/-- `nbt_node_write_array_to_gbytearray`: the `int32_t len` both as the
uint32 count field and as the loop bound (`for (int i = 0; i < len;
i++)` writes nothing for a non-positive length).  Elements the C code
would read beyond the stored buffer are modelled as 0. -/
def nbt_node_write_array_to_gbytearray (value : List Nat) (len : Int) (type : Nat) :
    List Nat :=
  nbt_node_write_uint32_to_gbytearray (len.emod (2 ^ 32)).toNat ++
    (let count := if len ≤ 0 then 0 else len.toNat
     if type = TAG_Byte_Array then
       (List.range count).flatMap (fun i => nbt_node_write_uint8_to_gbytearray (value.getD i 0))
     else if type = TAG_Int_Array then
       (List.range count).flatMap (fun i => nbt_node_write_uint32_to_gbytearray (value.getD i 0))
     else if type = TAG_Long_Array then
       (List.range count).flatMap (fun i => nbt_node_write_uint64_to_gbytearray (value.getD i 0))
     else [])

/-- `nbt_node_write_string_to_gbytearray`: MUTF-8-convert the stored
UTF-8 string, emit `strlen` of the result as uint16, then that many
bytes. -/
def nbt_node_write_string_to_gbytearray (s : List Nat) : List Nat :=
  let output_value := (convert_string_to_mutf8 s).takeWhile (fun b => b ≠ 0)
  nbt_node_write_uint16_to_gbytearray output_value.length ++ output_value

mutual

/-- `nbt_node_write_nbt_to_gbytearray`: the (key +) payload bytes of
one node.  `fuel` is the model's recursion bound (the C recursion is
unbounded); the default switch case is the C `LIBNBT_ERROR_INTERNAL`,
modelled as `none`.  Progress/cancellation parameters are omitted as in
the parser model. -/
def nbt_node_write_nbt_to_gbytearray : (fuel : Nat) → (node : NbtNode) →
    (writekey : Bool) → Option (List Nat)
  | 0, _, _ => none
  | fuel + 1, node, writekey =>
    let keyPart :=
      if writekey then nbt_node_write_key_to_gbytearray node.key node.type else []
    let t := node.type
    if t = TAG_Byte ∨ t = TAG_Short ∨ t = TAG_Int ∨ t = TAG_Long then
      some (keyPart ++
        nbt_node_write_number_to_gbytearray ((node.value.asInt.emod (2 ^ 64)).toNat) t)
    else if t = TAG_Float ∨ t = TAG_Double then
      some (keyPart ++ nbt_node_write_point_to_gbytearray node.value.asDbl t)
    else if t = TAG_Byte_Array ∨ t = TAG_Int_Array ∨ t = TAG_Long_Array then
      some (keyPart ++
        nbt_node_write_array_to_gbytearray node.value.arrVal node.value.arrLen t)
    else if t = TAG_String then
      some (keyPart ++ nbt_node_write_string_to_gbytearray node.value.strVal)
    else if t = TAG_List then
      (nbt_node_write_list_to_gbytearray fuel node).map (fun bs => keyPart ++ bs)
    else if t = TAG_Compound then
      (nbt_node_write_compound_to_gbytearray fuel node).map (fun bs => keyPart ++ bs)
    else none

/-- `nbt_node_write_list_to_gbytearray`: element kind from the first
child's `type` (0 when childless), the child count as uint32, then the
children without keys. -/
def nbt_node_write_list_to_gbytearray (fuel : Nat) (node : NbtNode) : Option (List Nat) :=
  let elemByte :=
    match node.children with
    | [] => nbt_node_write_uint8_to_gbytearray 0
    | c :: _ => nbt_node_write_uint8_to_gbytearray c.type
  (nbt_node_write_children fuel node.children false).map
    (fun bs => elemByte ++ nbt_node_write_uint32_to_gbytearray node.children.length ++ bs)

/-- `nbt_node_write_compound_to_gbytearray`: the children with keys,
then the terminating End byte. -/
def nbt_node_write_compound_to_gbytearray (fuel : Nat) (node : NbtNode) : Option (List Nat) :=
  (nbt_node_write_children fuel node.children true).map
    (fun bs => bs ++ nbt_node_write_uint8_to_gbytearray 0)

/-- The child loop shared by the list and compound writers. -/
def nbt_node_write_children (fuel : Nat) (cs : List NbtNode) (writekey : Bool) :
    Option (List Nat) :=
  match cs with
  | [] => some []
  | c :: cs =>
    match fuel with
    | 0 => none
    | fuel + 1 =>
      match nbt_node_write_nbt_to_gbytearray fuel c writekey with
      | none => none
      | some bs =>
        match nbt_node_write_children fuel cs writekey with
        | none => none
        | some rest => some (bs ++ rest)

end

/-- `nbt_node_pack_full` restricted to the uncompressed boundary: the
serialized `GByteArray` produced from the root with `writekey = TRUE`.
Modelled from the spec: the subsequent compression stage runs in GLib's
`GZlibCompressor` (an external component, not part of this repository's
sources); the spec's §4.3 treats uncompressed framing as a verbatim
copy, so it is modelled as the identity here.  (The source in fact
feeds even `NBT_Compression_NONE` through
`G_ZLIB_COMPRESSOR_FORMAT_RAW`, i.e. a raw-deflate stream.) -/
def nbt_node_pack_uncompressed (fuel : Nat) (node : NbtNode) : Option (List Nat) :=
  nbt_node_write_nbt_to_gbytearray fuel node true

/-! ## MCA region writing (`MCA_WriteRaw_File`, src/unnamed/part_001)

Only the cursor/offset arithmetic of the chunk-writing loop is
modelled: a slot is `none` (absent chunk, `rawdata[i] == NULL`) or
`some bytes` with `bytes = mca->size[i]` the raw payload length.  For a
present slot the loop seeks to `current * 4096`, writes the 4-byte
length `size = bytes + 1`, the compression byte 2 and `bytes` payload
bytes — leaving the file position at `current * 4096 + bytes + 5` —
then sets `newpos = (ftell >> 12) + 1`, records
`offsets[i] = current << 8 | ((newpos - current) & 0xff)` and continues
with `current = newpos`. -/

def MCA_WriteRaw_loop : List (Option Nat) → Nat → List Nat × Nat
  | [], current => ([], current)
  | none :: slots, current =>
    let r := MCA_WriteRaw_loop slots current
    (0 :: r.1, r.2)
  | some bytes :: slots, current =>
    let newpos := (current * 4096 + (bytes + 5)) / 4096 + 1
    let off := (current <<< 8) ||| ((newpos - current) &&& 0xff)
    let r := MCA_WriteRaw_loop slots newpos
    (off :: r.1, r.2)

/-- The offset table and final next-free-sector cursor produced by
`MCA_WriteRaw_File`: `int current = 2` to start. -/
def MCA_WriteRaw_File_offsets (slots : List (Option Nat)) : List Nat × Nat :=
  MCA_WriteRaw_loop slots 2

/-! ## Typed getters (nbt_util.c)

A getter takes the (possibly NULL) node; the `gboolean *failed`
out-parameter becomes the second component (`fill_failed` always
receives a non-NULL pointer in the model).  The integer getters return
`value_i` truncated to the return type's width (`gint8`/`gint16`/
`gint32` conversions are two's-complement, i.e. `Int.bmod`); the float
getters return the stored `value_d` (for `nbt_node_get_float` the C
return type narrows the double to float, which is lossless for every
payload this library stores in a `TAG_Float` node); the string/array
getters return the stored pointer, and the array getters set `*len`
only on success (`none` = out-parameter untouched). -/

def nbt_node_get_byte (node : Option NbtNode) : Int × Bool :=
  match node with
  | none => (-1, true)
  | some n =>
    if n.type = TAG_Byte then (Int.bmod n.value.asInt (2 ^ 8), false) else (-1, true)

def nbt_node_get_short (node : Option NbtNode) : Int × Bool :=
  match node with
  | none => (-1, true)
  | some n =>
    if n.type = TAG_Short then (Int.bmod n.value.asInt (2 ^ 16), false) else (-1, true)

def nbt_node_get_int (node : Option NbtNode) : Int × Bool :=
  match node with
  | none => (-1, true)
  | some n =>
    if n.type = TAG_Int then (Int.bmod n.value.asInt (2 ^ 32), false) else (-1, true)

def nbt_node_get_long (node : Option NbtNode) : Int × Bool :=
  match node with
  | none => (-1, true)
  | some n =>
    if n.type = TAG_Long then (n.value.asInt, false) else (-1, true)

def nbt_node_get_float (node : Option NbtNode) : Nat × Bool :=
  match node with
  | none => (0, true)
  | some n =>
    if n.type = TAG_Float then (n.value.asDbl, false) else (0, true)

def nbt_node_get_double (node : Option NbtNode) : Nat × Bool :=
  match node with
  | none => (0, true)
  | some n =>
    if n.type = TAG_Double then (n.value.asDbl, false) else (0, true)

def nbt_node_get_string (node : Option NbtNode) : Option (List Nat) × Bool :=
  match node with
  | none => (none, true)
  | some n =>
    if n.type = TAG_String then (some n.value.strVal, false) else (none, true)

def nbt_node_get_byte_array (node : Option NbtNode) : Option (List Nat) × Option Int × Bool :=
  match node with
  | none => (none, none, true)
  | some n =>
    if n.type = TAG_Byte_Array then (some n.value.arrVal, some n.value.arrLen, false)
    else (none, none, true)

def nbt_node_get_int_array (node : Option NbtNode) : Option (List Nat) × Option Int × Bool :=
  match node with
  | none => (none, none, true)
  | some n =>
    if n.type = TAG_Int_Array then (some n.value.arrVal, some n.value.arrLen, false)
    else (none, none, true)

def nbt_node_get_long_array (node : Option NbtNode) : Option (List Nat) × Option Int × Bool :=
  match node with
  | none => (none, none, true)
  | some n =>
    if n.type = TAG_Long_Array then (some n.value.arrVal, some n.value.arrLen, false)
    else (none, none, true)

/-! ## Insertion operations (nbt_util.c)

The node arguments are tree values, so the inserted child is detached
by construction (the C `G_NODE_IS_ROOT` precondition) and NULL
arguments do not arise.  An operation returns the C `gboolean` along
with the (possibly updated) parent.  A sibling argument is the index of
the sibling among the parent's children; an index out of range models a
node whose `parent` pointer is not the given parent. -/

/-- `nbt_node_prepend`. -/
def nbt_node_prepend (node child : NbtNode) : Bool × NbtNode :=
  if node.type = TAG_Compound ∨ node.type = TAG_List then
    match node.children with
    | [] => (true, .mk node.type node.key node.value [child])
    | c :: cs =>
      if node.type = TAG_List ∧ c.type ≠ child.type then (false, node)
      else (true, .mk node.type node.key node.value (child :: c :: cs))
  else (false, node)

/-- `nbt_node_append`. -/
def nbt_node_append (node child : NbtNode) : Bool × NbtNode :=
  if node.type = TAG_Compound ∨ node.type = TAG_List then
    match node.children with
    | [] => (true, .mk node.type node.key node.value [child])
    | c :: cs =>
      if node.type = TAG_List ∧ c.type ≠ child.type then (false, node)
      else (true, .mk node.type node.key node.value ((c :: cs) ++ [child]))
  else (false, node)

/-- `nbt_node_insert_before`.  `g_node_insert_before` with a NULL
sibling appends as the last child; with a sibling it inserts at the
sibling's position.  For a Compound parent the C code never validates
the sibling itself (GLib's own precondition check then leaves the tree
unchanged while the wrapper still reports TRUE). -/
def nbt_node_insert_before (parent : NbtNode) (sibling : Option Nat) (node : NbtNode) :
    Bool × NbtNode :=
  if parent.type = TAG_Compound ∨ parent.type = TAG_List then
    match sibling with
    | some i =>
      if parent.type = TAG_List then
        if i < parent.children.length then
          if (parent.children.getD i node).type = node.type then
            (true, .mk parent.type parent.key parent.value
              (parent.children.take i ++ node :: parent.children.drop i))
          else (false, parent)
        else (false, parent)
      else
        if i < parent.children.length then
          (true, .mk parent.type parent.key parent.value
            (parent.children.take i ++ node :: parent.children.drop i))
        else (true, parent)
    | none =>
      match parent.children with
      | [] => (true, .mk parent.type parent.key parent.value [node])
      | c :: cs =>
        if parent.type = TAG_List ∧ c.type ≠ node.type then (false, parent)
        else (true, .mk parent.type parent.key parent.value ((c :: cs) ++ [node]))
  else (false, parent)

/-- `nbt_node_insert_after`.  `g_node_insert_after` with a NULL sibling
inserts as the first child; with a sibling it inserts just after it. -/
def nbt_node_insert_after (parent : NbtNode) (sibling : Option Nat) (node : NbtNode) :
    Bool × NbtNode :=
  if parent.type = TAG_Compound ∨ parent.type = TAG_List then
    match sibling with
    | some i =>
      if parent.type = TAG_List then
        if i < parent.children.length then
          if (parent.children.getD i node).type = node.type then
            (true, .mk parent.type parent.key parent.value
              (parent.children.take (i + 1) ++ node :: parent.children.drop (i + 1)))
          else (false, parent)
        else (false, parent)
      else
        if i < parent.children.length then
          (true, .mk parent.type parent.key parent.value
            (parent.children.take (i + 1) ++ node :: parent.children.drop (i + 1)))
        else (true, parent)
    | none =>
      match parent.children with
      | [] => (true, .mk parent.type parent.key parent.value [node])
      | c :: cs =>
        if parent.type = TAG_List ∧ c.type ≠ node.type then (false, parent)
        else (true, .mk parent.type parent.key parent.value (node :: c :: cs))
  else (false, parent)

/-! ## Invariant I3 -/

/-- All children share one tag kind (the condition invariant I3 imposes
on each List). -/
def allSameKind : List NbtNode → Bool
  | [] => true
  | c :: cs => cs.all (fun d => d.type == c.type)

mutual

/-- Invariant I3, recursively: every List node's children all carry the
List's element kind (the kind of its first child). -/
def listTypesOk : NbtNode → Bool
  | .mk t _ _ cs => (if t = TAG_List then allSameKind cs else true) && listTypesOkChildren cs

def listTypesOkChildren : List NbtNode → Bool
  | [] => true
  | c :: cs => listTypesOk c && listTypesOkChildren cs

end

/-! ## Canonical documents (the round-trip class of R1)

A byte sequence is a well-formed uncompressed document in the sense in
which the round-trip law can hold at all when it is the serialization
of a *canonical* tree: the writer reproduces such a tree's wire image
byte-exactly and the parser reads it back to the same tree.  The
conditions below carve out exactly the trees whose serialized form the
parser inverts: valid non-End tags, no Float/Double payloads (the
writer emits those little-endian, see
`nbt_node_write_float_to_gbytearray`), payloads within their wire
widths, length fields consistent with the stored data, keyless
kind-homogeneous List children, and names/strings that are minimal
UTF-8 of nonzero non-surrogate BMP scalars (on which both MUTF-8
conversions act as the identity). -/

/-- Scalars the canonical-string layer admits: nonzero, at most U+FFFF
and not a UTF-16 surrogate. -/
def BMPscalar (c : Nat) : Prop :=
  1 ≤ c ∧ c ≤ 0xFFFF ∧ ¬(0xD800 ≤ c ∧ c ≤ 0xDFFF)

/-- A canonical byte string: the minimal UTF-8 encoding of a sequence
of nonzero non-surrogate BMP scalars. -/
def canonicalString (s : List Nat) : Prop :=
  ∃ cs : List Nat, (∀ c ∈ cs, BMPscalar c) ∧ s = cs.flatMap g_unichar_to_utf8

/-- A canonical key: absent, or a nonempty canonical string short
enough for its uint16 length field. -/
def canonicalKey : Option (List Nat) → Prop
  | none => True
  | some s => canonicalString s ∧ s ≠ [] ∧ s.length ≤ 0xFFFF

mutual

/-- Canonical trees (see the section comment). -/
def canonical_node : NbtNode → Prop
  | .mk t k v cs =>
    canonicalKey k ∧
    ((t = TAG_Byte ∧ cs = [] ∧ ∃ i : Int, v = .vInt i ∧ 0 ≤ i ∧ i < 2 ^ 8) ∨
     (t = TAG_Short ∧ cs = [] ∧ ∃ i : Int, v = .vInt i ∧ 0 ≤ i ∧ i < 2 ^ 16) ∨
     (t = TAG_Int ∧ cs = [] ∧ ∃ i : Int, v = .vInt i ∧ 0 ≤ i ∧ i < 2 ^ 32) ∨
     (t = TAG_Long ∧ cs = [] ∧ ∃ i : Int, v = .vInt i ∧ -(2 ^ 63) ≤ i ∧ i < 2 ^ 63) ∨
     (t = TAG_Byte_Array ∧ cs = [] ∧
       ∃ a : List Nat, v = .vArr a a.length ∧ a.length < 2 ^ 31 ∧ ∀ b ∈ a, b < 2 ^ 8) ∨
     (t = TAG_String ∧ cs = [] ∧
       ∃ s : List Nat, v = .vStr s (s.length + 1) ∧ canonicalString s ∧
         s.length ≤ 0xFFFF) ∨
     (t = TAG_List ∧ v = .vNone ∧ cs.length < 2 ^ 31 ∧
       (∀ d ∈ cs, d.key = none) ∧ (∀ d ∈ cs, ∀ e ∈ cs, d.type = e.type) ∧
       canonical_children cs) ∨
     (t = TAG_Compound ∧ v = .vNone ∧ canonical_children cs) ∨
     (t = TAG_Int_Array ∧ cs = [] ∧
       ∃ a : List Nat, v = .vArr a a.length ∧ a.length < 2 ^ 30 ∧ ∀ x ∈ a, x < 2 ^ 32) ∨
     (t = TAG_Long_Array ∧ cs = [] ∧
       ∃ a : List Nat, v = .vArr a a.length ∧ a.length < 2 ^ 29 ∧ ∀ x ∈ a, x < 2 ^ 64))

def canonical_children : List NbtNode → Prop
  | [] => True
  | c :: cs => canonical_node c ∧ canonical_children cs

end

mutual

/-- The node count of a tree: a sufficient recursion-fuel bound for the
modelled parser. -/
def nsize : NbtNode → Nat
  | .mk _ _ _ cs => 1 + nsizeList cs

def nsizeList : List NbtNode → Nat
  | [] => 0
  | c :: cs => 1 + nsize c + nsizeList cs

end

/-- The payload phase of `parse_value` (the tag dispatch after the tag
byte of step 1 and the key of step 2 have been resolved), as a
standalone function of the resolved tag, the converted key and the
payload cursor.  `parse_value (fuel + 1) typ sk buf pos` reduces to
`parse_payload fuel tag key buf p2` once its first two steps succeed
(lemmas `parse_value_skipkey`, `parse_value_key_none`,
`parse_value_key_some` below); the round-trip development reasons about
this function so that the key handling is dealt with once instead of
once per tag. -/
def parse_payload (fuel tag : Nat) (key : Option (List Nat)) (buf : List Nat) (p2 : Nat) :
    Except PErr (NbtNode × Nat) :=
  if tag = TAG_Byte then
    match LIBNBT_getUint8 buf p2 with
    | none => .error .interrupted
    | some (v, p3) => .ok (.mk tag key (.vInt v) [], p3)
  else if tag = TAG_Short then
    match LIBNBT_getUint16 buf p2 with
    | none => .error .interrupted
    | some (v, p3) => .ok (.mk tag key (.vInt v) [], p3)
  else if tag = TAG_Int then
    match LIBNBT_getUint32 buf p2 with
    | none => .error .interrupted
    | some (v, p3) => .ok (.mk tag key (.vInt v) [], p3)
  else if tag = TAG_Long then
    match LIBNBT_getUint64 buf p2 with
    | none => .error .interrupted
    | some (v, p3) => .ok (.mk tag key (.vInt (Int.bmod v (2 ^ 64))) [], p3)
  else if tag = TAG_Float then
    if p2 + 4 > buf.length then .error .interrupted
    else .ok (.mk tag key (.vDbl (readBE buf p2 4)) [], p2 + 4)
  else if tag = TAG_Double then
    if p2 + 8 > buf.length then .error .interrupted
    else .ok (.mk tag key (.vDbl (readBE buf p2 8)) [], p2 + 8)
  else if tag = TAG_Byte_Array then
    match LIBNBT_getUint32 buf p2 with
    | none => .error .interrupted
    | some (len, p3) =>
      if p3 + len > buf.length then .error .interrupted
      else
        .ok (.mk tag key (.vArr ((buf.drop p3).take len) (Int.bmod len (2 ^ 32))) [],
          p3 + len)
  else if tag = TAG_String then
    match LIBNBT_getUint16 buf p2 with
    | none => .error .interrupted
    | some (len, p3) =>
      if p3 + len > buf.length then .error .interrupted
      else
        match convert_string ((buf.drop p3).take len) with
        | none => .error .interrupted
        | some nv => .ok (.mk tag key (.vStr nv (len + 1)) [], p3 + len)
  else if tag = TAG_List then
    match LIBNBT_getUint8 buf p2 with
    | none => .error .interrupted
    | some (list_type, p3) =>
      match LIBNBT_getUint32 buf p3 with
      | none => .error .interrupted
      | some (len, p4) =>
        if list_type = TAG_End ∧ len ≠ 0 then .error .invalidTag
        else
          match parse_items fuel len list_type buf p4 with
          | .error e => .error e
          | .ok (cs, p5) => .ok (.mk tag key .vNone cs, p5)
  else if tag = TAG_Compound then
    match parse_compound fuel buf p2 with
    | .error e => .error e
    | .ok (cs, p3) => .ok (.mk tag key .vNone cs, p3)
  else if tag = TAG_Int_Array then
    match LIBNBT_getUint32 buf p2 with
    | none => .error .interrupted
    | some (len, p3) =>
      let prod := len * 4 % 2 ^ 32
      if p3 + prod > buf.length then .error .interrupted
      else
        .ok (.mk tag key (.vArr (readBEList buf p3 4 len prod) (Int.bmod len (2 ^ 32))) [],
          p3 + prod)
  else if tag = TAG_Long_Array then
    match LIBNBT_getUint32 buf p2 with
    | none => .error .interrupted
    | some (len, p3) =>
      let prod := len * 8 % 2 ^ 32
      if p3 + prod > buf.length then .error .interrupted
      else
        .ok (.mk tag key (.vArr (readBEList buf p3 8 len prod) (Int.bmod len (2 ^ 32))) [],
          p3 + prod)
  else .error .interrupted

/-- The payload-level round-trip statement: a canonical node's payload
bytes parse back, anywhere in a larger buffer and whatever the stored
key, to exactly that node. -/
def RTpayload (T : NbtNode) : Prop :=
  ∀ (pf wf : Nat) (pb pre post : List Nat),
    nsizeList T.children < pf →
    nbt_node_write_nbt_to_gbytearray wf T false = some pb →
    parse_payload pf T.type T.key (pre ++ (pb ++ post)) pre.length
      = .ok (T, pre.length + pb.length)

/-- The list-items round-trip statement: canonical keyless children of
one kind, serialized without keys, parse back via `parse_items`. -/
def RTitems (cs : List NbtNode) : Prop :=
  ∀ (elemType pf wf : Nat) (bs pre post : List Nat),
    nsizeList cs < pf →
    (∀ d ∈ cs, d.type = elemType ∧ d.key = none) →
    nbt_node_write_children wf cs false = some bs →
    parse_items pf cs.length elemType (pre ++ bs ++ post) pre.length
      = .ok (cs, pre.length + bs.length)

/-- The compound round-trip statement: canonical children serialized
with keys, followed by the End byte, parse back via
`parse_compound`. -/
def RTcompound (cs : List NbtNode) : Prop :=
  ∀ (pf wf : Nat) (bs pre post : List Nat),
    nsizeList cs < pf →
    nbt_node_write_children wf cs true = some bs →
    parse_compound pf (pre ++ bs ++ 0 :: post) pre.length
      = .ok (cs, pre.length + bs.length + 1)

/-! ## Truncation statements (B3)

For a parse run that succeeds on `buf`, cutting the buffer to a prefix
of `m` bytes either leaves the run unchanged (when it never reads at or
beyond `m`) or makes it fail with `interrupted` — never a partial tree.
The statements also carry cursor monotonicity, which the case analyses
need. -/

def TruncValue (f : Nat) : Prop :=
  ∀ (typ : Nat) (sk : Bool) (buf : List Nat) (pos : Nat) (n : NbtNode) (p2 m : Nat),
    m ≤ buf.length →
    parse_value f typ sk buf pos = .ok (n, p2) →
    (p2 ≤ m → parse_value f typ sk (buf.take m) pos = .ok (n, p2)) ∧
    (pos ≤ m → m < p2 → parse_value f typ sk (buf.take m) pos = .error .interrupted) ∧
    pos ≤ p2

def TruncItems (f : Nat) : Prop :=
  ∀ (nn et : Nat) (buf : List Nat) (pos : Nat) (ns : List NbtNode) (p2 m : Nat),
    m ≤ buf.length →
    parse_items f nn et buf pos = .ok (ns, p2) →
    (p2 ≤ m → parse_items f nn et (buf.take m) pos = .ok (ns, p2)) ∧
    (pos ≤ m → m < p2 → parse_items f nn et (buf.take m) pos = .error .interrupted) ∧
    pos ≤ p2

def TruncCompound (f : Nat) : Prop :=
  ∀ (buf : List Nat) (pos : Nat) (ns : List NbtNode) (p2 m : Nat),
    m ≤ buf.length →
    parse_compound f buf pos = .ok (ns, p2) →
    (p2 ≤ m → parse_compound f (buf.take m) pos = .ok (ns, p2)) ∧
    (pos ≤ m → m < p2 → parse_compound f (buf.take m) pos = .error .interrupted) ∧
    pos ≤ p2

def TruncPayload (f : Nat) : Prop :=
  ∀ (tag : Nat) (key : Option (List Nat)) (buf : List Nat) (pos : Nat) (n : NbtNode)
    (p2 m : Nat),
    m ≤ buf.length →
    parse_payload f tag key buf pos = .ok (n, p2) →
    (p2 ≤ m → parse_payload f tag key (buf.take m) pos = .ok (n, p2)) ∧
    (pos ≤ m → m < p2 → parse_payload f tag key (buf.take m) pos = .error .interrupted) ∧
    pos ≤ p2

/-! ## Claims about the MUTF-8 codec -/

/-- C2: the claim states that `convert_string_to_mutf8` encodes the
string "A" + U+1D11E as the 7 bytes `41 ED A0 B4 ED B4 9E`.  The
encoder in nbt.c instead emits `41 ED A0 B4 ED B0 9E`: in
`temp[4] = 0b10110000 + (c & 0x3c0)` the ten-bit low-surrogate tail is
added without being shifted down by 6, and the `uint8_t` assignment
drops the overflowing bits, so bits 6..9 of the low surrogate are lost.
Decoding the bytes the claim (and the Modified-UTF-8 format the source
cites) prescribes does yield the original 5-byte UTF-8 string, so the
decoder side of the claim holds; the encoder contradicts it, and
`decode (encode "A𝄞")` is not "A𝄞". -/
theorem C2_mutf8_encoder_drops_low_surrogate_bits :
    convert_string_to_mutf8 [0x41, 0xF0, 0x9D, 0x84, 0x9E]
        = [0x41, 0xED, 0xA0, 0xB4, 0xED, 0xB0, 0x9E]
      ∧ convert_string_to_mutf8 [0x41, 0xF0, 0x9D, 0x84, 0x9E]
        ≠ [0x41, 0xED, 0xA0, 0xB4, 0xED, 0xB4, 0x9E]
      ∧ convert_string [0x41, 0xED, 0xA0, 0xB4, 0xED, 0xB4, 0x9E]
        = some [0x41, 0xF0, 0x9D, 0x84, 0x9E]
      ∧ convert_string (convert_string_to_mutf8 [0x41, 0xF0, 0x9D, 0x84, 0x9E])
        ≠ some [0x41, 0xF0, 0x9D, 0x84, 0x9E] :=
  ⟨rfl, by decide, rfl, by decide⟩

/-- C7: the claim states that every MUTF-8 string whose leader byte lies
in 0xF0..0xFF is rejected with `BadUtf8`.  In the source, `skip_len`
tests `(*str & 0xe0) == 0xe0` before `(*str & 0xc0) == 0xc0`, so every
byte in 0xE0..0xFF — including the 4-byte UTF-8 leaders 0xF0..0xFF — is
classified as a 3-byte leader; only bytes 0x80..0xBF (and NUL) match no
pattern.  Consequently `convert_string` accepts, for example, the
string `F0 80 80` (decoding it as the single unit 0 and hence as the
empty string) instead of failing. -/
theorem C7_four_byte_leaders_not_rejected :
    (∀ b : Nat, 0xF0 ≤ b → b ≤ 0xFF → skip_len b = 3)
      ∧ convert_string [0xF0, 0x80, 0x80] = some []
      ∧ convert_string [0xF0, 0x80, 0x80] ≠ none := by
  refine ⟨?_, rfl, by decide⟩
  intro b h1 h2
  interval_cases b <;> rfl

/-- Witness for C7: the general statement applied at the concrete
leader byte 0xF3. -/
theorem C7_four_byte_leaders_not_rejected_witness : skip_len 0xF3 = 3 :=
  C7_four_byte_leaders_not_rejected.1 0xF3 (by decide) (by decide)

/-! ## Reader and parser unfolding lemmas -/

/-- Zero-length item loops succeed at the current cursor whatever the
fuel. -/
theorem parse_items_zero (fuel elemType : Nat) (buf : List Nat) (pos : Nat) :
    parse_items fuel 0 elemType buf pos = .ok ([], pos) := by
  cases fuel <;> with_unfolding_all rfl

theorem LIBNBT_getUint8_some {buf : List Nat} {pos : Nat} (h : pos + 1 ≤ buf.length) :
    LIBNBT_getUint8 buf pos = some (buf.getD pos 0, pos + 1) := by
  unfold LIBNBT_getUint8; rw [if_neg (by omega)]

theorem LIBNBT_getUint8_none {buf : List Nat} {pos : Nat} (h : buf.length < pos + 1) :
    LIBNBT_getUint8 buf pos = none := by
  unfold LIBNBT_getUint8; rw [if_pos (by omega)]

theorem LIBNBT_getUint16_some {buf : List Nat} {pos : Nat} (h : pos + 2 ≤ buf.length) :
    LIBNBT_getUint16 buf pos = some (readBE buf pos 2, pos + 2) := by
  unfold LIBNBT_getUint16; rw [if_neg (by omega)]

theorem LIBNBT_getUint16_none {buf : List Nat} {pos : Nat} (h : buf.length < pos + 2) :
    LIBNBT_getUint16 buf pos = none := by
  unfold LIBNBT_getUint16; rw [if_pos (by omega)]

theorem LIBNBT_getUint32_some {buf : List Nat} {pos : Nat} (h : pos + 4 ≤ buf.length) :
    LIBNBT_getUint32 buf pos = some (readBE buf pos 4, pos + 4) := by
  unfold LIBNBT_getUint32; rw [if_neg (by omega)]

theorem LIBNBT_getUint32_none {buf : List Nat} {pos : Nat} (h : buf.length < pos + 4) :
    LIBNBT_getUint32 buf pos = none := by
  unfold LIBNBT_getUint32; rw [if_pos (by omega)]

theorem LIBNBT_getUint64_some {buf : List Nat} {pos : Nat} (h : pos + 8 ≤ buf.length) :
    LIBNBT_getUint64 buf pos = some (readBE buf pos 8, pos + 8) := by
  unfold LIBNBT_getUint64; rw [if_neg (by omega)]

theorem LIBNBT_getUint64_none {buf : List Nat} {pos : Nat} (h : buf.length < pos + 8) :
    LIBNBT_getUint64 buf pos = none := by
  unfold LIBNBT_getUint64; rw [if_pos (by omega)]

theorem LIBNBT_getKey_none_key {buf : List Nat} {pos : Nat} (h : pos + 2 ≤ buf.length)
    (h0 : readBE buf pos 2 = 0) : LIBNBT_getKey buf pos = some (none, pos + 2) := by
  unfold LIBNBT_getKey
  rw [LIBNBT_getUint16_some h, h0]
  simp

theorem LIBNBT_getKey_some_key {buf : List Nat} {pos : Nat} (h : pos + 2 ≤ buf.length)
    (hne : readBE buf pos 2 ≠ 0) (h2 : pos + 2 + readBE buf pos 2 ≤ buf.length) :
    LIBNBT_getKey buf pos
      = some (some ((buf.drop (pos + 2)).take (readBE buf pos 2)),
          pos + 2 + readBE buf pos 2) := by
  unfold LIBNBT_getKey
  rw [LIBNBT_getUint16_some h]
  dsimp only
  rw [if_neg hne, if_neg (by omega)]

theorem LIBNBT_getKey_fail_len {buf : List Nat} {pos : Nat} (h : buf.length < pos + 2) :
    LIBNBT_getKey buf pos = none := by
  unfold LIBNBT_getKey
  rw [LIBNBT_getUint16_none h]

theorem LIBNBT_getKey_fail_bytes {buf : List Nat} {pos : Nat} (h : pos + 2 ≤ buf.length)
    (hne : readBE buf pos 2 ≠ 0) (h2 : buf.length < pos + 2 + readBE buf pos 2) :
    LIBNBT_getKey buf pos = none := by
  unfold LIBNBT_getKey
  rw [LIBNBT_getUint16_some h]
  dsimp only
  rw [if_neg hne, if_pos (by omega)]

/-! ## Claims about the decoder -/

/-- C3 counterexample: the claim says the integer readers store the
wire value sign-extended, so that a Byte tag holding `0xFF` decodes to
`value_i = -1`.  In the source, `data->value_i = value` assigns a
`uint8_t` (resp. `uint16_t`, `uint32_t`) to the `int64_t` member, which
zero-extends: the document `01 00 00 FF` (named Byte, empty name,
payload `FF`) decodes to `value_i = 255`, not `-1`. -/
theorem C3_byte_ff_decodes_to_255 :
    parse_value 2 TAG_End false [0x01, 0x00, 0x00, 0xFF] 0
        = .ok (.mk TAG_Byte none (.vInt 255) [], 4)
      ∧ (255 : Int) ≠ -1 :=
  ⟨by with_unfolding_all rfl, by decide⟩

/-- C3 amended: `parse_value` stores the Byte/Short/Int payload
zero-extended (the plain unsigned wire value, never negative), and the
Long payload as the two's-complement reinterpretation of the unsigned
64-bit wire value (`Int.bmod _ (2^64)`). -/
theorem C3_integer_payloads_zero_extended (fuel : Nat) (buf : List Nat) (pos : Nat) :
    (pos + 1 ≤ buf.length →
      parse_value (fuel + 1) TAG_Byte true buf pos
        = .ok (.mk TAG_Byte none (.vInt (buf.getD pos 0)) [], pos + 1))
    ∧ (pos + 2 ≤ buf.length →
      parse_value (fuel + 1) TAG_Short true buf pos
        = .ok (.mk TAG_Short none (.vInt (readBE buf pos 2)) [], pos + 2))
    ∧ (pos + 4 ≤ buf.length →
      parse_value (fuel + 1) TAG_Int true buf pos
        = .ok (.mk TAG_Int none (.vInt (readBE buf pos 4)) [], pos + 4))
    ∧ (pos + 8 ≤ buf.length →
      parse_value (fuel + 1) TAG_Long true buf pos
        = .ok (.mk TAG_Long none (.vInt (Int.bmod (readBE buf pos 8) (2 ^ 64))) [], pos + 8)) := by
  refine ⟨fun h => ?_, fun h => ?_, fun h => ?_, fun h => ?_⟩
  · simp [parse_value, LIBNBT_getUint8_some h]
  · simp [parse_value, LIBNBT_getUint16_some h]
  · simp [parse_value, LIBNBT_getUint32_some h]
  · simp [parse_value, LIBNBT_getUint64_some h]

/-- Witness for C3's amended statement: a Short tag whose two payload
bytes are `FF FE` decodes to the zero-extended 65534. -/
theorem C3_integer_payloads_zero_extended_witness :
    parse_value 1 TAG_Short true [0xFF, 0xFE] 0
      = .ok (.mk TAG_Short none (.vInt 65534) [], 2) := by
  have := (C3_integer_payloads_zero_extended 0 [0xFF, 0xFE] 0).2.1 (by decide)
  simpa [readBE] using this

/-- C4: a List header declaring element kind `TAG_End` together with a
non-zero length fails with `NBT_GLIB_PARSE_ERROR_INVALID_TAG` wherever
it occurs (first conjunct, at the `parse_value` level); a whole
document headed by such a List decodes to NULL with that error (second
conjunct); and an empty List with element kind End decodes successfully
(third conjunct). -/
theorem C4_bad_list_rejected_empty_end_list_ok :
    (∀ fuel (buf : List Nat) (pos : Nat),
      buf.getD pos 0 = 0 → pos + 5 ≤ buf.length → readBE buf (pos + 1) 4 ≠ 0 →
      parse_value (fuel + 1) TAG_List true buf pos = .error .invalidTag)
    ∧ (∀ fuel (B : List Nat),
      B.getD 0 0 = 9 → B.getD 1 0 = 0 → B.getD 2 0 = 0 → B.getD 3 0 = 0 →
      8 ≤ B.length → readBE B 4 4 ≠ 0 →
      nbt_node_new_opt (fuel + 1) B = some (none, some .invalidTag))
    ∧ (∀ fuel,
      nbt_node_new_opt (fuel + 1) [9, 0, 0, 0, 0, 0, 0, 0]
        = some (some (.mk TAG_List none .vNone []), none)) := by
  refine ⟨?_, ?_, ?_⟩
  · intro fuel buf pos h0 hlen hn
    simp only [List.getD_eq_getElem?_getD] at h0
    simp [parse_value, LIBNBT_getUint8_some (show pos + 1 ≤ buf.length by omega),
      LIBNBT_getUint32_some (show pos + 1 + 4 ≤ buf.length by omega),
      List.getD_eq_getElem?_getD, h0, hn]
  · intro fuel B h0 h1 h2 h3 hlen hn
    have hkey : readBE B 1 2 = 0 := by
      simp only [readBE, List.getD_eq_getElem?_getD] at h1 h2 ⊢
      rw [h1, h2]
    unfold nbt_node_new_opt
    rw [if_neg (by omega), if_neg (by rw [h0]; rintro ⟨-, hc, -⟩; exact absurd hc (by decide)),
      if_neg (by rw [h0]; decide)]
    simp only [List.getD_eq_getElem?_getD] at h0 h3
    simp [parse_value, LIBNBT_getUint8_some (show (0 : Nat) + 1 ≤ B.length by omega),
      LIBNBT_getKey_none_key (show (1 : Nat) + 2 ≤ B.length by omega) hkey,
      LIBNBT_getUint8_some (show (3 : Nat) + 1 ≤ B.length by omega),
      LIBNBT_getUint32_some (show (4 : Nat) + 4 ≤ B.length by omega),
      List.getD_eq_getElem?_getD, h0, h3, hn, isValidTag, TAG_End, TAG_Byte, TAG_Short,
      TAG_Int, TAG_Long, TAG_Float, TAG_Double, TAG_Byte_Array, TAG_String, TAG_List,
      TAG_Compound, TAG_Int_Array, TAG_Long_Array]
  · intro fuel
    unfold nbt_node_new_opt
    rw [if_neg (by decide), if_neg (by decide), if_neg (by decide)]
    have h8 : parse_value (fuel + 1) TAG_End false [9, 0, 0, 0, 0, 0, 0, 0] 0
        = .ok (.mk TAG_List none .vNone [], 8) := by
      simp [parse_value, @LIBNBT_getUint8_some [9, 0, 0, 0, 0, 0, 0, 0] 0 (by decide),
        @LIBNBT_getKey_none_key [9, 0, 0, 0, 0, 0, 0, 0] 1 (by decide) (by decide),
        @LIBNBT_getUint8_some [9, 0, 0, 0, 0, 0, 0, 0] 3 (by decide),
        @LIBNBT_getUint32_some [9, 0, 0, 0, 0, 0, 0, 0] 4 (by decide),
        isValidTag, parse_items_zero, readBE, TAG_End, TAG_Byte, TAG_Short,
        TAG_Int, TAG_Long, TAG_Float, TAG_Double, TAG_Byte_Array, TAG_String, TAG_List,
        TAG_Compound, TAG_Int_Array, TAG_Long_Array]
    rw [h8]
    simp

/-- Witness for C4: the malformed header `09 00 00 00 00 00 00 01`
(element kind End, length 1) yields `INVALID_TAG` and no tree; the
empty variant decodes. -/
theorem C4_bad_list_rejected_empty_end_list_ok_witness :
    nbt_node_new_opt 2 [9, 0, 0, 0, 0, 0, 0, 1] = some (none, some .invalidTag)
      ∧ nbt_node_new_opt 2 [9, 0, 0, 0, 0, 0, 0, 0]
        = some (some (.mk TAG_List none .vNone []), none) :=
  ⟨C4_bad_list_rejected_empty_end_list_ok.2.1 1 [9, 0, 0, 0, 0, 0, 0, 1]
      (by decide) (by decide) (by decide) (by decide) (by decide) (by decide),
    C4_bad_list_rejected_empty_end_list_ok.2.2 1⟩

/-- C6: when the outermost tag parses successfully but the cursor stops
short of the end of the (uncompressed, modelled) input,
`nbt_node_new_opt` reports `LEFTOVER_DATA` and still returns the parsed
tree; and `LEFTOVER_DATA` is the only error that can accompany a
returned tree. -/
theorem C6_leftover_data_nonfatal :
    (∀ fuel (B : List Nat) res root pos,
      nbt_node_new_opt fuel B = some res →
      parse_value fuel TAG_End false B 0 = .ok (root, pos) →
      pos < B.length →
      res = (some root, some .leftoverData))
    ∧ (∀ fuel (B : List Nat) t e,
      nbt_node_new_opt fuel B = some (some t, some e) → e = .leftoverData) := by
  constructor
  · intro fuel B res root pos hres hparse hlt
    unfold nbt_node_new_opt at hres
    by_cases h1 : B.length = 0
    · rw [if_pos h1] at hres; exact absurd hres (by simp)
    rw [if_neg h1] at hres
    by_cases h2 : 1 < B.length ∧ B.getD 0 0 = 0x1f ∧ B.getD 1 0 = 0x8b
    · rw [if_pos h2] at hres; exact absurd hres (by simp)
    rw [if_neg h2] at hres
    by_cases h3 : B.getD 0 0 = 0x78
    · rw [if_pos h3] at hres; exact absurd hres (by simp)
    rw [if_neg h3, hparse] at hres
    dsimp only at hres
    rw [if_pos (show pos ≠ B.length by omega)] at hres
    exact (Option.some_inj.mp hres).symm
  · intro fuel B t e hres
    unfold nbt_node_new_opt at hres
    by_cases h1 : B.length = 0
    · rw [if_pos h1] at hres; exact absurd hres (by simp)
    rw [if_neg h1] at hres
    by_cases h2 : 1 < B.length ∧ B.getD 0 0 = 0x1f ∧ B.getD 1 0 = 0x8b
    · rw [if_pos h2] at hres; exact absurd hres (by simp)
    rw [if_neg h2] at hres
    by_cases h3 : B.getD 0 0 = 0x78
    · rw [if_pos h3] at hres; exact absurd hres (by simp)
    rw [if_neg h3] at hres
    cases hp : parse_value fuel TAG_End false B 0 with
    | error err =>
      rw [hp] at hres
      dsimp only at hres
      exact absurd (Option.some_inj.mp hres) (by simp)
    | ok rp =>
      obtain ⟨root, pos⟩ := rp
      rw [hp] at hres
      dsimp only at hres
      by_cases hq : pos ≠ B.length
      · rw [if_pos hq] at hres
        have h := Option.some_inj.mp hres
        rw [Prod.mk.injEq] at h
        exact (Option.some_inj.mp h.2).symm
      · rw [if_neg hq] at hres
        have h := Option.some_inj.mp hres
        rw [Prod.mk.injEq] at h
        exact absurd h.2 (by simp)

/-- Witness for C6: the document `01 00 00 2A` followed by a stray byte
parses to the Byte node with one byte left over. -/
theorem C6_leftover_data_nonfatal_witness :
    nbt_node_new_opt 2 [1, 0, 0, 42, 99]
      = some (some (.mk TAG_Byte none (.vInt 42) []), some .leftoverData) := by
  have hp : parse_value 2 TAG_End false [1, 0, 0, 42, 99] 0
      = .ok (.mk TAG_Byte none (.vInt 42) [], 4) := by with_unfolding_all rfl
  have hres : nbt_node_new_opt 2 [1, 0, 0, 42, 99]
      = some (some (.mk TAG_Byte none (.vInt 42) []), some .leftoverData) := by
    with_unfolding_all rfl
  exact C6_leftover_data_nonfatal.1 2 [1, 0, 0, 42, 99] _
    (.mk TAG_Byte none (.vInt 42) []) 4 hres hp (by decide) ▸ hres

/-! ## Claims about round-trip, MCA and getters -/

/-- C1 counterexample: the well-formed uncompressed document
`09 00 00 03 00 00 00 00` — a nameless empty List declaring element
kind Int — decodes cleanly (no error, nothing left over), but
re-encoding the resulting tree emits element kind 0 (the writer derives
the element byte from the first child, and an empty list has none), so
`encode (decode B)` is `09 00 00 00 00 00 00 00` ≠ `B`. -/
theorem C1_empty_int_list_not_roundtripped :
    nbt_node_new_opt 2 [9, 0, 0, 3, 0, 0, 0, 0]
        = some (some (.mk TAG_List none .vNone []), none)
      ∧ nbt_node_pack_uncompressed 2 (.mk TAG_List none .vNone [])
        = some [9, 0, 0, 0, 0, 0, 0, 0]
      ∧ [(9 : Nat), 0, 0, 0, 0, 0, 0, 0] ≠ [9, 0, 0, 3, 0, 0, 0, 0] :=
  ⟨by with_unfolding_all rfl, by with_unfolding_all rfl, by decide⟩

/-- C9 counterexample: the claim says the cursor advances by the
ceiling of `(bytes + 5) / 4096`.  For a single present slot of 4091
bytes the payload ends exactly on a sector boundary; the source's
`newpos = (ftell >> 12) + 1` then allocates one sector more than the
ceiling: the final cursor is 4, not the predicted
`2 + ceil (4096 / 4096) = 3`. -/
theorem C9_sector_advance_not_ceiling :
    (MCA_WriteRaw_File_offsets [some 4091]).2 = 4
      ∧ 2 + (4091 + 5 + 4095) / 4096 = 3
      ∧ (4 : Nat) ≠ 3 :=
  ⟨rfl, rfl, by decide⟩

/-- C9 amended: the cursor starts at 2 and advances, for each present
slot of `b` payload bytes, by exactly `(b + 5) / 4096 + 1` sectors
(floor-division plus one; this equals the claimed ceiling except when
`b + 5` is a multiple of 4096, where it is the ceiling plus one). -/
theorem C9_cursor_floor_plus_one :
    (∀ slots current,
      (MCA_WriteRaw_loop slots current).2
        = current + ((slots.filterMap id).map (fun b => (b + 5) / 4096 + 1)).sum)
    ∧ (∀ slots,
      (MCA_WriteRaw_File_offsets slots).2
        = 2 + ((slots.filterMap id).map (fun b => (b + 5) / 4096 + 1)).sum) := by
  have key : ∀ slots current,
      (MCA_WriteRaw_loop slots current).2
        = current + ((slots.filterMap id).map (fun b => (b + 5) / 4096 + 1)).sum := by
    intro slots
    induction slots with
    | nil => intro current; simp [MCA_WriteRaw_loop]
    | cons s slots ih =>
      intro current
      cases s with
      | none => simp [MCA_WriteRaw_loop, ih]
      | some b =>
        have hdiv : (current * 4096 + (b + 5)) / 4096 = current + (b + 5) / 4096 := by
          rw [Nat.add_comm, Nat.mul_comm, Nat.add_mul_div_left _ _ (by norm_num)]
          omega
        simp [MCA_WriteRaw_loop, ih, hdiv]
        omega
  exact ⟨key, fun slots => key slots 2⟩

/-- C10 counterexample: the claim says a matching getter returns the
stored payload.  `nbt_node_get_byte` returns `(gint8) value_i`; on the
node obtained by decoding the document `01 00 00 FF` the stored payload
is 255 but the getter returns -1. -/
theorem C10_get_byte_truncates_payload :
    parse_value 2 TAG_End false [0x01, 0x00, 0x00, 0xFF] 0
        = .ok (.mk TAG_Byte none (.vInt 255) [], 4)
      ∧ nbt_node_get_byte (some (.mk TAG_Byte none (.vInt 255) [])) = (-1, false)
      ∧ ((-1 : Int) ≠ 255) :=
  ⟨by with_unfolding_all rfl, by with_unfolding_all rfl, by decide⟩

/-- C10 amended: every typed getter fails (TRUE flag, fixed sentinel:
-1 / 0.0-bits / NULL, with the array length out-parameter untouched) on
a NULL node or a kind mismatch, and on a kind match returns the stored
payload reduced to the getter's return width — which is the stored
payload itself whenever it lies in that width's range (always, for
`nbt_node_get_long` and the non-integer getters). -/
theorem C10_typed_getters (n : NbtNode) :
    (nbt_node_get_byte none = (-1, true)
      ∧ (n.type ≠ TAG_Byte → nbt_node_get_byte (some n) = (-1, true))
      ∧ (n.type = TAG_Byte →
          nbt_node_get_byte (some n) = (Int.bmod n.value.asInt (2 ^ 8), false))
      ∧ (∀ v : Int, n.type = TAG_Byte → n.value = .vInt v → -128 ≤ v → v < 128 →
          nbt_node_get_byte (some n) = (v, false)))
    ∧ (nbt_node_get_short none = (-1, true)
      ∧ (n.type ≠ TAG_Short → nbt_node_get_short (some n) = (-1, true))
      ∧ (n.type = TAG_Short →
          nbt_node_get_short (some n) = (Int.bmod n.value.asInt (2 ^ 16), false))
      ∧ (∀ v : Int, n.type = TAG_Short → n.value = .vInt v → -32768 ≤ v → v < 32768 →
          nbt_node_get_short (some n) = (v, false)))
    ∧ (nbt_node_get_int none = (-1, true)
      ∧ (n.type ≠ TAG_Int → nbt_node_get_int (some n) = (-1, true))
      ∧ (n.type = TAG_Int →
          nbt_node_get_int (some n) = (Int.bmod n.value.asInt (2 ^ 32), false))
      ∧ (∀ v : Int, n.type = TAG_Int → n.value = .vInt v →
          -2147483648 ≤ v → v < 2147483648 → nbt_node_get_int (some n) = (v, false)))
    ∧ (nbt_node_get_long none = (-1, true)
      ∧ (n.type ≠ TAG_Long → nbt_node_get_long (some n) = (-1, true))
      ∧ (∀ v : Int, n.type = TAG_Long → n.value = .vInt v →
          nbt_node_get_long (some n) = (v, false)))
    ∧ (nbt_node_get_float none = (0, true)
      ∧ (n.type ≠ TAG_Float → nbt_node_get_float (some n) = (0, true))
      ∧ (n.type = TAG_Float → nbt_node_get_float (some n) = (n.value.asDbl, false)))
    ∧ (nbt_node_get_double none = (0, true)
      ∧ (n.type ≠ TAG_Double → nbt_node_get_double (some n) = (0, true))
      ∧ (n.type = TAG_Double → nbt_node_get_double (some n) = (n.value.asDbl, false)))
    ∧ (nbt_node_get_string none = (none, true)
      ∧ (n.type ≠ TAG_String → nbt_node_get_string (some n) = (none, true))
      ∧ (∀ s l, n.type = TAG_String → n.value = .vStr s l →
          nbt_node_get_string (some n) = (some s, false)))
    ∧ (nbt_node_get_byte_array none = (none, none, true)
      ∧ (n.type ≠ TAG_Byte_Array → nbt_node_get_byte_array (some n) = (none, none, true))
      ∧ (∀ a l, n.type = TAG_Byte_Array → n.value = .vArr a l →
          nbt_node_get_byte_array (some n) = (some a, some l, false)))
    ∧ (nbt_node_get_int_array none = (none, none, true)
      ∧ (n.type ≠ TAG_Int_Array → nbt_node_get_int_array (some n) = (none, none, true))
      ∧ (∀ a l, n.type = TAG_Int_Array → n.value = .vArr a l →
          nbt_node_get_int_array (some n) = (some a, some l, false)))
    ∧ (nbt_node_get_long_array none = (none, none, true)
      ∧ (n.type ≠ TAG_Long_Array → nbt_node_get_long_array (some n) = (none, none, true))
      ∧ (∀ a l, n.type = TAG_Long_Array → n.value = .vArr a l →
          nbt_node_get_long_array (some n) = (some a, some l, false))) := by
  refine ⟨⟨rfl, fun h => ?_, fun h => ?_, fun v h hv h1 h2 => ?_⟩,
    ⟨rfl, fun h => ?_, fun h => ?_, fun v h hv h1 h2 => ?_⟩,
    ⟨rfl, fun h => ?_, fun h => ?_, fun v h hv h1 h2 => ?_⟩,
    ⟨rfl, fun h => ?_, fun v h hv => ?_⟩,
    ⟨rfl, fun h => ?_, fun h => ?_⟩,
    ⟨rfl, fun h => ?_, fun h => ?_⟩,
    ⟨rfl, fun h => ?_, fun s l h hv => ?_⟩,
    ⟨rfl, fun h => ?_, fun a l h hv => ?_⟩,
    ⟨rfl, fun h => ?_, fun a l h hv => ?_⟩,
    ⟨rfl, fun h => ?_, fun a l h hv => ?_⟩⟩
  · simp [nbt_node_get_byte, h]
  · simp [nbt_node_get_byte, h]
  · simp [nbt_node_get_byte, h, hv, NbtValue.asInt]
    unfold Int.bmod; norm_num; split <;> omega
  · simp [nbt_node_get_short, h]
  · simp [nbt_node_get_short, h]
  · simp [nbt_node_get_short, h, hv, NbtValue.asInt]
    unfold Int.bmod; norm_num; split <;> omega
  · simp [nbt_node_get_int, h]
  · simp [nbt_node_get_int, h]
  · simp [nbt_node_get_int, h, hv, NbtValue.asInt]
    unfold Int.bmod; norm_num; split <;> omega
  · simp [nbt_node_get_long, h]
  · simp [nbt_node_get_long, h, hv, NbtValue.asInt]
  · simp [nbt_node_get_float, h]
  · simp [nbt_node_get_float, h]
  · simp [nbt_node_get_double, h]
  · simp [nbt_node_get_double, h]
  · simp [nbt_node_get_string, h]
  · simp [nbt_node_get_string, h, hv, NbtValue.strVal]
  · simp [nbt_node_get_byte_array, h]
  · simp [nbt_node_get_byte_array, h, hv, NbtValue.arrVal, NbtValue.arrLen]
  · simp [nbt_node_get_int_array, h]
  · simp [nbt_node_get_int_array, h, hv, NbtValue.arrVal, NbtValue.arrLen]
  · simp [nbt_node_get_long_array, h]
  · simp [nbt_node_get_long_array, h, hv, NbtValue.arrVal, NbtValue.arrLen]

/-- Witness for C10: mismatch and match cases at concrete nodes. -/
theorem C10_typed_getters_witness :
    nbt_node_get_byte (some (.mk TAG_Short none (.vInt 3) [])) = (-1, true)
      ∧ nbt_node_get_byte (some (.mk TAG_Byte none (.vInt 42) [])) = (42, false)
      ∧ nbt_node_get_long (some (.mk TAG_Long none (.vInt (-5)) [])) = (-5, false) :=
  ⟨(C10_typed_getters (.mk TAG_Short none (.vInt 3) [])).1.2.1 (by decide),
    (C10_typed_getters (.mk TAG_Byte none (.vInt 42) [])).1.2.2.2 42 rfl rfl
      (by decide) (by decide),
    (C10_typed_getters (.mk TAG_Long none (.vInt (-5)) [])).2.2.2.1.2.2 (-5) rfl rfl⟩

/-! ## Projection lemmas -/

theorem NbtNode.type_mk (t : Nat) (k : Option (List Nat)) (v : NbtValue)
    (cs : List NbtNode) : NbtNode.type (.mk t k v cs) = t := rfl

theorem NbtNode.key_mk (t : Nat) (k : Option (List Nat)) (v : NbtValue)
    (cs : List NbtNode) : NbtNode.key (.mk t k v cs) = k := rfl

theorem NbtNode.value_mk (t : Nat) (k : Option (List Nat)) (v : NbtValue)
    (cs : List NbtNode) : NbtNode.value (.mk t k v cs) = v := rfl

theorem NbtNode.children_mk (t : Nat) (k : Option (List Nat)) (v : NbtValue)
    (cs : List NbtNode) : NbtNode.children (.mk t k v cs) = cs := rfl

/-! ## Lemmas about invariant I3 -/

theorem listTypesOkChildren_iff (cs : List NbtNode) :
    listTypesOkChildren cs = true ↔ ∀ d ∈ cs, listTypesOk d = true := by
  induction cs with
  | nil => simp [listTypesOkChildren]
  | cons c cs ih => simp [listTypesOkChildren, ih]

theorem allSameKind_cons (c : NbtNode) (cs : List NbtNode) :
    allSameKind (c :: cs) = true ↔ ∀ d ∈ cs, d.type = c.type := by
  simp [allSameKind, List.all_eq_true]

theorem allSameKind_of_pivot (cs : List NbtNode) (k : Nat)
    (h : ∀ d ∈ cs, d.type = k) : allSameKind cs = true := by
  cases cs with
  | nil => rfl
  | cons c cs =>
    rw [allSameKind_cons]
    intro d hd
    rw [h d (List.mem_cons_of_mem _ hd), h c (List.mem_cons_self _ _)]

theorem allSameKind_mem {c d : NbtNode} {cs : List NbtNode}
    (h : allSameKind (c :: cs) = true) (hd : d ∈ c :: cs) : d.type = c.type := by
  rcases List.mem_cons.mp hd with rfl | hd
  · rfl
  · exact (allSameKind_cons c cs).mp h d hd

theorem listTypesOk_mk (t : Nat) (k : Option (List Nat)) (v : NbtValue)
    (cs : List NbtNode) :
    listTypesOk (.mk t k v cs)
      = ((if t = TAG_List then allSameKind cs else true) && listTypesOkChildren cs) := by
  rfl

theorem mem_insertAt {d c : NbtNode} {cs : List NbtNode} {i : Nat}
    (h : d ∈ cs.take i ++ c :: cs.drop i) : d = c ∨ d ∈ cs := by
  rcases List.mem_append.mp h with h1 | h1
  · exact Or.inr (List.take_subset i cs h1)
  · rcases List.mem_cons.mp h1 with rfl | h2
    · exact Or.inl rfl
    · exact Or.inr (List.drop_subset i cs h2)

/-- C8: each insertion operation fails, leaving the parent unchanged,
when the parent is neither Compound nor List (first conjunct); when the
parent is a List that already has children it fails unless the new
child's kind matches theirs (second conjunct; for an indexed sibling
the children are assumed kind-homogeneous, as invariant I3
guarantees); and every operation — succeeding or failing — maps trees
satisfying I3 to trees satisfying I3 (third conjunct). -/
theorem C8_insertion_guards_preserve_I3 :
    (∀ p c sib, ¬(p.type = TAG_Compound ∨ p.type = TAG_List) →
      nbt_node_append p c = (false, p) ∧ nbt_node_prepend p c = (false, p)
        ∧ nbt_node_insert_before p sib c = (false, p)
        ∧ nbt_node_insert_after p sib c = (false, p))
    ∧ (∀ p c d cs, p.type = TAG_List → p.children = d :: cs → c.type ≠ d.type →
      nbt_node_append p c = (false, p) ∧ nbt_node_prepend p c = (false, p)
        ∧ nbt_node_insert_before p none c = (false, p)
        ∧ nbt_node_insert_after p none c = (false, p)
        ∧ (∀ i, i < cs.length + 1 → allSameKind (d :: cs) = true →
            nbt_node_insert_before p (some i) c = (false, p)
            ∧ nbt_node_insert_after p (some i) c = (false, p)))
    ∧ (∀ p c sib, listTypesOk p = true → listTypesOk c = true →
      listTypesOk (nbt_node_append p c).2 = true
        ∧ listTypesOk (nbt_node_prepend p c).2 = true
        ∧ listTypesOk (nbt_node_insert_before p sib c).2 = true
        ∧ listTypesOk (nbt_node_insert_after p sib c).2 = true) := by
  refine ⟨?_, ?_, ?_⟩
  · intro p c sib h
    unfold nbt_node_append nbt_node_prepend nbt_node_insert_before nbt_node_insert_after
    rw [if_neg h, if_neg h, if_neg h, if_neg h]
    exact ⟨rfl, rfl, rfl, rfl⟩
  · intro p c d cs htype hch hne
    obtain ⟨t, k, v, cs0⟩ := p
    simp only [NbtNode.type_mk] at htype
    simp only [NbtNode.children_mk] at hch
    subst hch htype
    have hne2 : d.type ≠ c.type := fun h => hne h.symm
    refine ⟨?_, ?_, ?_, ?_, ?_⟩
    · unfold nbt_node_append
      simp [NbtNode.type_mk, NbtNode.key_mk, NbtNode.value_mk, NbtNode.children_mk, hne2]
    · unfold nbt_node_prepend
      simp [NbtNode.type_mk, NbtNode.key_mk, NbtNode.value_mk, NbtNode.children_mk, hne2]
    · unfold nbt_node_insert_before
      simp [NbtNode.type_mk, NbtNode.key_mk, NbtNode.value_mk, NbtNode.children_mk, hne2]
    · unfold nbt_node_insert_after
      simp [NbtNode.type_mk, NbtNode.key_mk, NbtNode.value_mk, NbtNode.children_mk, hne2]
    · intro i hi hsame
      have hget : ((d :: cs).getD i c).type = d.type := by
        apply allSameKind_mem hsame
        have hilt : i < (d :: cs).length := by simpa using hi
        rw [List.getD_eq_getElem _ _ hilt]
        exact List.getElem_mem _
      have hgetne : ¬ ((d :: cs).getD i c).type = c.type := by
        rw [hget]; exact hne2
      simp only [List.getD_eq_getElem?_getD] at hgetne
      have hilt : i < (d :: cs).length := by simpa using hi
      constructor
      · unfold nbt_node_insert_before
        simp [NbtNode.type_mk, NbtNode.key_mk, NbtNode.value_mk, NbtNode.children_mk,
          hilt, hgetne]
      · unfold nbt_node_insert_after
        simp [NbtNode.type_mk, NbtNode.key_mk, NbtNode.value_mk, NbtNode.children_mk,
          hilt, hgetne]
  · intro p c sib hp hc
    obtain ⟨t, k, v, cs0⟩ := p
    rw [listTypesOk_mk, Bool.and_eq_true, listTypesOkChildren_iff] at hp
    obtain ⟨hpk, hpch⟩ := hp
    have hmk : ∀ cs1 : List NbtNode, (∀ d ∈ cs1, listTypesOk d = true) →
        (t = TAG_List → allSameKind cs1 = true) → listTypesOk (.mk t k v cs1) = true := by
      intro cs1 h1 h2
      rw [listTypesOk_mk, Bool.and_eq_true, listTypesOkChildren_iff]
      refine ⟨?_, h1⟩
      by_cases ht : t = TAG_List
      · rw [if_pos ht]; exact h2 ht
      · rw [if_neg ht]
    have hunch : listTypesOk (.mk t k v cs0) = true :=
      hmk cs0 hpch (fun ht => by rw [if_pos ht] at hpk; exact hpk)
    refine ⟨?_, ?_, ?_, ?_⟩
    · -- nbt_node_append
      cases cs0 with
      | nil =>
        unfold nbt_node_append
        simp only [NbtNode.type_mk, NbtNode.key_mk, NbtNode.value_mk, NbtNode.children_mk]
        split
        · exact hmk [c] (by intro d hd; rcases List.mem_singleton.mp hd with rfl; exact hc)
            (fun _ => rfl)
        · exact hunch
      | cons e es =>
        unfold nbt_node_append
        simp only [NbtNode.type_mk, NbtNode.key_mk, NbtNode.value_mk, NbtNode.children_mk]
        split
        · split
          · exact hunch
          · rename_i hcnot
            apply hmk
            · intro d hd
              rcases List.mem_append.mp hd with h1 | h1
              · exact hpch d h1
              · rcases List.mem_singleton.mp h1 with rfl
                exact hc
            · intro ht
              rw [if_pos ht] at hpk
              apply allSameKind_of_pivot _ e.type
              intro d hd
              rcases List.mem_append.mp hd with h1 | h1
              · exact allSameKind_mem hpk h1
              · rcases List.mem_singleton.mp h1 with rfl
                have he : ¬ e.type ≠ d.type := fun hne2 => hcnot ⟨ht, hne2⟩
                exact (not_not.mp he).symm
        · exact hunch
    · -- nbt_node_prepend
      cases cs0 with
      | nil =>
        unfold nbt_node_prepend
        simp only [NbtNode.type_mk, NbtNode.key_mk, NbtNode.value_mk, NbtNode.children_mk]
        split
        · exact hmk [c] (by intro d hd; rcases List.mem_singleton.mp hd with rfl; exact hc)
            (fun _ => rfl)
        · exact hunch
      | cons e es =>
        unfold nbt_node_prepend
        simp only [NbtNode.type_mk, NbtNode.key_mk, NbtNode.value_mk, NbtNode.children_mk]
        split
        · split
          · exact hunch
          · rename_i hcnot
            apply hmk
            · intro d hd
              rcases List.mem_cons.mp hd with rfl | h1
              · exact hc
              · exact hpch d h1
            · intro ht
              rw [if_pos ht] at hpk
              have he : ¬ e.type ≠ c.type := fun hne2 => hcnot ⟨ht, hne2⟩
              apply allSameKind_of_pivot _ e.type
              intro d hd
              rcases List.mem_cons.mp hd with rfl | h1
              · exact (not_not.mp he).symm
              · exact allSameKind_mem hpk h1
        · exact hunch
    · -- nbt_node_insert_before
      cases sib with
      | none =>
        cases cs0 with
        | nil =>
          unfold nbt_node_insert_before
          simp only [NbtNode.type_mk, NbtNode.key_mk, NbtNode.value_mk, NbtNode.children_mk]
          split
          · exact hmk [c] (by intro d hd; rcases List.mem_singleton.mp hd with rfl; exact hc)
              (fun _ => rfl)
          · exact hunch
        | cons e es =>
          unfold nbt_node_insert_before
          simp only [NbtNode.type_mk, NbtNode.key_mk, NbtNode.value_mk, NbtNode.children_mk]
          split
          · split
            · exact hunch
            · rename_i hcnot
              apply hmk
              · intro d hd
                rcases List.mem_append.mp hd with h1 | h1
                · exact hpch d h1
                · rcases List.mem_singleton.mp h1 with rfl
                  exact hc
              · intro ht
                rw [if_pos ht] at hpk
                apply allSameKind_of_pivot _ e.type
                intro d hd
                rcases List.mem_append.mp hd with h1 | h1
                · exact allSameKind_mem hpk h1
                · rcases List.mem_singleton.mp h1 with rfl
                  have he : ¬ e.type ≠ d.type := fun hne2 => hcnot ⟨ht, hne2⟩
                  exact (not_not.mp he).symm
          · exact hunch
      | some i =>
        unfold nbt_node_insert_before
        simp only [NbtNode.type_mk, NbtNode.key_mk, NbtNode.value_mk, NbtNode.children_mk]
        split
        · split
          · split
            · split
              · rename_i ht hilt hgd
                apply hmk
                · intro d hd
                  rcases mem_insertAt hd with rfl | h1
                  · exact hc
                  · exact hpch d h1
                · intro _
                  rw [if_pos ht] at hpk
                  cases cs0 with
                  | nil => exact absurd hilt (by simp)
                  | cons e es =>
                    apply allSameKind_of_pivot _ e.type
                    intro d hd
                    rcases mem_insertAt hd with rfl | h1
                    · rw [← hgd]
                      apply allSameKind_mem hpk
                      rw [List.getD_eq_getElem _ _ hilt]
                      exact List.getElem_mem _
                    · exact allSameKind_mem hpk h1
              · exact hunch
            · exact hunch
          · split
            · rename_i htn hilt
              apply hmk
              · intro d hd
                rcases mem_insertAt hd with rfl | h1
                · exact hc
                · exact hpch d h1
              · intro ht
                exact absurd ht htn
            · exact hunch
        · exact hunch
    · -- nbt_node_insert_after
      cases sib with
      | none =>
        cases cs0 with
        | nil =>
          unfold nbt_node_insert_after
          simp only [NbtNode.type_mk, NbtNode.key_mk, NbtNode.value_mk, NbtNode.children_mk]
          split
          · exact hmk [c] (by intro d hd; rcases List.mem_singleton.mp hd with rfl; exact hc)
              (fun _ => rfl)
          · exact hunch
        | cons e es =>
          unfold nbt_node_insert_after
          simp only [NbtNode.type_mk, NbtNode.key_mk, NbtNode.value_mk, NbtNode.children_mk]
          split
          · split
            · exact hunch
            · rename_i hcnot
              apply hmk
              · intro d hd
                rcases List.mem_cons.mp hd with rfl | h1
                · exact hc
                · exact hpch d h1
              · intro ht
                rw [if_pos ht] at hpk
                have he : ¬ e.type ≠ c.type := fun hne2 => hcnot ⟨ht, hne2⟩
                apply allSameKind_of_pivot _ e.type
                intro d hd
                rcases List.mem_cons.mp hd with rfl | h1
                · exact (not_not.mp he).symm
                · exact allSameKind_mem hpk h1
          · exact hunch
      | some i =>
        unfold nbt_node_insert_after
        simp only [NbtNode.type_mk, NbtNode.key_mk, NbtNode.value_mk, NbtNode.children_mk]
        split
        · split
          · split
            · split
              · rename_i ht hilt hgd
                apply hmk
                · intro d hd
                  rcases mem_insertAt hd with rfl | h1
                  · exact hc
                  · exact hpch d h1
                · intro _
                  rw [if_pos ht] at hpk
                  cases cs0 with
                  | nil => exact absurd hilt (by simp)
                  | cons e es =>
                    apply allSameKind_of_pivot _ e.type
                    intro d hd
                    rcases mem_insertAt hd with rfl | h1
                    · rw [← hgd]
                      apply allSameKind_mem hpk
                      rw [List.getD_eq_getElem _ _ hilt]
                      exact List.getElem_mem _
                    · exact allSameKind_mem hpk h1
              · exact hunch
            · exact hunch
          · split
            · rename_i htn hilt
              apply hmk
              · intro d hd
                rcases mem_insertAt hd with rfl | h1
                · exact hc
                · exact hpch d h1
              · intro ht
                exact absurd ht htn
            · exact hunch
        · exact hunch

/-- Witness for C8: a Byte parent rejects insertion; a List of Shorts
rejects a Byte child; and appending a matching child to a List keeps
I3. -/
theorem C8_insertion_guards_preserve_I3_witness :
    nbt_node_append (.mk TAG_Byte none (.vInt 1) []) (.mk TAG_Byte none (.vInt 2) [])
        = (false, .mk TAG_Byte none (.vInt 1) [])
      ∧ nbt_node_append (.mk TAG_List none .vNone [.mk TAG_Short none (.vInt 1) []])
          (.mk TAG_Byte none (.vInt 2) [])
        = (false, .mk TAG_List none .vNone [.mk TAG_Short none (.vInt 1) []])
      ∧ listTypesOk (nbt_node_append
          (.mk TAG_List none .vNone [.mk TAG_Short none (.vInt 1) []])
          (.mk TAG_Short none (.vInt 2) [])).2 = true :=
  ⟨(C8_insertion_guards_preserve_I3.1 (.mk TAG_Byte none (.vInt 1) [])
      (.mk TAG_Byte none (.vInt 2) []) none (by decide)).1,
    (C8_insertion_guards_preserve_I3.2.1 (.mk TAG_List none .vNone [.mk TAG_Short none (.vInt 1) []])
      (.mk TAG_Byte none (.vInt 2) []) (.mk TAG_Short none (.vInt 1) []) [] rfl rfl
      (by decide)).1,
    (C8_insertion_guards_preserve_I3.2.2 (.mk TAG_List none .vNone [.mk TAG_Short none (.vInt 1) []])
      (.mk TAG_Short none (.vInt 2) []) none (by with_unfolding_all rfl)
      (by with_unfolding_all rfl)).1⟩

/-! ## Round-trip infrastructure: unfolding and buffer navigation -/

theorem nsize_mk (t : Nat) (k : Option (List Nat)) (v : NbtValue) (cs : List NbtNode) :
    nsize (.mk t k v cs) = 1 + nsizeList cs := rfl

theorem nsizeList_nil : nsizeList [] = 0 := rfl

theorem nsizeList_cons (c : NbtNode) (cs : List NbtNode) :
    nsizeList (c :: cs) = 1 + nsize c + nsizeList cs := rfl

theorem nsize_pos (T : NbtNode) : 1 ≤ nsize T := by
  cases T
  rw [nsize_mk]
  omega

theorem canonical_children_nil : canonical_children [] := trivial

theorem canonical_children_cons (c : NbtNode) (cs : List NbtNode) :
    canonical_children (c :: cs) = (canonical_node c ∧ canonical_children cs) := rfl

theorem getD_append_add (l₁ l₂ : List Nat) (i : Nat) :
    (l₁ ++ l₂).getD (l₁.length + i) 0 = l₂.getD i 0 := by
  simp only [List.getD_eq_getElem?_getD]
  rw [List.getElem?_append_right (by omega)]
  congr 2
  omega

theorem drop_append_add (l₁ l₂ : List Nat) (j : Nat) :
    (l₁ ++ l₂).drop (l₁.length + j) = l₂.drop j := by
  rw [← List.drop_drop, List.drop_left]

theorem readBE_append (l₁ l₂ : List Nat) (j w : Nat) :
    readBE (l₁ ++ l₂) (l₁.length + j) w = readBE l₂ j w := by
  induction w with
  | zero => rfl
  | succ w ih =>
    simp only [readBE, ih]
    rw [show l₁.length + j + w = l₁.length + (j + w) by omega, getD_append_add]

theorem readBE_at (pre l : List Nat) (w : Nat) :
    readBE (pre ++ l) pre.length w = readBE l 0 w := by
  have := readBE_append pre l 0 w
  simpa using this

theorem getD_at (pre l : List Nat) : (pre ++ l).getD pre.length 0 = l.getD 0 0 := by
  have := getD_append_add pre l 0
  simpa using this

theorem takeWhile_ne_zero_eq_self {l : List Nat} (h : ∀ b ∈ l, b ≠ 0) :
    l.takeWhile (fun b => b ≠ 0) = l := by
  refine List.takeWhile_eq_self_iff.mpr ?_
  intro b hb
  simpa using h b hb

set_option maxRecDepth 8000 in
/-- Bit-mask identities on bytes, as used by the MUTF-8 codec. -/
theorem byte_mask_facts : ∀ b : Nat, b < 256 →
    b &&& 0xe0 = b / 32 * 32 ∧ b &&& 0xc0 = b / 64 * 64 ∧ b &&& 0x3f = b % 64 ∧
      b &&& 0x1f = b % 32 ∧ b &&& 0xf = b % 16 := by decide

/-! ## The MUTF-8 codec is the identity on canonical strings -/

theorem enc_lt_80 {c : Nat} (h : c < 0x80) : g_unichar_to_utf8 c = [c] := by
  unfold g_unichar_to_utf8
  rw [if_pos h]

theorem enc_2byte {c : Nat} (h1 : 0x80 ≤ c) (h2 : c < 0x800) :
    g_unichar_to_utf8 c = [0xc0 + c / 64, 0x80 + c % 64] := by
  unfold g_unichar_to_utf8
  rw [if_neg (by omega), if_pos h2]

theorem enc_3byte {c : Nat} (h1 : 0x800 ≤ c) (h2 : c < 0x10000) :
    g_unichar_to_utf8 c = [0xe0 + c / 4096, 0x80 + c / 64 % 64, 0x80 + c % 64] := by
  unfold g_unichar_to_utf8
  rw [if_neg (by omega), if_neg (by omega), if_pos h2]

theorem enc_ne_nil (c : Nat) : g_unichar_to_utf8 c ≠ [] := by
  unfold g_unichar_to_utf8
  split_ifs <;> simp

theorem BMP_enc_nonzero {c : Nat} (h1 : 1 ≤ c) (h2 : c ≤ 0xFFFF) :
    ∀ b ∈ g_unichar_to_utf8 c, b ≠ 0 := by
  intro b hb
  rcases Nat.lt_or_ge c 0x80 with hA | hB
  · rw [enc_lt_80 hA] at hb
    simp at hb
    omega
  rcases Nat.lt_or_ge c 0x800 with hC | hD
  · rw [enc_2byte hB hC] at hb
    simp only [List.mem_cons, List.not_mem_nil, or_false] at hb
    rcases hb with rfl | rfl <;> omega
  · rw [enc_3byte hD (by omega)] at hb
    simp only [List.mem_cons, List.not_mem_nil, or_false] at hb
    rcases hb with rfl | rfl | rfl <;> omega

theorem flatMap_enc_len_ge (cs : List Nat) :
    cs.length ≤ (cs.flatMap g_unichar_to_utf8).length := by
  induction cs with
  | nil => simp
  | cons c cs ih =>
    rw [List.flatMap_cons, List.length_append, List.length_cons]
    have h1 : 1 ≤ (g_unichar_to_utf8 c).length :=
      List.length_pos.mpr (enc_ne_nil c)
    omega

theorem canonicalString_nonzero {s : List Nat} (h : canonicalString s) :
    ∀ b ∈ s, b ≠ 0 := by
  obtain ⟨cs, hcs, rfl⟩ := h
  intro b hb
  obtain ⟨c, hc, hbc⟩ := List.mem_flatMap.mp hb
  obtain ⟨h1, h2, -⟩ := hcs c hc
  exact BMP_enc_nonzero h1 h2 b hbc

theorem mutf8_units_enc (cs : List Nat) (h : ∀ c ∈ cs, BMPscalar c) :
    mutf8_units (cs.flatMap g_unichar_to_utf8) = some cs := by
  induction cs with
  | nil => rfl
  | cons c cs ih =>
    obtain ⟨hc1, hc2, hc3⟩ := h c (List.mem_cons_self c cs)
    have htail := ih (fun d hd => h d (List.mem_cons_of_mem c hd))
    rw [List.flatMap_cons]
    rcases Nat.lt_or_ge c 0x80 with hA | hB
    · rw [enc_lt_80 hA, List.cons_append, List.nil_append]
      rw [mutf8_units.eq_def]
      dsimp only
      rw [if_neg (by omega), if_pos (by omega), htail]
      rfl
    rcases Nat.lt_or_ge c 0x800 with hC | hD
    · rw [enc_2byte hB hC, List.cons_append, List.cons_append, List.nil_append]
      obtain ⟨hm1, hm2, -, hm4, -⟩ := byte_mask_facts (0xc0 + c / 64) (by omega)
      obtain ⟨-, -, hn3, -, -⟩ := byte_mask_facts (0x80 + c % 64) (by omega)
      rw [mutf8_units.eq_def]
      dsimp only
      rw [if_neg (by omega), if_neg (by omega), if_neg (by rw [hm1]; omega),
        if_pos (by rw [hm2]; omega), htail]
      rw [Option.map_some']
      rw [hm4, hn3]
      congr 2
      omega
    · rw [enc_3byte hD (by omega), List.cons_append, List.cons_append,
        List.cons_append, List.nil_append]
      obtain ⟨hm1, -, -, -, hm5⟩ := byte_mask_facts (0xe0 + c / 4096) (by omega)
      obtain ⟨-, -, hn3, -, -⟩ := byte_mask_facts (0x80 + c / 64 % 64) (by omega)
      obtain ⟨-, -, ho3, -, -⟩ := byte_mask_facts (0x80 + c % 64) (by omega)
      rw [mutf8_units.eq_def]
      dsimp only
      rw [if_neg (by omega), if_neg (by omega), if_pos (by rw [hm1]; omega), htail]
      rw [Option.map_some']
      rw [hm5, hn3, ho3]
      congr 2
      omega

theorem utf16_enc (cs : List Nat) (h : ∀ c ∈ cs, BMPscalar c) :
    g_utf16_to_utf8 cs = some (cs.flatMap g_unichar_to_utf8) := by
  induction cs with
  | nil => rfl
  | cons c cs ih =>
    obtain ⟨hc1, hc2, hc3⟩ := h c (List.mem_cons_self c cs)
    have htail := ih (fun d hd => h d (List.mem_cons_of_mem c hd))
    rw [g_utf16_to_utf8.eq_def]
    dsimp only
    rw [if_neg (by omega), if_neg (by omega), if_neg (by omega), htail]
    rw [List.flatMap_cons]
    rfl

theorem convert_string_id {s : List Nat} (h : canonicalString s) :
    convert_string s = some s := by
  obtain ⟨cs, hcs, rfl⟩ := h
  unfold convert_string
  rw [mutf8_units_enc cs hcs]
  have hz : ∀ b ∈ cs.flatMap g_unichar_to_utf8, b ≠ 0 :=
    canonicalString_nonzero ⟨cs, hcs, rfl⟩
  rw [takeWhile_ne_zero_eq_self hz]
  rw [Option.some_bind]
  rw [List.take_of_length_le (flatMap_enc_len_ge cs)]
  exact utf16_enc cs hcs

theorem get_char_1 {b : Nat} (h : b < 0x80) (rest : List Nat) :
    g_utf8_get_char (b :: rest) = b := by
  unfold g_utf8_get_char
  simp only [List.headD_cons]
  rw [if_pos h]

theorem get_char_2 {b0 : Nat} (h1 : 0xc0 ≤ b0) (h2 : b0 < 0xe0) (b1 : Nat)
    (rest : List Nat) :
    g_utf8_get_char (b0 :: b1 :: rest) = (b0 &&& 0x1f) * 64 + (b1 &&& 0x3f) := by
  unfold g_utf8_get_char
  simp only [List.headD_cons, List.drop_succ_cons, List.drop_zero]
  rw [if_neg (by omega), if_neg (by omega), if_pos h2]

theorem get_char_3 {b0 : Nat} (h1 : 0xe0 ≤ b0) (h2 : b0 < 0xf0) (b1 b2 : Nat)
    (rest : List Nat) :
    g_utf8_get_char (b0 :: b1 :: b2 :: rest)
      = (b0 &&& 0xf) * 4096 + (b1 &&& 0x3f) * 64 + (b2 &&& 0x3f) := by
  unfold g_utf8_get_char
  simp only [List.headD_cons, List.drop_succ_cons, List.drop_zero]
  rw [if_neg (by omega), if_neg (by omega), if_neg (by omega), if_pos h2]

theorem mutf8_go_enc_id (cs : List Nat) (h : ∀ c ∈ cs, BMPscalar c) :
    ∀ fuel, cs.length ≤ fuel →
      convert_string_to_mutf8_go fuel (cs.flatMap g_unichar_to_utf8)
        = cs.flatMap g_unichar_to_utf8 := by
  induction cs with
  | nil =>
    intro fuel hf
    cases fuel <;> rfl
  | cons c cs ih =>
    intro fuel hf
    rw [List.length_cons] at hf
    cases fuel with
    | zero => omega
    | succ f =>
    obtain ⟨hc1, hc2, hc3⟩ := h c (List.mem_cons_self c cs)
    have htail := ih (fun d hd => h d (List.mem_cons_of_mem c hd)) f (by omega)
    rw [List.flatMap_cons]
    rcases Nat.lt_or_ge c 0x80 with hA | hB
    · rw [enc_lt_80 hA, List.cons_append, List.nil_append]
      have hskip : g_utf8_skip c = 1 := by
        unfold g_utf8_skip
        rw [if_pos (by omega)]
      simp only [convert_string_to_mutf8_go]
      rw [if_neg (by omega), get_char_1 hA, if_pos (by omega), hskip]
      simp only [List.drop_succ_cons, List.drop_zero]
      rw [htail, enc_lt_80 hA]
      rfl
    rcases Nat.lt_or_ge c 0x800 with hC | hD
    · rw [enc_2byte hB hC, List.cons_append, List.cons_append, List.nil_append]
      obtain ⟨-, -, -, hm4, -⟩ := byte_mask_facts (0xc0 + c / 64) (by omega)
      obtain ⟨-, -, hn3, -, -⟩ := byte_mask_facts (0x80 + c % 64) (by omega)
      have hchar : g_utf8_get_char
          ((0xc0 + c / 64) :: (0x80 + c % 64) :: cs.flatMap g_unichar_to_utf8) = c := by
        rw [get_char_2 (by omega) (by omega), hm4, hn3]
        omega
      have hskip : g_utf8_skip (0xc0 + c / 64) = 2 := by
        unfold g_utf8_skip
        rw [if_neg (by omega), if_pos (by omega)]
      simp only [convert_string_to_mutf8_go]
      rw [if_neg (by omega), hchar, if_pos (by omega), hskip]
      simp only [List.drop_succ_cons, List.drop_zero]
      rw [htail, enc_2byte hB hC]
      rfl
    · rw [enc_3byte hD (by omega), List.cons_append, List.cons_append,
        List.cons_append, List.nil_append]
      obtain ⟨-, -, -, -, hm5⟩ := byte_mask_facts (0xe0 + c / 4096) (by omega)
      obtain ⟨-, -, hn3, -, -⟩ := byte_mask_facts (0x80 + c / 64 % 64) (by omega)
      obtain ⟨-, -, ho3, -, -⟩ := byte_mask_facts (0x80 + c % 64) (by omega)
      have hchar : g_utf8_get_char
          ((0xe0 + c / 4096) :: (0x80 + c / 64 % 64) :: (0x80 + c % 64) ::
            cs.flatMap g_unichar_to_utf8) = c := by
        rw [get_char_3 (by omega) (by omega), hm5, hn3, ho3]
        omega
      have hskip : g_utf8_skip (0xe0 + c / 4096) = 3 := by
        unfold g_utf8_skip
        rw [if_neg (by omega), if_neg (by omega), if_pos (by omega)]
      simp only [convert_string_to_mutf8_go]
      rw [if_neg (by omega), hchar, if_pos (by omega), hskip]
      simp only [List.drop_succ_cons, List.drop_zero]
      rw [htail, enc_3byte hD (by omega)]
      rfl

theorem mutf8_enc_id (cs : List Nat) (h : ∀ c ∈ cs, BMPscalar c) :
    convert_string_to_mutf8 (cs.flatMap g_unichar_to_utf8)
      = cs.flatMap g_unichar_to_utf8 := by
  unfold convert_string_to_mutf8
  exact mutf8_go_enc_id cs h _ (flatMap_enc_len_ge cs)

theorem convert_string_to_mutf8_id {s : List Nat} (h : canonicalString s) :
    convert_string_to_mutf8 s = s := by
  obtain ⟨cs, hcs, rfl⟩ := h
  exact mutf8_enc_id cs hcs

/-! ## Writer inversion lemmas -/

theorem write_zero (T : NbtNode) (wk : Bool) :
    nbt_node_write_nbt_to_gbytearray 0 T wk = none := by
  with_unfolding_all rfl

theorem write_children_nil (fuel : Nat) (wk : Bool) :
    nbt_node_write_children fuel [] wk = some [] := by
  cases fuel <;> with_unfolding_all rfl

theorem write_children_zero_cons (c : NbtNode) (cs : List NbtNode) (wk : Bool) :
    nbt_node_write_children 0 (c :: cs) wk = none := by
  with_unfolding_all rfl

theorem write_children_cons_inv {wf : Nat} {c : NbtNode} {cs : List NbtNode} {wk : Bool}
    {bs : List Nat} (h : nbt_node_write_children wf (c :: cs) wk = some bs) :
    ∃ wf2 b1 b2, wf = wf2 + 1 ∧ nbt_node_write_nbt_to_gbytearray wf2 c wk = some b1 ∧
      nbt_node_write_children wf2 cs wk = some b2 ∧ bs = b1 ++ b2 := by
  cases wf with
  | zero => rw [write_children_zero_cons] at h; exact absurd h (by simp)
  | succ wf2 =>
    simp only [nbt_node_write_children] at h
    cases h1 : nbt_node_write_nbt_to_gbytearray wf2 c wk with
    | none => rw [h1] at h; exact absurd h (by simp)
    | some b1 =>
      rw [h1] at h
      cases h2 : nbt_node_write_children wf2 cs wk with
      | none => rw [h2] at h; exact absurd h (by simp)
      | some b2 =>
        rw [h2] at h
        exact ⟨wf2, b1, b2, rfl, h1, h2, (Option.some_inj.mp h).symm⟩

theorem write_true_decomp {wf : Nat} {T : NbtNode} {bs : List Nat}
    (h : nbt_node_write_nbt_to_gbytearray wf T true = some bs) :
    ∃ pb, nbt_node_write_nbt_to_gbytearray wf T false = some pb ∧
      bs = nbt_node_write_key_to_gbytearray T.key T.type ++ pb := by
  cases wf with
  | zero => rw [write_zero] at h; exact absurd h (by simp)
  | succ wf2 =>
    simp only [nbt_node_write_nbt_to_gbytearray, if_true, Bool.false_eq_true,
      if_false] at h ⊢
    split_ifs at h ⊢
    · exact ⟨_, rfl, (Option.some_inj.mp h).symm⟩
    · exact ⟨_, rfl, (Option.some_inj.mp h).symm⟩
    · exact ⟨_, rfl, (Option.some_inj.mp h).symm⟩
    · exact ⟨_, rfl, (Option.some_inj.mp h).symm⟩
    · obtain ⟨a, ha, hab⟩ := Option.map_eq_some'.mp h
      exact ⟨a, by rw [ha]; simp, by rw [← hab]⟩
    · obtain ⟨a, ha, hab⟩ := Option.map_eq_some'.mp h
      exact ⟨a, by rw [ha]; simp, by rw [← hab]⟩

/-! ## Reading back written integers -/

theorem getD_write_uint8 (pre post : List Nat) (v : Nat) :
    (pre ++ (nbt_node_write_uint8_to_gbytearray v ++ post)).getD pre.length 0
      = v % 256 := by
  unfold nbt_node_write_uint8_to_gbytearray
  rw [getD_at]
  rfl

theorem readBE_write_uint16 (pre post : List Nat) (v : Nat) :
    readBE (pre ++ (nbt_node_write_uint16_to_gbytearray v ++ post)) pre.length 2
      = v % 2 ^ 16 := by
  unfold nbt_node_write_uint16_to_gbytearray
  rw [readBE_at]
  simp only [readBE, List.getD_eq_getElem?_getD, List.cons_append, List.nil_append]
  simp [List.getElem?_cons]
  omega

theorem readBE_write_uint32 (pre post : List Nat) (v : Nat) :
    readBE (pre ++ (nbt_node_write_uint32_to_gbytearray v ++ post)) pre.length 4
      = v % 2 ^ 32 := by
  unfold nbt_node_write_uint32_to_gbytearray
  rw [readBE_at]
  simp only [readBE, List.getD_eq_getElem?_getD, List.cons_append, List.nil_append]
  simp [List.getElem?_cons]
  omega

theorem readBE_write_uint64 (pre post : List Nat) (v : Nat) :
    readBE (pre ++ (nbt_node_write_uint64_to_gbytearray v ++ post)) pre.length 8
      = v % 2 ^ 64 := by
  unfold nbt_node_write_uint64_to_gbytearray
  rw [readBE_at]
  simp only [readBE, List.getD_eq_getElem?_getD, List.cons_append, List.nil_append]
  simp [List.getElem?_cons]
  omega

theorem getUint8_at (pre post : List Nat) (v : Nat) :
    LIBNBT_getUint8 (pre ++ (nbt_node_write_uint8_to_gbytearray v ++ post)) pre.length
      = some (v % 256, pre.length + 1) := by
  rw [LIBNBT_getUint8_some
    (by simp [nbt_node_write_uint8_to_gbytearray]),
    getD_write_uint8]

theorem getUint16_at (pre post : List Nat) (v : Nat) :
    LIBNBT_getUint16 (pre ++ (nbt_node_write_uint16_to_gbytearray v ++ post)) pre.length
      = some (v % 2 ^ 16, pre.length + 2) := by
  rw [LIBNBT_getUint16_some
    (by simp [nbt_node_write_uint16_to_gbytearray]),
    readBE_write_uint16]

theorem getUint32_at (pre post : List Nat) (v : Nat) :
    LIBNBT_getUint32 (pre ++ (nbt_node_write_uint32_to_gbytearray v ++ post)) pre.length
      = some (v % 2 ^ 32, pre.length + 4) := by
  rw [LIBNBT_getUint32_some
    (by simp [nbt_node_write_uint32_to_gbytearray]),
    readBE_write_uint32]

theorem getUint64_at (pre post : List Nat) (v : Nat) :
    LIBNBT_getUint64 (pre ++ (nbt_node_write_uint64_to_gbytearray v ++ post)) pre.length
      = some (v % 2 ^ 64, pre.length + 8) := by
  rw [LIBNBT_getUint64_some
    (by simp [nbt_node_write_uint64_to_gbytearray]),
    readBE_write_uint64]

/-! ## Reading back written key fields -/

theorem write_key_field_none : nbt_node_write_key_field none = [0, 0] := rfl

theorem write_key_field_some {s : List Nat} (h : canonicalString s) (hne : s ≠ []) :
    nbt_node_write_key_field (some s)
      = nbt_node_write_uint16_to_gbytearray s.length ++ s := by
  have hz := canonicalString_nonzero h
  have hhead : s.headD 0 ≠ 0 := by
    cases s with
    | nil => exact absurd rfl hne
    | cons b s2 => exact hz b (List.mem_cons_self b s2)
  unfold nbt_node_write_key_field
  dsimp only
  rw [if_pos hhead, convert_string_to_mutf8_id h, takeWhile_ne_zero_eq_self hz]

theorem length_write_key_field_none : (nbt_node_write_key_field none).length = 2 := rfl

theorem length_write_key_field_some {s : List Nat} (h : canonicalString s) (hne : s ≠ []) :
    (nbt_node_write_key_field (some s)).length = 2 + s.length := by
  rw [write_key_field_some h hne]
  simp [nbt_node_write_uint16_to_gbytearray]
  omega

theorem getKey_at_none (pre post : List Nat) :
    LIBNBT_getKey (pre ++ (nbt_node_write_key_field none ++ post)) pre.length
      = some (none, pre.length + 2) := by
  refine LIBNBT_getKey_none_key ?_ ?_
  · simp [write_key_field_none]
  · have := readBE_write_uint16 pre post 0
    simpa [write_key_field_none, nbt_node_write_uint16_to_gbytearray] using this

theorem getKey_at_some (pre post s : List Nat) (h : canonicalString s) (hne : s ≠ [])
    (hlen : s.length ≤ 0xFFFF) :
    LIBNBT_getKey (pre ++ (nbt_node_write_key_field (some s) ++ post)) pre.length
      = some (some s, pre.length + 2 + s.length) := by
  rw [write_key_field_some h hne, List.append_assoc]
  have hread : readBE
      (pre ++ (nbt_node_write_uint16_to_gbytearray s.length ++ (s ++ post)))
      pre.length 2 = s.length := by
    rw [readBE_write_uint16]
    omega
  have hslen : 1 ≤ s.length := by
    cases s with
    | nil => exact absurd rfl hne
    | cons b s2 => simp
  rw [LIBNBT_getKey_some_key
    (by simp [nbt_node_write_uint16_to_gbytearray])
    (by rw [hread]; omega)
    (by rw [hread]; simp [nbt_node_write_uint16_to_gbytearray]; omega)]
  rw [hread]
  have hslice : ((pre ++ (nbt_node_write_uint16_to_gbytearray s.length ++ (s ++ post))).drop
      (pre.length + 2)).take s.length = s := by
    rw [← List.append_assoc,
      show pre.length + 2
        = (pre ++ nbt_node_write_uint16_to_gbytearray s.length).length from by
          simp [nbt_node_write_uint16_to_gbytearray],
      List.drop_left, List.take_left]
  rw [hslice]

/-! ## Reading back written array payloads -/

theorem map_range_getD (l : List Nat) :
    (List.range l.length).map (fun i => l.getD i 0) = l := by
  refine List.ext_getElem (by simp) ?_
  intro i h1 h2
  simp only [List.getElem_map, List.getElem_range, List.getD_eq_getElem?_getD]
  rw [List.getElem?_eq_getElem h2]
  rfl

theorem flatMap_range_getD (l : List Nat) (f : Nat → List Nat) :
    (List.range l.length).flatMap (fun i => f (l.getD i 0)) = l.flatMap f := by
  conv_rhs => rw [← map_range_getD l]
  rw [List.flatMap_map]

theorem length_flatMap_const (f : Nat → List Nat) (k : Nat) (hf : ∀ x, (f x).length = k)
    (l : List Nat) : (l.flatMap f).length = k * l.length := by
  induction l with
  | nil => simp
  | cons x xs ih =>
    rw [List.flatMap_cons, List.length_append, hf, ih, List.length_cons, Nat.mul_succ]
    omega

theorem flatMap_write_uint8_id (a : List Nat) (ha : ∀ x ∈ a, x < 2 ^ 8) :
    a.flatMap nbt_node_write_uint8_to_gbytearray = a := by
  induction a with
  | nil => rfl
  | cons x xs ih =>
    rw [List.flatMap_cons, ih (fun y hy => ha y (List.mem_cons_of_mem x hy))]
    have hx : x < 256 := by
      have := ha x (List.mem_cons_self x xs)
      omega
    simp [nbt_node_write_uint8_to_gbytearray, Nat.mod_eq_of_lt hx]

theorem readBE_flat4 (a : List Nat) :
    ∀ (pre post : List Nat) (i : Nat), i < a.length →
      readBE (pre ++ (a.flatMap nbt_node_write_uint32_to_gbytearray ++ post))
        (pre.length + 4 * i) 4 = a.getD i 0 % 2 ^ 32 := by
  induction a with
  | nil => intro pre post i hi; exact absurd hi (by simp)
  | cons x a ih =>
    intro pre post i hi
    rw [List.flatMap_cons, List.append_assoc]
    cases i with
    | zero =>
      simpa using
        readBE_write_uint32 pre (a.flatMap nbt_node_write_uint32_to_gbytearray ++ post) x
    | succ i =>
      have h := ih (pre ++ nbt_node_write_uint32_to_gbytearray x) post i
        (by simp at hi; omega)
      rw [List.append_assoc] at h
      rw [List.length_append,
        show (nbt_node_write_uint32_to_gbytearray x).length = 4 from rfl] at h
      rw [show pre.length + 4 * (i + 1) = pre.length + 4 + 4 * i from by omega,
        List.getD_cons_succ]
      exact h

theorem readBEList_flat4 (pre post a : List Nat) (ha : ∀ x ∈ a, x < 2 ^ 32) :
    readBEList (pre ++ (a.flatMap nbt_node_write_uint32_to_gbytearray ++ post))
      pre.length 4 a.length (4 * a.length) = a := by
  unfold readBEList
  refine List.ext_getElem (by simp) ?_
  intro i h1 h2
  simp only [List.getElem_map, List.getElem_range]
  rw [if_pos (by omega)]
  rw [readBE_flat4 a pre post i (by omega)]
  rw [List.getD_eq_getElem?_getD, List.getElem?_eq_getElem h2]
  simp only [Option.getD_some]
  exact Nat.mod_eq_of_lt (ha _ (List.getElem_mem h2))

theorem readBE_flat8 (a : List Nat) :
    ∀ (pre post : List Nat) (i : Nat), i < a.length →
      readBE (pre ++ (a.flatMap nbt_node_write_uint64_to_gbytearray ++ post))
        (pre.length + 8 * i) 8 = a.getD i 0 % 2 ^ 64 := by
  induction a with
  | nil => intro pre post i hi; exact absurd hi (by simp)
  | cons x a ih =>
    intro pre post i hi
    rw [List.flatMap_cons, List.append_assoc]
    cases i with
    | zero =>
      simpa using
        readBE_write_uint64 pre (a.flatMap nbt_node_write_uint64_to_gbytearray ++ post) x
    | succ i =>
      have h := ih (pre ++ nbt_node_write_uint64_to_gbytearray x) post i
        (by simp at hi; omega)
      rw [List.append_assoc] at h
      rw [List.length_append,
        show (nbt_node_write_uint64_to_gbytearray x).length = 8 from rfl] at h
      rw [show pre.length + 8 * (i + 1) = pre.length + 8 + 8 * i from by omega,
        List.getD_cons_succ]
      exact h

theorem readBEList_flat8 (pre post a : List Nat) (ha : ∀ x ∈ a, x < 2 ^ 64) :
    readBEList (pre ++ (a.flatMap nbt_node_write_uint64_to_gbytearray ++ post))
      pre.length 8 a.length (8 * a.length) = a := by
  unfold readBEList
  refine List.ext_getElem (by simp) ?_
  intro i h1 h2
  simp only [List.getElem_map, List.getElem_range]
  rw [if_pos (by omega)]
  rw [readBE_flat8 a pre post i (by omega)]
  rw [List.getD_eq_getElem?_getD, List.getElem?_eq_getElem h2]
  simp only [Option.getD_some]
  exact Nat.mod_eq_of_lt (ha _ (List.getElem_mem h2))

/-! ## Canonical-tree helper lemmas -/

theorem canonical_node_mk (t : Nat) (k : Option (List Nat)) (v : NbtValue)
    (cs : List NbtNode) :
    canonical_node (.mk t k v cs) =
    (canonicalKey k ∧
    ((t = TAG_Byte ∧ cs = [] ∧ ∃ i : Int, v = .vInt i ∧ 0 ≤ i ∧ i < 2 ^ 8) ∨
     (t = TAG_Short ∧ cs = [] ∧ ∃ i : Int, v = .vInt i ∧ 0 ≤ i ∧ i < 2 ^ 16) ∨
     (t = TAG_Int ∧ cs = [] ∧ ∃ i : Int, v = .vInt i ∧ 0 ≤ i ∧ i < 2 ^ 32) ∨
     (t = TAG_Long ∧ cs = [] ∧ ∃ i : Int, v = .vInt i ∧ -(2 ^ 63) ≤ i ∧ i < 2 ^ 63) ∨
     (t = TAG_Byte_Array ∧ cs = [] ∧
       ∃ a : List Nat, v = .vArr a a.length ∧ a.length < 2 ^ 31 ∧ ∀ b ∈ a, b < 2 ^ 8) ∨
     (t = TAG_String ∧ cs = [] ∧
       ∃ s : List Nat, v = .vStr s (s.length + 1) ∧ canonicalString s ∧
         s.length ≤ 0xFFFF) ∨
     (t = TAG_List ∧ v = .vNone ∧ cs.length < 2 ^ 31 ∧
       (∀ d ∈ cs, d.key = none) ∧ (∀ d ∈ cs, ∀ e ∈ cs, d.type = e.type) ∧
       canonical_children cs) ∨
     (t = TAG_Compound ∧ v = .vNone ∧ canonical_children cs) ∨
     (t = TAG_Int_Array ∧ cs = [] ∧
       ∃ a : List Nat, v = .vArr a a.length ∧ a.length < 2 ^ 30 ∧ ∀ x ∈ a, x < 2 ^ 32) ∨
     (t = TAG_Long_Array ∧ cs = [] ∧
       ∃ a : List Nat, v = .vArr a a.length ∧ a.length < 2 ^ 29 ∧ ∀ x ∈ a, x < 2 ^ 64))) :=
  rfl

theorem canonical_children_mem {cs : List NbtNode} (h : canonical_children cs) :
    ∀ c ∈ cs, canonical_node c := by
  induction cs with
  | nil => intro c hc; exact absurd hc (by simp)
  | cons d cs ih =>
    rw [canonical_children_cons] at h
    intro c hc
    rcases List.mem_cons.mp hc with rfl | hc2
    · exact h.1
    · exact ih h.2 c hc2

theorem canonical_node_facts {T : NbtNode} (h : canonical_node T) :
    0 < T.type ∧ T.type ≤ 12 ∧ canonicalKey T.key := by
  obtain ⟨t, k, v, cs⟩ := T
  rw [canonical_node_mk] at h
  obtain ⟨hk, hcase⟩ := h
  rcases hcase with ⟨rfl, -⟩ | ⟨rfl, -⟩ | ⟨rfl, -⟩ | ⟨rfl, -⟩ | ⟨rfl, -⟩ | ⟨rfl, -⟩ |
    ⟨rfl, -⟩ | ⟨rfl, -⟩ | ⟨rfl, -⟩ | ⟨rfl, -⟩ <;>
    exact ⟨by norm_num [NbtNode.type_mk], by norm_num [NbtNode.type_mk], hk⟩

theorem nsize_children (T : NbtNode) : nsize T = 1 + nsizeList T.children := by
  cases T
  rfl

theorem length_write_uint8 (v : Nat) :
    (nbt_node_write_uint8_to_gbytearray v).length = 1 := rfl

theorem length_write_uint16 (v : Nat) :
    (nbt_node_write_uint16_to_gbytearray v).length = 2 := rfl

theorem length_write_uint32 (v : Nat) :
    (nbt_node_write_uint32_to_gbytearray v).length = 4 := rfl

theorem length_write_uint64 (v : Nat) :
    (nbt_node_write_uint64_to_gbytearray v).length = 8 := rfl

theorem write_number_byte (v : Nat) :
    nbt_node_write_number_to_gbytearray v TAG_Byte
      = nbt_node_write_uint8_to_gbytearray v := rfl

theorem write_number_short (v : Nat) :
    nbt_node_write_number_to_gbytearray v TAG_Short
      = nbt_node_write_uint16_to_gbytearray v := rfl

theorem write_number_int (v : Nat) :
    nbt_node_write_number_to_gbytearray v TAG_Int
      = nbt_node_write_uint32_to_gbytearray v := rfl

theorem write_number_long (v : Nat) :
    nbt_node_write_number_to_gbytearray v TAG_Long
      = nbt_node_write_uint64_to_gbytearray v := rfl

/-! ## Reducing `parse_value` to `parse_payload` -/

theorem parse_value_skipkey (pf2 typ : Nat) (ht : ¬typ = TAG_End) (buf : List Nat)
    (pos : Nat) :
    parse_value (pf2 + 1) typ true buf pos = parse_payload pf2 typ none buf pos := by
  simp only [parse_value]
  rw [if_neg ht]
  with_unfolding_all rfl

theorem parse_value_key_none (pf2 typ : Nat) (ht : ¬typ = TAG_End) (pre rest : List Nat) :
    parse_value (pf2 + 1) typ false (pre ++ (nbt_node_write_key_field none ++ rest))
        pre.length
      = parse_payload pf2 typ none (pre ++ (nbt_node_write_key_field none ++ rest))
          (pre.length + 2) := by
  simp only [parse_value]
  rw [if_neg ht]
  dsimp only
  rw [getKey_at_none pre rest]
  with_unfolding_all rfl

theorem parse_value_key_some (pf2 typ : Nat) (ht : ¬typ = TAG_End) (pre rest s : List Nat)
    (hs : canonicalString s) (hne : s ≠ []) (hlen : s.length ≤ 0xFFFF) :
    parse_value (pf2 + 1) typ false
        (pre ++ (nbt_node_write_key_field (some s) ++ rest)) pre.length
      = parse_payload pf2 typ (some s)
          (pre ++ (nbt_node_write_key_field (some s) ++ rest))
          (pre.length + 2 + s.length) := by
  simp only [parse_value]
  rw [if_neg ht]
  dsimp only
  rw [getKey_at_some pre rest s hs hne hlen]
  dsimp only
  rw [convert_string_id hs]
  with_unfolding_all rfl

theorem parse_value_root_step (pf2 t : Nat) (hv : isValidTag t = true) (h256 : t < 256)
    (rest : List Nat) :
    parse_value (pf2 + 1) TAG_End false (nbt_node_write_uint8_to_gbytearray t ++ rest) 0
      = parse_value (pf2 + 1) t false (nbt_node_write_uint8_to_gbytearray t ++ rest) 1 := by
  have hread : LIBNBT_getUint8 (nbt_node_write_uint8_to_gbytearray t ++ rest) 0
      = some (t, 1) := by
    have := getUint8_at [] rest t
    simpa [Nat.mod_eq_of_lt h256] using this
  have ht0 : ¬t = TAG_End := by
    intro h
    rw [h] at hv
    exact absurd hv (by decide)
  conv_lhs => rw [parse_value]
  conv_rhs => rw [parse_value]
  rw [if_pos rfl, hread]
  dsimp only
  rw [hv, if_pos rfl, if_neg ht0]

/-! ## Round-trip base lemmas -/

theorem getUint8_cons_at (pre post : List Nat) (b : Nat) :
    LIBNBT_getUint8 (pre ++ b :: post) pre.length = some (b, pre.length + 1) := by
  rw [LIBNBT_getUint8_some (by simp), getD_at]
  rfl

theorem parse_compound_end (pf2 : Nat) (pre post : List Nat) :
    parse_compound (pf2 + 1) (pre ++ 0 :: post) pre.length = .ok ([], pre.length + 1) := by
  simp only [parse_compound]
  rw [getUint8_cons_at]
  dsimp only
  rw [if_pos rfl]

theorem RTitems_nil : RTitems [] := by
  unfold RTitems
  intro elemType pf wf bs pre post hpf hdtk hw
  rw [write_children_nil] at hw
  obtain rfl : bs = [] := (Option.some_inj.mp hw).symm
  rw [List.length_nil, parse_items_zero]
  simp

theorem canonicalKey_some (s : List Nat) :
    canonicalKey (some s) = (canonicalString s ∧ s ≠ [] ∧ s.length ≤ 0xFFFF) := rfl

theorem write_uint8_zero : nbt_node_write_uint8_to_gbytearray 0 = [0] := rfl

theorem RTpayload_byte (k : Option (List Nat)) (i : Int) (h0 : 0 ≤ i) (h1 : i < 2 ^ 8) :
    RTpayload (.mk TAG_Byte k (.vInt i) []) := by
  unfold RTpayload
  intro pf wf pb pre post hpf hw
  cases wf with
  | zero => rw [write_zero] at hw; exact absurd hw (by simp)
  | succ wf2 =>
    simp only [nbt_node_write_nbt_to_gbytearray, NbtNode.type_mk, NbtNode.key_mk,
      NbtNode.value_mk, NbtNode.children_mk, Bool.false_eq_true, if_false] at hw
    rw [if_pos (by decide)] at hw
    simp only [NbtValue.asInt, write_number_byte, List.nil_append] at hw
    obtain rfl := (Option.some_inj.mp hw).symm
    simp only [NbtNode.type_mk, NbtNode.key_mk]
    unfold parse_payload
    rw [if_pos rfl, getUint8_at]
    dsimp only
    rw [show ((((i.emod (2 ^ 64)).toNat % 256 : Nat)) : Int) = i from by
      rw [show i.emod (2 ^ 64) = i % 2 ^ 64 from rfl]; omega]
    rw [length_write_uint8]

theorem RTpayload_short (k : Option (List Nat)) (i : Int) (h0 : 0 ≤ i) (h1 : i < 2 ^ 16) :
    RTpayload (.mk TAG_Short k (.vInt i) []) := by
  unfold RTpayload
  intro pf wf pb pre post hpf hw
  cases wf with
  | zero => rw [write_zero] at hw; exact absurd hw (by simp)
  | succ wf2 =>
    simp only [nbt_node_write_nbt_to_gbytearray, NbtNode.type_mk, NbtNode.key_mk,
      NbtNode.value_mk, NbtNode.children_mk, Bool.false_eq_true, if_false] at hw
    rw [if_pos (by decide)] at hw
    simp only [NbtValue.asInt, write_number_short, List.nil_append] at hw
    obtain rfl := (Option.some_inj.mp hw).symm
    simp only [NbtNode.type_mk, NbtNode.key_mk]
    unfold parse_payload
    rw [if_neg (by decide), if_pos rfl, getUint16_at]
    dsimp only
    rw [show ((((i.emod (2 ^ 64)).toNat % 2 ^ 16 : Nat)) : Int) = i from by
      rw [show i.emod (2 ^ 64) = i % 2 ^ 64 from rfl]; omega]
    rw [length_write_uint16]

theorem RTpayload_int (k : Option (List Nat)) (i : Int) (h0 : 0 ≤ i) (h1 : i < 2 ^ 32) :
    RTpayload (.mk TAG_Int k (.vInt i) []) := by
  unfold RTpayload
  intro pf wf pb pre post hpf hw
  cases wf with
  | zero => rw [write_zero] at hw; exact absurd hw (by simp)
  | succ wf2 =>
    simp only [nbt_node_write_nbt_to_gbytearray, NbtNode.type_mk, NbtNode.key_mk,
      NbtNode.value_mk, NbtNode.children_mk, Bool.false_eq_true, if_false] at hw
    rw [if_pos (by decide)] at hw
    simp only [NbtValue.asInt, write_number_int, List.nil_append] at hw
    obtain rfl := (Option.some_inj.mp hw).symm
    simp only [NbtNode.type_mk, NbtNode.key_mk]
    unfold parse_payload
    rw [if_neg (by decide), if_neg (by decide), if_pos rfl, getUint32_at]
    dsimp only
    rw [show ((((i.emod (2 ^ 64)).toNat % 2 ^ 32 : Nat)) : Int) = i from by
      rw [show i.emod (2 ^ 64) = i % 2 ^ 64 from rfl]; omega]
    rw [length_write_uint32]

theorem RTpayload_long (k : Option (List Nat)) (i : Int) (h0 : -(2 ^ 63) ≤ i)
    (h1 : i < 2 ^ 63) :
    RTpayload (.mk TAG_Long k (.vInt i) []) := by
  unfold RTpayload
  intro pf wf pb pre post hpf hw
  cases wf with
  | zero => rw [write_zero] at hw; exact absurd hw (by simp)
  | succ wf2 =>
    simp only [nbt_node_write_nbt_to_gbytearray, NbtNode.type_mk, NbtNode.key_mk,
      NbtNode.value_mk, NbtNode.children_mk, Bool.false_eq_true, if_false] at hw
    rw [if_pos (by decide)] at hw
    simp only [NbtValue.asInt, write_number_long, List.nil_append] at hw
    obtain rfl := (Option.some_inj.mp hw).symm
    simp only [NbtNode.type_mk, NbtNode.key_mk]
    unfold parse_payload
    rw [if_neg (by decide), if_neg (by decide), if_neg (by decide), if_pos rfl,
      getUint64_at]
    dsimp only
    rw [show Int.bmod (((i.emod (2 ^ 64)).toNat % 2 ^ 64 : Nat)) (2 ^ 64) = i from by
      rw [show i.emod (2 ^ 64) = i % 2 ^ 64 from rfl]
      unfold Int.bmod
      norm_num
      split <;> omega]
    rw [length_write_uint64]

theorem RTpayload_byte_array (k : Option (List Nat)) (a : List Nat)
    (hlen : a.length < 2 ^ 31) (hb : ∀ x ∈ a, x < 2 ^ 8) :
    RTpayload (.mk TAG_Byte_Array k (.vArr a a.length) []) := by
  unfold RTpayload
  intro pf wf pb pre post hpf hw
  cases wf with
  | zero => rw [write_zero] at hw; exact absurd hw (by simp)
  | succ wf2 =>
    simp only [nbt_node_write_nbt_to_gbytearray, NbtNode.type_mk, NbtNode.key_mk,
      NbtNode.value_mk, NbtNode.children_mk, Bool.false_eq_true, if_false] at hw
    rw [if_neg (by decide), if_neg (by decide), if_pos (by decide)] at hw
    simp only [NbtValue.arrVal, NbtValue.arrLen, List.nil_append] at hw
    unfold nbt_node_write_array_to_gbytearray at hw
    rw [if_pos rfl] at hw
    have hc1 : (((a.length : Int)).emod (2 ^ 32)).toNat = a.length := by
      rw [show ((a.length : Int)).emod (2 ^ 32) = (a.length : Int) % 2 ^ 32 from rfl]
      omega
    have hc2 : (if (a.length : Int) ≤ 0 then 0 else (a.length : Int).toNat) = a.length := by
      split <;> omega
    rw [hc1, hc2, flatMap_range_getD, flatMap_write_uint8_id a hb] at hw
    obtain rfl := (Option.some_inj.mp hw).symm
    simp only [NbtNode.type_mk, NbtNode.key_mk]
    unfold parse_payload
    rw [if_neg (by decide), if_neg (by decide), if_neg (by decide), if_neg (by decide),
      if_neg (by decide), if_neg (by decide), if_pos rfl]
    simp only [List.append_assoc]
    rw [getUint32_at]
    dsimp only
    rw [Nat.mod_eq_of_lt (show a.length < 2 ^ 32 by omega)]
    rw [if_neg (by simp [length_write_uint32, List.length_append]; omega)]
    have hslice : ((pre ++ (nbt_node_write_uint32_to_gbytearray a.length ++ (a ++ post))).drop
        (pre.length + 4)).take a.length = a := by
      rw [← List.append_assoc,
        show pre.length + 4
          = (pre ++ nbt_node_write_uint32_to_gbytearray a.length).length from by
            simp [length_write_uint32],
        List.drop_left, List.take_left]
    rw [hslice]
    rw [show Int.bmod ((a.length : Nat)) (2 ^ 32) = ((a.length : Nat) : Int) from by
      unfold Int.bmod
      norm_num
      split <;> omega]
    refine congrArg Except.ok ?_
    rw [Prod.mk.injEq]
    refine ⟨rfl, ?_⟩
    simp [length_write_uint32, List.length_append]
    omega

theorem RTpayload_string (k : Option (List Nat)) (s : List Nat) (hs : canonicalString s)
    (hlen : s.length ≤ 0xFFFF) :
    RTpayload (.mk TAG_String k (.vStr s (s.length + 1)) []) := by
  unfold RTpayload
  intro pf wf pb pre post hpf hw
  cases wf with
  | zero => rw [write_zero] at hw; exact absurd hw (by simp)
  | succ wf2 =>
    simp only [nbt_node_write_nbt_to_gbytearray, NbtNode.type_mk, NbtNode.key_mk,
      NbtNode.value_mk, NbtNode.children_mk, Bool.false_eq_true, if_false] at hw
    rw [if_neg (by decide), if_neg (by decide), if_neg (by decide), if_pos trivial] at hw
    simp only [NbtValue.strVal, List.nil_append] at hw
    unfold nbt_node_write_string_to_gbytearray at hw
    rw [convert_string_to_mutf8_id hs,
      takeWhile_ne_zero_eq_self (canonicalString_nonzero hs)] at hw
    obtain rfl := (Option.some_inj.mp hw).symm
    simp only [NbtNode.type_mk, NbtNode.key_mk]
    unfold parse_payload
    rw [if_neg (by decide), if_neg (by decide), if_neg (by decide), if_neg (by decide),
      if_neg (by decide), if_neg (by decide), if_neg (by decide), if_pos rfl]
    simp only [List.append_assoc]
    rw [getUint16_at]
    dsimp only
    rw [Nat.mod_eq_of_lt (show s.length < 2 ^ 16 by omega)]
    rw [if_neg (by simp [length_write_uint16, List.length_append]; omega)]
    have hslice : ((pre ++ (nbt_node_write_uint16_to_gbytearray s.length ++ (s ++ post))).drop
        (pre.length + 2)).take s.length = s := by
      rw [← List.append_assoc,
        show pre.length + 2
          = (pre ++ nbt_node_write_uint16_to_gbytearray s.length).length from by
            simp [length_write_uint16],
        List.drop_left, List.take_left]
    rw [hslice, convert_string_id hs]
    dsimp only
    refine congrArg Except.ok ?_
    rw [Prod.mk.injEq]
    refine ⟨rfl, ?_⟩
    simp [length_write_uint16, List.length_append]
    omega

theorem RTpayload_int_array (k : Option (List Nat)) (a : List Nat)
    (hlen : a.length < 2 ^ 30) (hb : ∀ x ∈ a, x < 2 ^ 32) :
    RTpayload (.mk TAG_Int_Array k (.vArr a a.length) []) := by
  unfold RTpayload
  intro pf wf pb pre post hpf hw
  cases wf with
  | zero => rw [write_zero] at hw; exact absurd hw (by simp)
  | succ wf2 =>
    simp only [nbt_node_write_nbt_to_gbytearray, NbtNode.type_mk, NbtNode.key_mk,
      NbtNode.value_mk, NbtNode.children_mk, Bool.false_eq_true, if_false] at hw
    rw [if_neg (by decide), if_neg (by decide), if_pos (by decide)] at hw
    simp only [NbtValue.arrVal, NbtValue.arrLen, List.nil_append] at hw
    unfold nbt_node_write_array_to_gbytearray at hw
    rw [if_neg (by decide), if_pos rfl] at hw
    have hc1 : (((a.length : Int)).emod (2 ^ 32)).toNat = a.length := by
      rw [show ((a.length : Int)).emod (2 ^ 32) = (a.length : Int) % 2 ^ 32 from rfl]
      omega
    have hc2 : (if (a.length : Int) ≤ 0 then 0 else (a.length : Int).toNat) = a.length := by
      split <;> omega
    rw [hc1, hc2, flatMap_range_getD] at hw
    obtain rfl := (Option.some_inj.mp hw).symm
    simp only [NbtNode.type_mk, NbtNode.key_mk]
    have hfl : (a.flatMap nbt_node_write_uint32_to_gbytearray).length = 4 * a.length :=
      length_flatMap_const nbt_node_write_uint32_to_gbytearray 4 (fun x => rfl) a
    unfold parse_payload
    rw [if_neg (by decide), if_neg (by decide), if_neg (by decide), if_neg (by decide),
      if_neg (by decide), if_neg (by decide), if_neg (by decide), if_neg (by decide),
      if_neg (by decide), if_neg (by decide), if_pos rfl]
    simp only [List.append_assoc]
    rw [getUint32_at]
    dsimp only
    rw [Nat.mod_eq_of_lt (show a.length < 2 ^ 32 by omega)]
    rw [show a.length * 4 % 2 ^ 32 = 4 * a.length from by omega]
    rw [if_neg (by simp [length_write_uint32, List.length_append, hfl]; omega)]
    have hRL := readBEList_flat4 (pre ++ nbt_node_write_uint32_to_gbytearray a.length)
      post a hb
    simp only [List.append_assoc, List.length_append, length_write_uint32] at hRL
    rw [hRL]
    rw [show Int.bmod ((a.length : Nat)) (2 ^ 32) = ((a.length : Nat) : Int) from by
      unfold Int.bmod
      norm_num
      split <;> omega]
    refine congrArg Except.ok ?_
    rw [Prod.mk.injEq]
    refine ⟨rfl, ?_⟩
    simp [length_write_uint32, List.length_append, hfl]
    omega

theorem RTpayload_long_array (k : Option (List Nat)) (a : List Nat)
    (hlen : a.length < 2 ^ 29) (hb : ∀ x ∈ a, x < 2 ^ 64) :
    RTpayload (.mk TAG_Long_Array k (.vArr a a.length) []) := by
  unfold RTpayload
  intro pf wf pb pre post hpf hw
  cases wf with
  | zero => rw [write_zero] at hw; exact absurd hw (by simp)
  | succ wf2 =>
    simp only [nbt_node_write_nbt_to_gbytearray, NbtNode.type_mk, NbtNode.key_mk,
      NbtNode.value_mk, NbtNode.children_mk, Bool.false_eq_true, if_false] at hw
    rw [if_neg (by decide), if_neg (by decide), if_pos (by decide)] at hw
    simp only [NbtValue.arrVal, NbtValue.arrLen, List.nil_append] at hw
    unfold nbt_node_write_array_to_gbytearray at hw
    rw [if_neg (by decide), if_neg (by decide), if_pos rfl] at hw
    have hc1 : (((a.length : Int)).emod (2 ^ 32)).toNat = a.length := by
      rw [show ((a.length : Int)).emod (2 ^ 32) = (a.length : Int) % 2 ^ 32 from rfl]
      omega
    have hc2 : (if (a.length : Int) ≤ 0 then 0 else (a.length : Int).toNat) = a.length := by
      split <;> omega
    rw [hc1, hc2, flatMap_range_getD] at hw
    obtain rfl := (Option.some_inj.mp hw).symm
    simp only [NbtNode.type_mk, NbtNode.key_mk]
    have hfl : (a.flatMap nbt_node_write_uint64_to_gbytearray).length = 8 * a.length :=
      length_flatMap_const nbt_node_write_uint64_to_gbytearray 8 (fun x => rfl) a
    unfold parse_payload
    rw [if_neg (by decide), if_neg (by decide), if_neg (by decide), if_neg (by decide),
      if_neg (by decide), if_neg (by decide), if_neg (by decide), if_neg (by decide),
      if_neg (by decide), if_neg (by decide), if_neg (by decide), if_pos rfl]
    simp only [List.append_assoc]
    rw [getUint32_at]
    dsimp only
    rw [Nat.mod_eq_of_lt (show a.length < 2 ^ 32 by omega)]
    rw [show a.length * 8 % 2 ^ 32 = 8 * a.length from by omega]
    rw [if_neg (by simp [length_write_uint32, List.length_append, hfl]; omega)]
    have hRL := readBEList_flat8 (pre ++ nbt_node_write_uint32_to_gbytearray a.length)
      post a hb
    simp only [List.append_assoc, List.length_append, length_write_uint32] at hRL
    rw [hRL]
    rw [show Int.bmod ((a.length : Nat)) (2 ^ 32) = ((a.length : Nat) : Int) from by
      unfold Int.bmod
      norm_num
      split <;> omega]
    refine congrArg Except.ok ?_
    rw [Prod.mk.injEq]
    refine ⟨rfl, ?_⟩
    simp [length_write_uint32, List.length_append, hfl]
    omega

theorem RTpayload_compound (k : Option (List Nat)) (cs : List NbtNode)
    (hC : RTcompound cs) :
    RTpayload (.mk TAG_Compound k .vNone cs) := by
  unfold RTpayload
  intro pf wf pb pre post hpf hw
  simp only [NbtNode.children_mk] at hpf
  cases wf with
  | zero => rw [write_zero] at hw; exact absurd hw (by simp)
  | succ wf2 =>
    simp only [nbt_node_write_nbt_to_gbytearray, NbtNode.type_mk, NbtNode.key_mk,
      NbtNode.value_mk, NbtNode.children_mk, Bool.false_eq_true, if_false] at hw
    rw [if_neg (by decide), if_neg (by decide), if_neg (by decide), if_neg (by decide),
      if_neg (by decide), if_pos trivial] at hw
    obtain ⟨cb, hcb, rfl⟩ := Option.map_eq_some'.mp hw
    unfold nbt_node_write_compound_to_gbytearray at hcb
    simp only [NbtNode.children_mk] at hcb
    obtain ⟨body, hbody, rfl⟩ := Option.map_eq_some'.mp hcb
    simp only [NbtNode.type_mk, NbtNode.key_mk, List.nil_append]
    unfold parse_payload
    rw [if_neg (by decide), if_neg (by decide), if_neg (by decide), if_neg (by decide),
      if_neg (by decide), if_neg (by decide), if_neg (by decide), if_neg (by decide),
      if_neg (by decide), if_pos rfl]
    have hTail := hC pf wf2 body pre post hpf hbody
    rw [write_uint8_zero] at *
    simp only [List.append_assoc, List.singleton_append] at hTail ⊢
    rw [hTail]
    dsimp only
    refine congrArg Except.ok ?_
    rw [Prod.mk.injEq]
    refine ⟨rfl, ?_⟩
    simp [List.length_append]
    omega

theorem RTpayload_list (k : Option (List Nat)) (cs : List NbtNode)
    (hlen : cs.length < 2 ^ 31) (hkeys : ∀ d ∈ cs, d.key = none)
    (htypes : ∀ d ∈ cs, ∀ e ∈ cs, d.type = e.type)
    (hcc : canonical_children cs) (hI : RTitems cs) :
    RTpayload (.mk TAG_List k .vNone cs) := by
  unfold RTpayload
  intro pf wf pb pre post hpf hw
  simp only [NbtNode.children_mk] at hpf
  cases wf with
  | zero => rw [write_zero] at hw; exact absurd hw (by simp)
  | succ wf2 =>
    simp only [nbt_node_write_nbt_to_gbytearray, NbtNode.type_mk, NbtNode.key_mk,
      NbtNode.value_mk, NbtNode.children_mk, Bool.false_eq_true, if_false] at hw
    rw [if_neg (by decide), if_neg (by decide), if_neg (by decide), if_neg (by decide),
      if_pos trivial] at hw
    obtain ⟨lb, hlb, rfl⟩ := Option.map_eq_some'.mp hw
    unfold nbt_node_write_list_to_gbytearray at hlb
    simp only [NbtNode.children_mk] at hlb
    simp only [NbtNode.type_mk, NbtNode.key_mk, List.nil_append]
    unfold parse_payload
    rw [if_neg (by decide), if_neg (by decide), if_neg (by decide), if_neg (by decide),
      if_neg (by decide), if_neg (by decide), if_neg (by decide), if_neg (by decide),
      if_pos rfl]
    cases cs with
    | nil =>
      rw [write_children_nil] at hlb
      simp only [Option.map_some'] at hlb
      obtain rfl := (Option.some_inj.mp hlb).symm
      simp only [List.append_assoc, List.length_nil, List.nil_append, List.append_nil]
      rw [getUint8_at]
      dsimp only
      simp only [Nat.zero_mod]
      have hg32 := getUint32_at (pre ++ nbt_node_write_uint8_to_gbytearray 0) post 0
      simp only [List.append_assoc, List.length_append, length_write_uint8,
        Nat.zero_mod] at hg32
      rw [hg32]
      dsimp only
      rw [if_neg (by simp)]
      rw [parse_items_zero]
      dsimp only
      refine congrArg Except.ok ?_
      rw [Prod.mk.injEq]
      refine ⟨rfl, ?_⟩
      simp [List.length_append, length_write_uint8, length_write_uint32]
    | cons c cs2 =>
      dsimp only at hlb
      obtain ⟨body, hbody, rfl⟩ := Option.map_eq_some'.mp hlb
      have hcN := canonical_children_mem hcc c (List.mem_cons_self c cs2)
      obtain ⟨htpos, ht12, -⟩ := canonical_node_facts hcN
      simp only [List.append_assoc]
      rw [getUint8_at]
      dsimp only
      rw [Nat.mod_eq_of_lt (show c.type < 256 by omega)]
      have hg32 := getUint32_at (pre ++ nbt_node_write_uint8_to_gbytearray c.type)
        (body ++ post) (c :: cs2).length
      simp only [List.append_assoc, List.length_append, length_write_uint8] at hg32
      rw [hg32]
      dsimp only
      rw [Nat.mod_eq_of_lt (show (c :: cs2).length < 2 ^ 32 by omega)]
      rw [if_neg (by show ¬(c.type = 0 ∧ (c :: cs2).length ≠ 0); rintro ⟨h1, -⟩; omega)]
      have hitems := hI c.type pf wf2 body
        (pre ++ nbt_node_write_uint8_to_gbytearray c.type ++
          nbt_node_write_uint32_to_gbytearray (c :: cs2).length) post hpf
        (fun d hd => ⟨htypes d hd c (List.mem_cons_self c cs2), hkeys d hd⟩) hbody
      simp only [List.append_assoc, List.length_append, length_write_uint8,
        length_write_uint32] at hitems
      rw [hitems]
      dsimp only
      refine congrArg Except.ok ?_
      rw [Prod.mk.injEq]
      refine ⟨rfl, ?_⟩
      simp [List.length_append, length_write_uint8, length_write_uint32]
      omega

theorem RTitems_cons (c : NbtNode) (cs : List NbtNode) (hcN : canonical_node c)
    (hkey : c.key = none) (hcP : RTpayload c) (hI : RTitems cs) :
    RTitems (c :: cs) := by
  unfold RTitems
  intro elemType pf wf bs pre post hpf hdtk hw
  obtain ⟨wf2, b1, b2, rfl, hw1, hw2, rfl⟩ := write_children_cons_inv hw
  rw [nsizeList_cons] at hpf
  have hszc := nsize_children c
  have hszp := nsize_pos c
  obtain ⟨htpos, -, -⟩ := canonical_node_facts hcN
  cases pf with
  | zero => omega
  | succ pf2 =>
    cases pf2 with
    | zero => omega
    | succ pf3 =>
      obtain rfl : elemType = c.type := ((hdtk c (List.mem_cons_self c cs)).1).symm
      rw [List.length_cons]
      simp only [parse_items]
      have hchild := parse_value_skipkey pf3 c.type
        (by show ¬c.type = 0; omega)
        (pre ++ ((b1 ++ b2) ++ post)) pre.length
      have hP := hcP pf3 wf2 b1 pre (b2 ++ post) (by omega) hw1
      rw [hkey] at hP
      simp only [List.append_assoc] at hchild hP ⊢
      rw [hchild, hP]
      dsimp only
      have hT := hI c.type (pf3 + 1) wf2 b2 (pre ++ b1) post (by omega)
        (fun d hd => hdtk d (List.mem_cons_of_mem c hd)) hw2
      simp only [List.append_assoc, List.length_append] at hT
      rw [hT]
      dsimp only
      refine congrArg Except.ok ?_
      rw [Prod.mk.injEq]
      refine ⟨rfl, ?_⟩
      simp [List.length_append]
      omega

theorem RTcompound_cons (c : NbtNode) (cs : List NbtNode) (hcN : canonical_node c)
    (hcP : RTpayload c) (hC : RTcompound cs) :
    RTcompound (c :: cs) := by
  unfold RTcompound
  intro pf wf bs pre post hpf hw
  obtain ⟨wf2, bc, b2, rfl, hw1, hw2, rfl⟩ := write_children_cons_inv hw
  obtain ⟨pb, hwf, rfl⟩ := write_true_decomp hw1
  rw [nsizeList_cons] at hpf
  have hszc := nsize_children c
  have hszp := nsize_pos c
  obtain ⟨htpos, ht12, hkc⟩ := canonical_node_facts hcN
  cases pf with
  | zero => omega
  | succ pf2 =>
    cases pf2 with
    | zero => omega
    | succ pf3 =>
      rw [parse_compound.eq_def]
      dsimp only
      simp only [nbt_node_write_key_to_gbytearray, List.append_assoc]
      rw [getUint8_at]
      dsimp only
      rw [Nat.mod_eq_of_lt (show c.type < 256 by omega)]
      rw [if_neg (by omega)]
      cases hck : c.key with
      | none =>
        have hkeyred := parse_value_key_none pf3 c.type
          (by show ¬c.type = 0; omega)
          (pre ++ nbt_node_write_uint8_to_gbytearray c.type)
          (pb ++ (b2 ++ (0 :: post)))
        simp only [List.append_assoc, List.length_append, length_write_uint8,
          Nat.add_assoc] at hkeyred
        rw [hkeyred]
        have hP := hcP pf3 wf2 pb
          (pre ++ nbt_node_write_uint8_to_gbytearray c.type ++
            nbt_node_write_key_field none)
          (b2 ++ (0 :: post)) (by omega) hwf
        rw [hck] at hP
        simp only [List.append_assoc, List.length_append, length_write_uint8,
          length_write_key_field_none, Nat.add_assoc] at hP
        rw [hP]
        dsimp only
        have hT := hC (pf3 + 1) wf2 b2
          (pre ++ nbt_node_write_uint8_to_gbytearray c.type ++
            nbt_node_write_key_field none ++ pb) post
          (by omega) hw2
        simp only [List.append_assoc, List.length_append, length_write_uint8,
          length_write_key_field_none, Nat.add_assoc] at hT
        rw [hT]
        dsimp only
        refine congrArg Except.ok ?_
        rw [Prod.mk.injEq]
        refine ⟨rfl, ?_⟩
        simp [List.length_append, length_write_uint8, length_write_key_field_none]
        omega
      | some s =>
        rw [hck] at hkc
        rw [canonicalKey_some] at hkc
        obtain ⟨hs1, hs2, hs3⟩ := hkc
        have hkeyred := parse_value_key_some pf3 c.type
          (by show ¬c.type = 0; omega)
          (pre ++ nbt_node_write_uint8_to_gbytearray c.type)
          (pb ++ (b2 ++ (0 :: post))) s hs1 hs2 hs3
        simp only [List.append_assoc, List.length_append, length_write_uint8,
          Nat.add_assoc] at hkeyred
        rw [hkeyred]
        have hP := hcP pf3 wf2 pb
          (pre ++ nbt_node_write_uint8_to_gbytearray c.type ++
            nbt_node_write_key_field (some s))
          (b2 ++ (0 :: post)) (by omega) hwf
        rw [hck] at hP
        simp only [List.append_assoc, List.length_append, length_write_uint8,
          length_write_key_field_some hs1 hs2, Nat.add_assoc] at hP
        rw [hP]
        dsimp only
        have hT := hC (pf3 + 1) wf2 b2
          (pre ++ nbt_node_write_uint8_to_gbytearray c.type ++
            nbt_node_write_key_field (some s) ++ pb) post
          (by omega) hw2
        simp only [List.append_assoc, List.length_append, length_write_uint8,
          length_write_key_field_some hs1 hs2, Nat.add_assoc] at hT
        rw [hT]
        dsimp only
        refine congrArg Except.ok ?_
        rw [Prod.mk.injEq]
        refine ⟨rfl, ?_⟩
        simp [List.length_append, length_write_uint8, length_write_key_field_some hs1 hs2]
        omega

theorem RTcompound_nil : RTcompound [] := by
  unfold RTcompound
  intro pf wf bs pre post hpf hw
  rw [write_children_nil] at hw
  obtain rfl : bs = [] := (Option.some_inj.mp hw).symm
  rw [nsizeList_nil] at hpf
  cases pf with
  | zero => omega
  | succ pf2 =>
    rw [List.append_nil]
    rw [parse_compound_end]
    simp

/-- The round-trip induction: canonical nodes of size at most `N`
satisfy the payload round-trip, and canonical child lists the item- and
compound-level ones. -/
theorem roundtrip_rec : ∀ N : Nat,
    (∀ T, nsize T ≤ N → canonical_node T → RTpayload T) ∧
    (∀ cs, nsizeList cs ≤ N → canonical_children cs →
      (∀ d ∈ cs, d.key = none) → RTitems cs) ∧
    (∀ cs, nsizeList cs ≤ N → canonical_children cs → RTcompound cs) := by
  intro N
  induction N with
  | zero =>
    refine ⟨?_, ?_, ?_⟩
    · intro T hT hc
      have := nsize_pos T
      omega
    · intro cs hcs hc hk
      cases cs with
      | nil => exact RTitems_nil
      | cons c cs =>
        rw [nsizeList_cons] at hcs
        have := nsize_pos c
        omega
    · intro cs hcs hc
      cases cs with
      | nil => exact RTcompound_nil
      | cons c cs =>
        rw [nsizeList_cons] at hcs
        have := nsize_pos c
        omega
  | succ N ih =>
    obtain ⟨ihV, ihI, ihC⟩ := ih
    refine ⟨?_, ?_, ?_⟩
    · intro T hT hc
      obtain ⟨t, k, v, cs⟩ := T
      rw [nsize_mk] at hT
      rw [canonical_node_mk] at hc
      obtain ⟨hkc, hcase⟩ := hc
      rcases hcase with ⟨rfl, rfl, i, rfl, h0, h1⟩ | ⟨rfl, rfl, i, rfl, h0, h1⟩ |
        ⟨rfl, rfl, i, rfl, h0, h1⟩ | ⟨rfl, rfl, i, rfl, h0, h1⟩ |
        ⟨rfl, rfl, a, rfl, hl, hbnd⟩ | ⟨rfl, rfl, sv, rfl, hsv, hsl⟩ |
        ⟨rfl, rfl, hlen, hkeys, htypes, hcc⟩ | ⟨rfl, rfl, hcc⟩ |
        ⟨rfl, rfl, a, rfl, hl, hbnd⟩ | ⟨rfl, rfl, a, rfl, hl, hbnd⟩
      · exact RTpayload_byte k i h0 h1
      · exact RTpayload_short k i h0 h1
      · exact RTpayload_int k i h0 h1
      · exact RTpayload_long k i h0 h1
      · exact RTpayload_byte_array k a hl hbnd
      · exact RTpayload_string k sv hsv hsl
      · exact RTpayload_list k cs hlen hkeys htypes hcc (ihI cs (by omega) hcc hkeys)
      · exact RTpayload_compound k cs (ihC cs (by omega) hcc)
      · exact RTpayload_int_array k a hl hbnd
      · exact RTpayload_long_array k a hl hbnd
    · intro cs hcs hc hk
      cases cs with
      | nil => exact RTitems_nil
      | cons c cs2 =>
        rw [nsizeList_cons] at hcs
        rw [canonical_children_cons] at hc
        refine RTitems_cons c cs2 hc.1 (hk c (List.mem_cons_self c cs2)) ?_ ?_
        · exact ihV c (by omega) hc.1
        · exact ihI cs2 (by have := nsize_pos c; omega) hc.2
            (fun d hd => hk d (List.mem_cons_of_mem c hd))
    · intro cs hcs hc
      cases cs with
      | nil => exact RTcompound_nil
      | cons c cs2 =>
        rw [nsizeList_cons] at hcs
        rw [canonical_children_cons] at hc
        refine RTcompound_cons c cs2 hc.1 ?_ ?_
        · exact ihV c (by omega) hc.1
        · exact ihC cs2 (by have := nsize_pos c; omega) hc.2

/-- C1 amended: the round-trip law holds on canonical documents.  For
every canonical tree `T`, the serialized byte sequence `B` produced by
the uncompressed-boundary writer decodes cleanly (no error, no leftover
data) back to a tree whose re-encoding is exactly `B` — i.e.
`encode (decode B) = B` for every `B` in the image of the encoder on
canonical trees.  Canonical trees (`canonical_node`) have valid
non-End tags, no Float/Double payloads, in-range integer payloads,
length fields matching the stored arrays, keyless kind-homogeneous List
children and minimal-MUTF-8 names; the counterexample
`C1_empty_int_list_not_roundtripped` shows the law fails outside this
class even for well-formed wire input. -/
theorem C1_canonical_documents_roundtrip (T : NbtNode) (pf wf : Nat) (B : List Nat)
    (hc : canonical_node T) (hpf : nsize T < pf)
    (hpack : nbt_node_pack_uncompressed wf T = some B) :
    ∃ rt, nbt_node_new_opt pf B = some (some rt, none)
      ∧ nbt_node_pack_uncompressed wf rt = some B := by
  refine ⟨T, ?_, hpack⟩
  unfold nbt_node_pack_uncompressed at hpack
  obtain ⟨pb, hwf, rfl⟩ := write_true_decomp hpack
  obtain ⟨htpos, ht12, hkc⟩ := canonical_node_facts hc
  have hszc := nsize_children T
  have hvalid : isValidTag T.type = true := by
    unfold isValidTag
    simp only [Bool.and_eq_true, decide_eq_true_eq]
    exact ⟨htpos, ht12⟩
  cases pf with
  | zero => have := nsize_pos T; omega
  | succ pf2 =>
    unfold nbt_node_new_opt
    simp only [nbt_node_write_key_to_gbytearray, List.append_assoc]
    have hB0 : (nbt_node_write_uint8_to_gbytearray T.type ++
        (nbt_node_write_key_field T.key ++ pb)).getD 0 0 = T.type := by
      simp [nbt_node_write_uint8_to_gbytearray,
        Nat.mod_eq_of_lt (show T.type < 256 by omega)]
    rw [if_neg (by simp [nbt_node_write_uint8_to_gbytearray]),
      if_neg (by rintro ⟨-, hx, -⟩; rw [hB0] at hx; omega),
      if_neg (by rw [hB0]; omega)]
    rw [parse_value_root_step pf2 T.type hvalid (by omega)
      (nbt_node_write_key_field T.key ++ pb)]
    have hRT := (roundtrip_rec (nsize T)).1 T le_rfl hc
    cases hck : T.key with
    | none =>
      have hkr := parse_value_key_none pf2 T.type (by show ¬T.type = 0; omega)
        (nbt_node_write_uint8_to_gbytearray T.type) pb
      simp only [length_write_uint8] at hkr
      rw [hkr]
      have hP := hRT pf2 wf pb
        (nbt_node_write_uint8_to_gbytearray T.type ++ nbt_node_write_key_field none)
        [] (by omega) hwf
      rw [hck] at hP
      simp only [List.append_assoc, List.append_nil, List.length_append,
        length_write_uint8, length_write_key_field_none, Nat.add_assoc] at hP
      rw [hP]
      dsimp only
      rw [if_neg (by
        simp [List.length_append, length_write_uint8, length_write_key_field_none])]
    | some s =>
      rw [hck] at hkc
      rw [canonicalKey_some] at hkc
      obtain ⟨hs1, hs2, hs3⟩ := hkc
      have hkr := parse_value_key_some pf2 T.type (by show ¬T.type = 0; omega)
        (nbt_node_write_uint8_to_gbytearray T.type) pb s hs1 hs2 hs3
      simp only [length_write_uint8, Nat.add_assoc] at hkr
      rw [hkr]
      have hP := hRT pf2 wf pb
        (nbt_node_write_uint8_to_gbytearray T.type ++ nbt_node_write_key_field (some s))
        [] (by omega) hwf
      rw [hck] at hP
      simp only [List.append_assoc, List.append_nil, List.length_append,
        length_write_uint8, length_write_key_field_some hs1 hs2, Nat.add_assoc] at hP
      rw [hP]
      dsimp only
      rw [if_neg (by
        simp [List.length_append, length_write_uint8, length_write_key_field_some hs1 hs2]
        omega)]

/-- Witness for the amended C1: the canonical one-node document `Byte 7`
with no name serializes to `01 00 00 07`, which decodes cleanly and
re-encodes to the same four bytes. -/
theorem C1_canonical_documents_roundtrip_witness :
    ∃ rt, nbt_node_new_opt 2 [1, 0, 0, 7] = some (some rt, none)
      ∧ nbt_node_pack_uncompressed 1 rt = some [1, 0, 0, 7] :=
  C1_canonical_documents_roundtrip (.mk TAG_Byte none (.vInt 7) []) 2 1 [1, 0, 0, 7]
    (by
      rw [canonical_node_mk]
      exact ⟨trivial, Or.inl ⟨rfl, rfl, 7, rfl, by decide, by decide⟩⟩)
    (by rw [nsize_mk, nsizeList_nil]; omega)
    (by with_unfolding_all rfl)

/-! ## Truncated-buffer reader lemmas -/

theorem getD_take {buf : List Nat} {m i : Nat} (h : i < m) :
    (buf.take m).getD i 0 = buf.getD i 0 := by
  simp only [List.getD_eq_getElem?_getD, List.getElem?_take]
  rw [if_pos h]

theorem readBE_take {buf : List Nat} {m pos : Nat} (w : Nat) (h : pos + w ≤ m) :
    readBE (buf.take m) pos w = readBE buf pos w := by
  induction w with
  | zero => rfl
  | succ w ih =>
    simp only [readBE]
    rw [ih (by omega), getD_take (by omega)]

theorem take_of_take_drop (buf : List Nat) (a b m : Nat) (h : a + b ≤ m) :
    ((buf.take m).drop a).take b = (buf.drop a).take b := by
  rw [List.drop_take, List.take_take]
  congr 1
  omega

theorem length_take_le {buf : List Nat} {m : Nat} : (buf.take m).length ≤ m := by
  rw [List.length_take]
  omega

theorem getUint8_take_lt {buf : List Nat} {m pos : Nat} (hm : m ≤ buf.length)
    (h : pos + 1 ≤ m) :
    LIBNBT_getUint8 (buf.take m) pos = LIBNBT_getUint8 buf pos := by
  unfold LIBNBT_getUint8
  rw [List.length_take_of_le hm, if_neg (by omega), if_neg (by omega),
    getD_take (by omega)]

theorem getUint8_take_ge {buf : List Nat} {m pos : Nat} (h : m < pos + 1) :
    LIBNBT_getUint8 (buf.take m) pos = none := by
  unfold LIBNBT_getUint8
  rw [if_pos (by have := @length_take_le buf m; omega)]

theorem getUint16_take_lt {buf : List Nat} {m pos : Nat} (hm : m ≤ buf.length)
    (h : pos + 2 ≤ m) :
    LIBNBT_getUint16 (buf.take m) pos = LIBNBT_getUint16 buf pos := by
  unfold LIBNBT_getUint16
  rw [List.length_take_of_le hm, if_neg (by omega), if_neg (by omega),
    readBE_take 2 (by omega)]

theorem getUint16_take_ge {buf : List Nat} {m pos : Nat} (h : m < pos + 2) :
    LIBNBT_getUint16 (buf.take m) pos = none := by
  unfold LIBNBT_getUint16
  rw [if_pos (by have := @length_take_le buf m; omega)]

theorem getUint32_take_lt {buf : List Nat} {m pos : Nat} (hm : m ≤ buf.length)
    (h : pos + 4 ≤ m) :
    LIBNBT_getUint32 (buf.take m) pos = LIBNBT_getUint32 buf pos := by
  unfold LIBNBT_getUint32
  rw [List.length_take_of_le hm, if_neg (by omega), if_neg (by omega),
    readBE_take 4 (by omega)]

theorem getUint32_take_ge {buf : List Nat} {m pos : Nat} (h : m < pos + 4) :
    LIBNBT_getUint32 (buf.take m) pos = none := by
  unfold LIBNBT_getUint32
  rw [if_pos (by have := @length_take_le buf m; omega)]

theorem getUint64_take_lt {buf : List Nat} {m pos : Nat} (hm : m ≤ buf.length)
    (h : pos + 8 ≤ m) :
    LIBNBT_getUint64 (buf.take m) pos = LIBNBT_getUint64 buf pos := by
  unfold LIBNBT_getUint64
  rw [List.length_take_of_le hm, if_neg (by omega), if_neg (by omega),
    readBE_take 8 (by omega)]

theorem getUint64_take_ge {buf : List Nat} {m pos : Nat} (h : m < pos + 8) :
    LIBNBT_getUint64 (buf.take m) pos = none := by
  unfold LIBNBT_getUint64
  rw [if_pos (by have := @length_take_le buf m; omega)]

theorem LIBNBT_getUint8_inv {buf : List Nat} {pos v p : Nat}
    (h : LIBNBT_getUint8 buf pos = some (v, p)) : p = pos + 1 ∧ pos + 1 ≤ buf.length := by
  unfold LIBNBT_getUint8 at h
  by_cases h1 : pos + 1 > buf.length
  · rw [if_pos h1] at h
    exact absurd h (by simp)
  · rw [if_neg h1] at h
    have h2 := Option.some_inj.mp h
    rw [Prod.ext_iff] at h2
    exact ⟨h2.2.symm, by omega⟩

theorem LIBNBT_getUint16_inv {buf : List Nat} {pos v p : Nat}
    (h : LIBNBT_getUint16 buf pos = some (v, p)) : p = pos + 2 ∧ pos + 2 ≤ buf.length := by
  unfold LIBNBT_getUint16 at h
  by_cases h1 : pos + 2 > buf.length
  · rw [if_pos h1] at h
    exact absurd h (by simp)
  · rw [if_neg h1] at h
    have h2 := Option.some_inj.mp h
    rw [Prod.ext_iff] at h2
    exact ⟨h2.2.symm, by omega⟩

theorem LIBNBT_getUint32_inv {buf : List Nat} {pos v p : Nat}
    (h : LIBNBT_getUint32 buf pos = some (v, p)) : p = pos + 4 ∧ pos + 4 ≤ buf.length := by
  unfold LIBNBT_getUint32 at h
  by_cases h1 : pos + 4 > buf.length
  · rw [if_pos h1] at h
    exact absurd h (by simp)
  · rw [if_neg h1] at h
    have h2 := Option.some_inj.mp h
    rw [Prod.ext_iff] at h2
    exact ⟨h2.2.symm, by omega⟩

theorem LIBNBT_getUint64_inv {buf : List Nat} {pos v p : Nat}
    (h : LIBNBT_getUint64 buf pos = some (v, p)) : p = pos + 8 ∧ pos + 8 ≤ buf.length := by
  unfold LIBNBT_getUint64 at h
  by_cases h1 : pos + 8 > buf.length
  · rw [if_pos h1] at h
    exact absurd h (by simp)
  · rw [if_neg h1] at h
    have h2 := Option.some_inj.mp h
    rw [Prod.ext_iff] at h2
    exact ⟨h2.2.symm, by omega⟩

theorem LIBNBT_getKey_inv {buf : List Nat} {pos : Nat} {k : Option (List Nat)} {p2 : Nat}
    (h : LIBNBT_getKey buf pos = some (k, p2)) :
    pos + 2 ≤ p2 ∧ p2 ≤ buf.length := by
  unfold LIBNBT_getKey at h
  cases h16 : LIBNBT_getUint16 buf pos with
  | none => rw [h16] at h; exact absurd h (by simp)
  | some lp =>
    obtain ⟨len, q⟩ := lp
    obtain ⟨rfl, hqb⟩ := LIBNBT_getUint16_inv h16
    rw [h16] at h
    dsimp only at h
    by_cases hl0 : len = 0
    · rw [if_pos hl0] at h
      have h2 := Option.some_inj.mp h
      rw [Prod.ext_iff] at h2
      omega
    · rw [if_neg hl0] at h
      by_cases hbd : pos + 2 + len > buf.length
      · rw [if_pos hbd] at h
        exact absurd h (by simp)
      · rw [if_neg hbd] at h
        have h2 := Option.some_inj.mp h
        rw [Prod.ext_iff] at h2
        omega

theorem getKey_take_lt {buf : List Nat} {m pos : Nat} {k : Option (List Nat)} {p2 : Nat}
    (hm : m ≤ buf.length) (h : LIBNBT_getKey buf pos = some (k, p2)) (hp : p2 ≤ m) :
    LIBNBT_getKey (buf.take m) pos = some (k, p2) := by
  obtain ⟨hge, -⟩ := LIBNBT_getKey_inv h
  unfold LIBNBT_getKey at h ⊢
  cases h16 : LIBNBT_getUint16 buf pos with
  | none => rw [h16] at h; exact absurd h (by simp)
  | some lp =>
    obtain ⟨len, q⟩ := lp
    obtain ⟨rfl, hqb⟩ := LIBNBT_getUint16_inv h16
    rw [getUint16_take_lt hm (by omega), h16]
    rw [h16] at h
    dsimp only at h ⊢
    by_cases hl0 : len = 0
    · rw [if_pos hl0] at h ⊢
      exact h
    · rw [if_neg hl0] at h ⊢
      by_cases hbd : pos + 2 + len > buf.length
      · rw [if_pos hbd] at h
        exact absurd h (by simp)
      · rw [if_neg hbd] at h
        rw [Option.some_inj, Prod.mk.injEq] at h
        obtain ⟨hk2, hp2⟩ := h
        rw [if_neg (by rw [List.length_take_of_le hm]; omega)]
        rw [take_of_take_drop buf (pos + 2) len m (by omega), hk2, hp2]

theorem getKey_take_cross {buf : List Nat} {m pos : Nat} {k : Option (List Nat)} {p2 : Nat}
    (hm : m ≤ buf.length) (h : LIBNBT_getKey buf pos = some (k, p2)) (hpos : pos ≤ m)
    (hc : m < p2) :
    LIBNBT_getKey (buf.take m) pos = none := by
  unfold LIBNBT_getKey at h ⊢
  cases h16 : LIBNBT_getUint16 buf pos with
  | none => rw [h16] at h; exact absurd h (by simp)
  | some lp =>
    obtain ⟨len, q⟩ := lp
    obtain ⟨rfl, hqb⟩ := LIBNBT_getUint16_inv h16
    rw [h16] at h
    dsimp only at h
    by_cases hl0 : len = 0
    · rw [if_pos hl0] at h
      rw [Option.some_inj, Prod.mk.injEq] at h
      obtain ⟨-, hp2⟩ := h
      rw [getUint16_take_ge (by omega)]
    · rw [if_neg hl0] at h
      by_cases hbd : pos + 2 + len > buf.length
      · rw [if_pos hbd] at h
        exact absurd h (by simp)
      · rw [if_neg hbd] at h
        rw [Option.some_inj, Prod.mk.injEq] at h
        obtain ⟨-, hp2⟩ := h
        by_cases hcut : pos + 2 ≤ m
        · rw [getUint16_take_lt hm hcut, h16]
          dsimp only
          rw [if_neg hl0, if_pos (by rw [List.length_take_of_le hm]; omega)]
        · rw [getUint16_take_ge (by omega)]

theorem readBEList_take {buf : List Nat} {m p3 avail : Nat} (w n : Nat)
    (h : p3 + avail ≤ m) :
    readBEList (buf.take m) p3 w n avail = readBEList buf p3 w n avail := by
  unfold readBEList
  refine List.map_congr_left ?_
  intro i hi
  by_cases hcond : w * i + w ≤ avail
  · rw [if_pos hcond, if_pos hcond, readBE_take w (by omega)]
  · rw [if_neg hcond, if_neg hcond]

/-! ## Truncation: fuel-zero bases and general step reductions -/

theorem truncValue_zero : TruncValue 0 := by
  unfold TruncValue
  intro typ sk buf pos n p2 m hm hOK
  rw [show parse_value 0 typ sk buf pos = .error .depthExceeded from by
    with_unfolding_all rfl] at hOK
  exact absurd hOK (by simp)

theorem truncItems_zero : TruncItems 0 := by
  unfold TruncItems
  intro nn et buf pos ns p2 m hm hOK
  cases nn with
  | zero =>
    rw [parse_items_zero] at hOK
    rw [Except.ok.injEq, Prod.mk.injEq] at hOK
    obtain ⟨rfl, rfl⟩ := hOK
    refine ⟨fun h => parse_items_zero 0 et (buf.take m) pos, fun h1 h2 => ?_, le_refl pos⟩
    omega
  | succ nn2 =>
    rw [show parse_items 0 (nn2 + 1) et buf pos = .error .depthExceeded from by
      with_unfolding_all rfl] at hOK
    exact absurd hOK (by simp)

theorem truncCompound_zero : TruncCompound 0 := by
  unfold TruncCompound
  intro buf pos ns p2 m hm hOK
  rw [show parse_compound 0 buf pos = .error .depthExceeded from by
    with_unfolding_all rfl] at hOK
  exact absurd hOK (by simp)

theorem parse_value_false_general (f typ : Nat) (ht : ¬typ = TAG_End) (buf : List Nat)
    (pos : Nat) :
    parse_value (f + 1) typ false buf pos
      = match LIBNBT_getKey buf pos with
        | none => Except.error PErr.interrupted
        | some (none, p2) => parse_payload f typ none buf p2
        | some (some kk, p2) =>
          match convert_string kk with
          | none => Except.error PErr.interrupted
          | some nk => parse_payload f typ (some nk) buf p2 := by
  simp only [parse_value]
  rw [if_neg ht]
  dsimp only
  simp only [Bool.false_eq_true, if_false]
  cases hk : LIBNBT_getKey buf pos with
  | none => with_unfolding_all rfl
  | some kp =>
    obtain ⟨kr, q2⟩ := kp
    cases kr with
    | none => with_unfolding_all rfl
    | some kk =>
      dsimp only
      cases hc : convert_string kk with
      | none => with_unfolding_all rfl
      | some nk => with_unfolding_all rfl

theorem parse_value_end_general (f : Nat) (sk : Bool) (buf : List Nat) (pos : Nat) :
    parse_value (f + 1) TAG_End sk buf pos
      = match LIBNBT_getUint8 buf pos with
        | none => Except.error PErr.interrupted
        | some (tag, p1) =>
          if isValidTag tag = true then
            (if sk then parse_payload f tag none buf p1
             else
               match LIBNBT_getKey buf p1 with
               | none => Except.error PErr.interrupted
               | some (none, p2) => parse_payload f tag none buf p2
               | some (some kk, p2) =>
                 match convert_string kk with
                 | none => Except.error PErr.interrupted
                 | some nk => parse_payload f tag (some nk) buf p2)
          else Except.error PErr.invalidTag := by
  simp only [parse_value]
  rw [if_pos trivial]
  cases h8 : LIBNBT_getUint8 buf pos with
  | none => with_unfolding_all rfl
  | some tp =>
    obtain ⟨tag, p1⟩ := tp
    dsimp only
    by_cases hv : isValidTag tag = true
    · rw [if_pos hv, if_pos hv]
      dsimp only
      cases sk with
      | true => with_unfolding_all rfl
      | false =>
        simp only [Bool.false_eq_true, if_false]
        cases hk : LIBNBT_getKey buf p1 with
        | none => with_unfolding_all rfl
        | some kp =>
          obtain ⟨kr, q2⟩ := kp
          cases kr with
          | none => with_unfolding_all rfl
          | some kk =>
            dsimp only
            cases hc : convert_string kk with
            | none => with_unfolding_all rfl
            | some nk => with_unfolding_all rfl
    · rw [if_neg hv, if_neg hv]

theorem items_truncate_of (f : Nat) (hV : TruncValue f) (hI : TruncItems f) :
    TruncItems (f + 1) := by
  unfold TruncItems
  intro nn et buf pos ns p2 m hm hOK
  cases nn with
  | zero =>
    rw [parse_items_zero] at hOK
    rw [Except.ok.injEq, Prod.mk.injEq] at hOK
    obtain ⟨rfl, rfl⟩ := hOK
    refine ⟨fun h => parse_items_zero (f + 1) et (buf.take m) pos, fun h1 h2 => ?_,
      le_refl pos⟩
    omega
  | succ nn2 =>
    simp only [parse_items] at hOK
    cases hv : parse_value f et true buf pos with
    | error e => rw [hv] at hOK; exact absurd hOK (by simp)
    | ok cp =>
      obtain ⟨c, q1⟩ := cp
      rw [hv] at hOK
      dsimp only at hOK
      cases hrest : parse_items f nn2 et buf q1 with
      | error e => rw [hrest] at hOK; exact absurd hOK (by simp)
      | ok rp =>
        obtain ⟨cs2, q2⟩ := rp
        rw [hrest] at hOK
        dsimp only at hOK
        rw [Except.ok.injEq, Prod.mk.injEq] at hOK
        obtain ⟨rfl, rfl⟩ := hOK
        obtain ⟨hvA, hvT, hvM⟩ := hV et true buf pos c q1 m hm hv
        obtain ⟨hiA, hiT, hiM⟩ := hI nn2 et buf q1 cs2 q2 m hm hrest
        refine ⟨?_, ?_, by omega⟩
        · intro hle
          simp only [parse_items]
          rw [hvA (by omega)]
          dsimp only
          rw [hiA hle]
        · intro hpm hlt
          simp only [parse_items]
          by_cases hq1 : q1 ≤ m
          · rw [hvA hq1]
            dsimp only
            rw [hiT hq1 hlt]
          · rw [hvT hpm (by omega)]

theorem compound_truncate_of (f : Nat) (hV : TruncValue f) (hC : TruncCompound f) :
    TruncCompound (f + 1) := by
  unfold TruncCompound
  intro buf pos ns p2 m hm hOK
  simp only [parse_compound] at hOK
  cases h8 : LIBNBT_getUint8 buf pos with
  | none => rw [h8] at hOK; exact absurd hOK (by simp)
  | some tp =>
    obtain ⟨t, q0⟩ := tp
    obtain ⟨rfl, h8b⟩ := LIBNBT_getUint8_inv h8
    rw [h8] at hOK
    dsimp only at hOK
    by_cases ht0 : t = 0
    · rw [if_pos ht0] at hOK
      rw [Except.ok.injEq, Prod.mk.injEq] at hOK
      obtain ⟨rfl, rfl⟩ := hOK
      refine ⟨?_, ?_, by omega⟩
      · intro hle
        simp only [parse_compound]
        rw [getUint8_take_lt hm (by omega), h8]
        dsimp only
        rw [if_pos ht0]
      · intro hpm hlt
        simp only [parse_compound]
        rw [getUint8_take_ge (by omega)]
    · rw [if_neg ht0] at hOK
      cases hv : parse_value f t false buf (pos + 1) with
      | error e => rw [hv] at hOK; exact absurd hOK (by simp)
      | ok cp =>
        obtain ⟨c, q1⟩ := cp
        rw [hv] at hOK
        dsimp only at hOK
        cases hrest : parse_compound f buf q1 with
        | error e => rw [hrest] at hOK; exact absurd hOK (by simp)
        | ok rp =>
          obtain ⟨cs2, q2⟩ := rp
          rw [hrest] at hOK
          dsimp only at hOK
          rw [Except.ok.injEq, Prod.mk.injEq] at hOK
          obtain ⟨rfl, rfl⟩ := hOK
          obtain ⟨hvA, hvT, hvM⟩ := hV t false buf (pos + 1) c q1 m hm hv
          obtain ⟨hcA, hcT, hcM⟩ := hC buf q1 cs2 q2 m hm hrest
          refine ⟨?_, ?_, by omega⟩
          · intro hle
            simp only [parse_compound]
            rw [getUint8_take_lt hm (by omega), h8]
            dsimp only
            rw [if_neg ht0, hvA (by omega)]
            dsimp only
            rw [hcA hle]
          · intro hpm hlt
            simp only [parse_compound]
            by_cases hb : pos + 1 ≤ m
            · rw [getUint8_take_lt hm hb, h8]
              dsimp only
              rw [if_neg ht0]
              by_cases hq1 : q1 ≤ m
              · rw [hvA hq1]
                dsimp only
                rw [hcT hq1 hlt]
              · rw [hvT hb (by omega)]
            · rw [getUint8_take_ge (by omega)]



theorem payload_truncate_of (f : Nat) (hI : TruncItems f) (hC : TruncCompound f) :
    TruncPayload f := by
  unfold TruncPayload
  intro tag key buf pos n p2 m hm hOK
  unfold parse_payload at hOK ⊢
  by_cases h1 : tag = TAG_Byte
  · rw [if_pos h1] at hOK ⊢
    cases h8 : LIBNBT_getUint8 buf pos with
    | none => rw [h8] at hOK; exact absurd hOK (by simp)
    | some vp =>
      obtain ⟨v, p3⟩ := vp
      obtain ⟨rfl, hbd⟩ := LIBNBT_getUint8_inv h8
      rw [h8] at hOK
      dsimp only at hOK
      rw [Except.ok.injEq, Prod.mk.injEq] at hOK
      obtain ⟨rfl, rfl⟩ := hOK
      refine ⟨fun hle => ?_, fun hpm hlt => ?_, by omega⟩
      · rw [getUint8_take_lt hm (by omega), h8]
      · rw [getUint8_take_ge (by omega)]
  · rw [if_neg h1] at hOK ⊢
    by_cases h2 : tag = TAG_Short
    · rw [if_pos h2] at hOK ⊢
      cases h16 : LIBNBT_getUint16 buf pos with
      | none => rw [h16] at hOK; exact absurd hOK (by simp)
      | some vp =>
        obtain ⟨v, p3⟩ := vp
        obtain ⟨rfl, hbd⟩ := LIBNBT_getUint16_inv h16
        rw [h16] at hOK
        dsimp only at hOK
        rw [Except.ok.injEq, Prod.mk.injEq] at hOK
        obtain ⟨rfl, rfl⟩ := hOK
        refine ⟨fun hle => ?_, fun hpm hlt => ?_, by omega⟩
        · rw [getUint16_take_lt hm (by omega), h16]
        · rw [getUint16_take_ge (by omega)]
    · rw [if_neg h2] at hOK ⊢
      by_cases h3 : tag = TAG_Int
      · rw [if_pos h3] at hOK ⊢
        cases h32 : LIBNBT_getUint32 buf pos with
        | none => rw [h32] at hOK; exact absurd hOK (by simp)
        | some vp =>
          obtain ⟨v, p3⟩ := vp
          obtain ⟨rfl, hbd⟩ := LIBNBT_getUint32_inv h32
          rw [h32] at hOK
          dsimp only at hOK
          rw [Except.ok.injEq, Prod.mk.injEq] at hOK
          obtain ⟨rfl, rfl⟩ := hOK
          refine ⟨fun hle => ?_, fun hpm hlt => ?_, by omega⟩
          · rw [getUint32_take_lt hm (by omega), h32]
          · rw [getUint32_take_ge (by omega)]
      · rw [if_neg h3] at hOK ⊢
        by_cases h4 : tag = TAG_Long
        · rw [if_pos h4] at hOK ⊢
          cases h64 : LIBNBT_getUint64 buf pos with
          | none => rw [h64] at hOK; exact absurd hOK (by simp)
          | some vp =>
            obtain ⟨v, p3⟩ := vp
            obtain ⟨rfl, hbd⟩ := LIBNBT_getUint64_inv h64
            rw [h64] at hOK
            dsimp only at hOK
            rw [Except.ok.injEq, Prod.mk.injEq] at hOK
            obtain ⟨rfl, rfl⟩ := hOK
            refine ⟨fun hle => ?_, fun hpm hlt => ?_, by omega⟩
            · rw [getUint64_take_lt hm (by omega), h64]
            · rw [getUint64_take_ge (by omega)]
        · rw [if_neg h4] at hOK ⊢
          by_cases h5 : tag = TAG_Float
          · rw [if_pos h5] at hOK ⊢
            by_cases hov : pos + 4 > buf.length
            · rw [if_pos hov] at hOK; exact absurd hOK (by simp)
            · rw [if_neg hov] at hOK
              rw [Except.ok.injEq, Prod.mk.injEq] at hOK
              obtain ⟨rfl, rfl⟩ := hOK
              refine ⟨fun hle => ?_, fun hpm hlt => ?_, by omega⟩
              · rw [List.length_take_of_le hm, if_neg (by omega),
                  readBE_take 4 (by omega)]
              · rw [List.length_take_of_le hm, if_pos (by omega)]
          · rw [if_neg h5] at hOK ⊢
            by_cases h6 : tag = TAG_Double
            · rw [if_pos h6] at hOK ⊢
              by_cases hov : pos + 8 > buf.length
              · rw [if_pos hov] at hOK; exact absurd hOK (by simp)
              · rw [if_neg hov] at hOK
                rw [Except.ok.injEq, Prod.mk.injEq] at hOK
                obtain ⟨rfl, rfl⟩ := hOK
                refine ⟨fun hle => ?_, fun hpm hlt => ?_, by omega⟩
                · rw [List.length_take_of_le hm, if_neg (by omega),
                    readBE_take 8 (by omega)]
                · rw [List.length_take_of_le hm, if_pos (by omega)]
            · rw [if_neg h6] at hOK ⊢
              by_cases h7 : tag = TAG_Byte_Array
              · rw [if_pos h7] at hOK ⊢
                cases h32 : LIBNBT_getUint32 buf pos with
                | none => rw [h32] at hOK; exact absurd hOK (by simp)
                | some lp =>
                  obtain ⟨len, p3⟩ := lp
                  obtain ⟨rfl, hbd⟩ := LIBNBT_getUint32_inv h32
                  rw [h32] at hOK
                  dsimp only at hOK
                  by_cases hov : pos + 4 + len > buf.length
                  · rw [if_pos hov] at hOK; exact absurd hOK (by simp)
                  · rw [if_neg hov] at hOK
                    rw [Except.ok.injEq, Prod.mk.injEq] at hOK
                    obtain ⟨rfl, rfl⟩ := hOK
                    refine ⟨fun hle => ?_, fun hpm hlt => ?_, by omega⟩
                    · rw [getUint32_take_lt hm (by omega), h32]
                      dsimp only
                      rw [List.length_take_of_le hm, if_neg (by omega),
                        take_of_take_drop buf (pos + 4) len m (by omega)]
                    · by_cases hcut : pos + 4 ≤ m
                      · rw [getUint32_take_lt hm hcut, h32]
                        dsimp only
                        rw [List.length_take_of_le hm, if_pos (by omega)]
                      · rw [getUint32_take_ge (by omega)]
              · rw [if_neg h7] at hOK ⊢
                by_cases h8t : tag = TAG_String
                · rw [if_pos h8t] at hOK ⊢
                  cases h16 : LIBNBT_getUint16 buf pos with
                  | none => rw [h16] at hOK; exact absurd hOK (by simp)
                  | some lp =>
                    obtain ⟨len, p3⟩ := lp
                    obtain ⟨rfl, hbd⟩ := LIBNBT_getUint16_inv h16
                    rw [h16] at hOK
                    dsimp only at hOK
                    by_cases hov : pos + 2 + len > buf.length
                    · rw [if_pos hov] at hOK; exact absurd hOK (by simp)
                    · rw [if_neg hov] at hOK
                      cases hcs : convert_string ((buf.drop (pos + 2)).take len) with
                      | none => rw [hcs] at hOK; exact absurd hOK (by simp)
                      | some nv =>
                        rw [hcs] at hOK
                        dsimp only at hOK
                        rw [Except.ok.injEq, Prod.mk.injEq] at hOK
                        obtain ⟨rfl, rfl⟩ := hOK
                        refine ⟨fun hle => ?_, fun hpm hlt => ?_, by omega⟩
                        · rw [getUint16_take_lt hm (by omega), h16]
                          dsimp only
                          rw [List.length_take_of_le hm, if_neg (by omega),
                            take_of_take_drop buf (pos + 2) len m (by omega), hcs]
                        · by_cases hcut : pos + 2 ≤ m
                          · rw [getUint16_take_lt hm hcut, h16]
                            dsimp only
                            rw [List.length_take_of_le hm, if_pos (by omega)]
                          · rw [getUint16_take_ge (by omega)]
                · rw [if_neg h8t] at hOK ⊢
                  by_cases h9 : tag = TAG_List
                  · rw [if_pos h9] at hOK ⊢
                    cases h8 : LIBNBT_getUint8 buf pos with
                    | none => rw [h8] at hOK; exact absurd hOK (by simp)
                    | some tp =>
                      obtain ⟨lt, p3⟩ := tp
                      obtain ⟨rfl, hbd1⟩ := LIBNBT_getUint8_inv h8
                      rw [h8] at hOK
                      dsimp only at hOK
                      cases h32 : LIBNBT_getUint32 buf (pos + 1) with
                      | none => rw [h32] at hOK; exact absurd hOK (by simp)
                      | some lp =>
                        obtain ⟨len, p4⟩ := lp
                        obtain ⟨rfl, hbd2⟩ := LIBNBT_getUint32_inv h32
                        rw [h32] at hOK
                        dsimp only at hOK
                        by_cases hend : lt = TAG_End ∧ len ≠ 0
                        · rw [if_pos hend] at hOK; exact absurd hOK (by simp)
                        · rw [if_neg hend] at hOK
                          cases hit : parse_items f len lt buf (pos + 1 + 4) with
                          | error e => rw [hit] at hOK; exact absurd hOK (by simp)
                          | ok ip =>
                            obtain ⟨cs, p5⟩ := ip
                            rw [hit] at hOK
                            dsimp only at hOK
                            rw [Except.ok.injEq, Prod.mk.injEq] at hOK
                            obtain ⟨rfl, rfl⟩ := hOK
                            obtain ⟨hiA, hiT, hiM⟩ :=
                              hI len lt buf (pos + 1 + 4) cs p5 m hm hit
                            refine ⟨fun hle => ?_, fun hpm hlt2 => ?_, by omega⟩
                            · rw [getUint8_take_lt hm (by omega), h8]
                              dsimp only
                              rw [getUint32_take_lt hm (by omega), h32]
                              dsimp only
                              rw [if_neg hend, hiA hle]
                            · by_cases hc1 : pos + 1 ≤ m
                              · by_cases hc2 : pos + 1 + 4 ≤ m
                                · rw [getUint8_take_lt hm hc1, h8]
                                  dsimp only
                                  rw [getUint32_take_lt hm hc2, h32]
                                  dsimp only
                                  rw [if_neg hend, hiT hc2 hlt2]
                                · rw [getUint8_take_lt hm hc1, h8]
                                  dsimp only
                                  rw [getUint32_take_ge (by omega)]
                              · rw [getUint8_take_ge (by omega)]
                  · rw [if_neg h9] at hOK ⊢
                    by_cases h10 : tag = TAG_Compound
                    · rw [if_pos h10] at hOK ⊢
                      cases hcp : parse_compound f buf pos with
                      | error e => rw [hcp] at hOK; exact absurd hOK (by simp)
                      | ok cp2 =>
                        obtain ⟨cs, p3⟩ := cp2
                        rw [hcp] at hOK
                        dsimp only at hOK
                        rw [Except.ok.injEq, Prod.mk.injEq] at hOK
                        obtain ⟨rfl, rfl⟩ := hOK
                        obtain ⟨hcA, hcT, hcM⟩ := hC buf pos cs p3 m hm hcp
                        refine ⟨fun hle => ?_, fun hpm hlt => ?_, hcM⟩
                        · rw [hcA hle]
                        · rw [hcT hpm hlt]
                    · rw [if_neg h10] at hOK ⊢
                      by_cases h11 : tag = TAG_Int_Array
                      · rw [if_pos h11] at hOK ⊢
                        cases h32 : LIBNBT_getUint32 buf pos with
                        | none => rw [h32] at hOK; exact absurd hOK (by simp)
                        | some lp =>
                          obtain ⟨len, p3⟩ := lp
                          obtain ⟨rfl, hbd⟩ := LIBNBT_getUint32_inv h32
                          rw [h32] at hOK
                          dsimp only at hOK
                          by_cases hov : pos + 4 + len * 4 % 2 ^ 32 > buf.length
                          · rw [if_pos hov] at hOK; exact absurd hOK (by simp)
                          · rw [if_neg hov] at hOK
                            rw [Except.ok.injEq, Prod.mk.injEq] at hOK
                            obtain ⟨rfl, rfl⟩ := hOK
                            refine ⟨fun hle => ?_, fun hpm hlt => ?_, by omega⟩
                            · rw [getUint32_take_lt hm (by omega), h32]
                              dsimp only
                              rw [List.length_take_of_le hm, if_neg (by omega),
                                readBEList_take 4 len (by omega)]
                            · by_cases hcut : pos + 4 ≤ m
                              · rw [getUint32_take_lt hm hcut, h32]
                                dsimp only
                                rw [List.length_take_of_le hm, if_pos (by omega)]
                              · rw [getUint32_take_ge (by omega)]
                      · rw [if_neg h11] at hOK ⊢
                        by_cases h12 : tag = TAG_Long_Array
                        · rw [if_pos h12] at hOK ⊢
                          cases h32 : LIBNBT_getUint32 buf pos with
                          | none => rw [h32] at hOK; exact absurd hOK (by simp)
                          | some lp =>
                            obtain ⟨len, p3⟩ := lp
                            obtain ⟨rfl, hbd⟩ := LIBNBT_getUint32_inv h32
                            rw [h32] at hOK
                            dsimp only at hOK
                            by_cases hov : pos + 4 + len * 8 % 2 ^ 32 > buf.length
                            · rw [if_pos hov] at hOK; exact absurd hOK (by simp)
                            · rw [if_neg hov] at hOK
                              rw [Except.ok.injEq, Prod.mk.injEq] at hOK
                              obtain ⟨rfl, rfl⟩ := hOK
                              refine ⟨fun hle => ?_, fun hpm hlt => ?_, by omega⟩
                              · rw [getUint32_take_lt hm (by omega), h32]
                                dsimp only
                                rw [List.length_take_of_le hm, if_neg (by omega),
                                  readBEList_take 8 len (by omega)]
                              · by_cases hcut : pos + 4 ≤ m
                                · rw [getUint32_take_lt hm hcut, h32]
                                  dsimp only
                                  rw [List.length_take_of_le hm, if_pos (by omega)]
                                · rw [getUint32_take_ge (by omega)]
                        · rw [if_neg h12] at hOK
                          exact absurd hOK (by simp)

/-- `parse_value` at positive fuel inherits the truncation property from
its payload stage: the tag check, optional key read and MUTF-8 key
conversion each either survive the cut or hit `interrupted`. -/
theorem value_truncate_of (f : Nat) (hA : TruncPayload f) : TruncValue (f + 1) := by
  unfold TruncValue
  intro typ sk buf pos n p2 m hm hOK
  by_cases ht : typ = TAG_End
  · subst ht
    rw [parse_value_end_general] at hOK
    cases h8 : LIBNBT_getUint8 buf pos with
    | none => rw [h8] at hOK; exact absurd hOK (by simp)
    | some tp =>
      obtain ⟨tag, p1⟩ := tp
      obtain ⟨rfl, hbd1⟩ := LIBNBT_getUint8_inv h8
      rw [h8] at hOK
      dsimp only at hOK
      by_cases hv : isValidTag tag = true
      · rw [if_pos hv] at hOK
        cases sk with
        | true =>
          rw [if_pos rfl] at hOK
          obtain ⟨haA, haT, haM⟩ := hA tag none buf (pos + 1) n p2 m hm hOK
          refine ⟨fun hle => ?_, fun hpm hlt => ?_, by omega⟩
          · rw [parse_value_end_general, getUint8_take_lt hm (by omega), h8]
            dsimp only
            rw [if_pos hv, if_pos rfl, haA hle]
          · by_cases hc1 : pos + 1 ≤ m
            · rw [parse_value_end_general, getUint8_take_lt hm hc1, h8]
              dsimp only
              rw [if_pos hv, if_pos rfl, haT hc1 hlt]
            · rw [parse_value_end_general, getUint8_take_ge (by omega)]
        | false =>
          simp only [Bool.false_eq_true, if_false] at hOK
          cases hk : LIBNBT_getKey buf (pos + 1) with
          | none => rw [hk] at hOK; exact absurd hOK (by simp)
          | some kp =>
            obtain ⟨kr, q2⟩ := kp
            obtain ⟨hkq, hkb⟩ := LIBNBT_getKey_inv hk
            rw [hk] at hOK
            cases kr with
            | none =>
              dsimp only at hOK
              obtain ⟨haA, haT, haM⟩ := hA tag none buf q2 n p2 m hm hOK
              refine ⟨fun hle => ?_, fun hpm hlt => ?_, by omega⟩
              · rw [parse_value_end_general, getUint8_take_lt hm (by omega), h8]
                dsimp only
                rw [if_pos hv]
                simp only [Bool.false_eq_true, if_false]
                rw [getKey_take_lt hm hk (by omega)]
                dsimp only
                rw [haA hle]
              · by_cases hc1 : pos + 1 ≤ m
                · by_cases hc2 : q2 ≤ m
                  · rw [parse_value_end_general, getUint8_take_lt hm hc1, h8]
                    dsimp only
                    rw [if_pos hv]
                    simp only [Bool.false_eq_true, if_false]
                    rw [getKey_take_lt hm hk hc2]
                    dsimp only
                    rw [haT hc2 hlt]
                  · rw [parse_value_end_general, getUint8_take_lt hm hc1, h8]
                    dsimp only
                    rw [if_pos hv]
                    simp only [Bool.false_eq_true, if_false]
                    rw [getKey_take_cross hm hk hc1 (by omega)]
                · rw [parse_value_end_general, getUint8_take_ge (by omega)]
            | some kk =>
              dsimp only at hOK
              cases hcs : convert_string kk with
              | none => rw [hcs] at hOK; exact absurd hOK (by simp)
              | some nk =>
                rw [hcs] at hOK
                dsimp only at hOK
                obtain ⟨haA, haT, haM⟩ := hA tag (some nk) buf q2 n p2 m hm hOK
                refine ⟨fun hle => ?_, fun hpm hlt => ?_, by omega⟩
                · rw [parse_value_end_general, getUint8_take_lt hm (by omega), h8]
                  dsimp only
                  rw [if_pos hv]
                  simp only [Bool.false_eq_true, if_false]
                  rw [getKey_take_lt hm hk (by omega)]
                  dsimp only
                  rw [hcs]
                  dsimp only
                  rw [haA hle]
                · by_cases hc1 : pos + 1 ≤ m
                  · by_cases hc2 : q2 ≤ m
                    · rw [parse_value_end_general, getUint8_take_lt hm hc1, h8]
                      dsimp only
                      rw [if_pos hv]
                      simp only [Bool.false_eq_true, if_false]
                      rw [getKey_take_lt hm hk hc2]
                      dsimp only
                      rw [hcs]
                      dsimp only
                      rw [haT hc2 hlt]
                    · rw [parse_value_end_general, getUint8_take_lt hm hc1, h8]
                      dsimp only
                      rw [if_pos hv]
                      simp only [Bool.false_eq_true, if_false]
                      rw [getKey_take_cross hm hk hc1 (by omega)]
                  · rw [parse_value_end_general, getUint8_take_ge (by omega)]
      · rw [if_neg hv] at hOK
        exact absurd hOK (by simp)
  · cases sk with
    | true =>
      rw [parse_value_skipkey f typ ht] at hOK
      obtain ⟨haA, haT, haM⟩ := hA typ none buf pos n p2 m hm hOK
      refine ⟨fun hle => ?_, fun hpm hlt => ?_, haM⟩
      · rw [parse_value_skipkey f typ ht, haA hle]
      · rw [parse_value_skipkey f typ ht, haT hpm hlt]
    | false =>
      rw [parse_value_false_general f typ ht] at hOK
      cases hk : LIBNBT_getKey buf pos with
      | none => rw [hk] at hOK; exact absurd hOK (by simp)
      | some kp =>
        obtain ⟨kr, q2⟩ := kp
        obtain ⟨hkq, hkb⟩ := LIBNBT_getKey_inv hk
        rw [hk] at hOK
        cases kr with
        | none =>
          dsimp only at hOK
          obtain ⟨haA, haT, haM⟩ := hA typ none buf q2 n p2 m hm hOK
          refine ⟨fun hle => ?_, fun hpm hlt => ?_, by omega⟩
          · rw [parse_value_false_general f typ ht, getKey_take_lt hm hk (by omega)]
            dsimp only
            rw [haA hle]
          · by_cases hc2 : q2 ≤ m
            · rw [parse_value_false_general f typ ht, getKey_take_lt hm hk hc2]
              dsimp only
              rw [haT hc2 hlt]
            · rw [parse_value_false_general f typ ht,
                getKey_take_cross hm hk hpm (by omega)]
        | some kk =>
          dsimp only at hOK
          cases hcs : convert_string kk with
          | none => rw [hcs] at hOK; exact absurd hOK (by simp)
          | some nk =>
            rw [hcs] at hOK
            dsimp only at hOK
            obtain ⟨haA, haT, haM⟩ := hA typ (some nk) buf q2 n p2 m hm hOK
            refine ⟨fun hle => ?_, fun hpm hlt => ?_, by omega⟩
            · rw [parse_value_false_general f typ ht, getKey_take_lt hm hk (by omega)]
              dsimp only
              rw [hcs]
              dsimp only
              rw [haA hle]
            · by_cases hc2 : q2 ≤ m
              · rw [parse_value_false_general f typ ht, getKey_take_lt hm hk hc2]
                dsimp only
                rw [hcs]
                dsimp only
                rw [haT hc2 hlt]
              · rw [parse_value_false_general f typ ht,
                  getKey_take_cross hm hk hpm (by omega)]

/-- Bundled truncation property at every fuel, by induction on the
fuel: each parser in the mutual nest either runs identically on the cut
buffer or stops with `interrupted`. -/
theorem trunc_all (f : Nat) :
    TruncValue f ∧ TruncItems f ∧ TruncCompound f ∧ TruncPayload f := by
  induction f with
  | zero =>
    exact ⟨truncValue_zero, truncItems_zero, truncCompound_zero,
      payload_truncate_of 0 truncItems_zero truncCompound_zero⟩
  | succ f ih =>
    obtain ⟨ihV, ihI, ihC, ihA⟩ := ih
    have hI2 := items_truncate_of f ihV ihI
    have hC2 := compound_truncate_of f ihV ihC
    exact ⟨value_truncate_of f ihA, hI2, hC2, payload_truncate_of (f + 1) hI2 hC2⟩

/-- C5: decoding any nonempty strict prefix of a buffer that decodes to
a tree with no error fails with `interrupted` (UnexpectedEndOfInput),
and the decoder returns no tree at all — never a partially built one.
(The empty prefix is excluded: on a zero-length buffer the C code reads
`data[0]` with no length guard, which is undefined behaviour and is not
modelled.) -/
theorem C5_truncated_prefix_interrupted (fuel : Nat) (B : List Nat) (T : NbtNode)
    (m : Nat) (hdoc : nbt_node_new_opt fuel B = some (some T, none))
    (hm1 : 1 ≤ m) (hm2 : m < B.length) :
    nbt_node_new_opt fuel (B.take m) = some (none, some PErr.interrupted) := by
  unfold nbt_node_new_opt at hdoc ⊢
  by_cases h0 : B.length = 0
  · rw [if_pos h0] at hdoc; exact absurd hdoc (by simp)
  · rw [if_neg h0] at hdoc
    by_cases hg : 1 < B.length ∧ B.getD 0 0 = 0x1f ∧ B.getD 1 0 = 0x8b
    · rw [if_pos hg] at hdoc; exact absurd hdoc (by simp)
    · rw [if_neg hg] at hdoc
      by_cases hz : B.getD 0 0 = 0x78
      · rw [if_pos hz] at hdoc; exact absurd hdoc (by simp)
      · rw [if_neg hz] at hdoc
        cases hpv : parse_value fuel TAG_End false B 0 with
        | error e =>
          rw [hpv] at hdoc
          dsimp only at hdoc
          rw [Option.some_inj, Prod.mk.injEq] at hdoc
          exact absurd hdoc.1 (by simp)
        | ok rp =>
          obtain ⟨root, pos⟩ := rp
          rw [hpv] at hdoc
          dsimp only at hdoc
          by_cases hpos : pos ≠ B.length
          · rw [if_pos hpos] at hdoc
            rw [Option.some_inj, Prod.mk.injEq] at hdoc
            exact absurd hdoc.2 (by simp)
          · rw [if_neg hpos] at hdoc
            rw [Option.some_inj, Prod.mk.injEq, Option.some_inj] at hdoc
            obtain ⟨rfl, -⟩ := hdoc
            rw [not_not] at hpos
            subst hpos
            obtain ⟨-, hT, -⟩ :=
              (trunc_all fuel).1 TAG_End false B 0 root B.length m (by omega) hpv
            have hlen : (B.take m).length = m := List.length_take_of_le (by omega)
            rw [if_neg (by rw [hlen]; omega)]
            rw [if_neg (by
              rw [hlen]
              rintro ⟨hm2b, hb0, hb1⟩
              rw [getD_take (by omega)] at hb0
              rw [getD_take (by omega)] at hb1
              exact hg ⟨by omega, hb0, hb1⟩)]
            rw [if_neg (by rw [getD_take (by omega)]; exact hz)]
            rw [hT (by omega) hm2]

theorem C5_truncated_prefix_interrupted_witness :
    nbt_node_new_opt 2 (List.take 2 [1, 0, 0, 7]) = some (none, some PErr.interrupted) :=
  C5_truncated_prefix_interrupted 2 [1, 0, 0, 7]
    (NbtNode.mk TAG_Byte none (NbtValue.vInt 7) []) 2
    (by with_unfolding_all rfl) (by decide) (by decide)

end NbtGlib
